import Mathlib

/-!
Verification of the minotor transit-routing core against its specification.

The definitions below are a shallow embedding of the TypeScript sources:
`src/timetable/route.ts`, `src/timetable/timetable.ts`,
`src/routing/router.ts` and the `Result` class (route reconstruction).
Pure functions become Lean functions; the mutable per-query routing state
becomes explicit state passing; JavaScript `Map`/`Set` objects become
association lists that keep JS insertion-order semantics; machine integers
(`Uint8Array`/`Uint16Array`/`Uint32Array` cells) are natural numbers, with
explicit masking where the source masks.
-/

set_option maxHeartbeats 1000000

namespace Minotor

/-! Identifiers, mirroring the type aliases of the source. All of them are
dense non-negative integers; the definitions below use `Nat` directly and
these aliases record the source's names. -/

abbrev StopId := Nat
abbrev SourceStopId := Nat
abbrev RouteId := Nat
abbrev ServiceRouteId := Nat
abbrev StopRouteIndex := Nat
abbrev TripRouteIndex := Nat

/-- Modelled from the spec: a `Duration` is a non-negative integer number of
minutes (the source file `timetable/duration.ts` is not among the retrieved
sources; the spec fixes minute-resolution arithmetic). -/
abbrev Duration := Nat

/-- Modelled from the spec: Time is a non-negative integer number of minutes
from the day origin, with a sentinel `infinity` (unreached) that compares
greater than every real time (the source file `timetable/time.ts` is not among
the retrieved sources; the spec fixes this model). -/
inductive Time where
  | mins (m : Nat)
  | infinity
deriving DecidableEq, Repr, BEq

namespace Time

def fromMinutes (m : Nat) : Time := .mins m

def isBefore : Time → Time → Bool
  | .mins a, .mins b => a < b
  | .mins _, .infinity => true
  | .infinity, _ => false

def plus : Time → Nat → Time
  | .mins a, d => .mins (a + d)
  | .infinity, _ => .infinity

def min (a b : Time) : Time := if b.isBefore a then b else a

theorem isBefore_irrefl (a : Time) : a.isBefore a = false := by
  cases a <;> simp [isBefore]

theorem not_isBefore_trans {a b c : Time} (h1 : a.isBefore b = false)
    (h2 : b.isBefore c = false) : a.isBefore c = false := by
  cases a <;> cases b <;> cases c <;> simp_all [isBefore] <;> omega

theorem isBefore_of_isBefore_of_not {a b c : Time} (h1 : a.isBefore b = true)
    (h2 : c.isBefore b = false) : a.isBefore c = true := by
  cases a <;> cases b <;> cases c <;> simp_all [isBefore] <;> omega

theorem isBefore_trans {a b c : Time} (h1 : a.isBefore b = true)
    (h2 : b.isBefore c = true) : a.isBefore c = true := by
  cases a <;> cases b <;> cases c <;> simp_all [isBefore] <;> omega

theorem not_isBefore_plus (a : Time) (d : Nat) :
    (a.plus d).isBefore a = false := by
  cases a <;> simp [isBefore, plus]

theorem isBefore_infinity_ne {a : Time} (h : a.isBefore Time.infinity = true) :
    ∃ m, a = .mins m := by
  cases a <;> simp_all [isBefore]

theorem mins_of_isBefore {a b : Time} (h : a.isBefore b = true) :
    ∃ m, a = .mins m := by
  cases a <;> simp_all [isBefore]

end Time

/-! Association lists modelling JavaScript `Map` objects: `get?` finds the
first (unique) binding, `set` replaces in place or appends, iteration order is
list order, i.e. insertion order, exactly as in JS. -/

def JsMap (K V : Type) := List (K × V)

namespace JsMap

variable {K V : Type} [DecidableEq K]

def empty {K V : Type} : JsMap K V := []

def get? : JsMap K V → K → Option V
  | [], _ => none
  | (k, v) :: rest, key => if k = key then some v else get? rest key

def set : JsMap K V → K → V → JsMap K V
  | [], key, val => [(key, val)]
  | (k, v) :: rest, key, val =>
      if k = key then (k, val) :: rest else (k, v) :: set rest key val

def keys {K V : Type} (m : JsMap K V) : List K := m.map Prod.fst

/-- The underlying entry list of a map (identity on the representation). -/
def toList {K V : Type} (m : JsMap K V) : List (K × V) := m

@[simp] theorem get?_empty (k : K) : (empty : JsMap K V).get? k = none := rfl

@[simp] theorem get?_set_self (m : JsMap K V) (k : K) (v : V) :
    (m.set k v).get? k = some v := by
  induction m with
  | nil => simp [set, get?]
  | cons kv rest ih =>
    by_cases h : kv.1 = k <;> simp [set, get?, h, ih]

theorem get?_set_ne (m : JsMap K V) {k k' : K} (v : V) (h : k ≠ k') :
    (m.set k v).get? k' = m.get? k' := by
  induction m with
  | nil => simp [set, get?, h]
  | cons kv rest ih =>
    by_cases hk : kv.1 = k
    · subst hk
      simp [set, get?, h]
    · simp only [set, if_neg hk]
      by_cases hk' : kv.1 = k' <;> simp [get?, hk', ih]

theorem get?_set (m : JsMap K V) (k k' : K) (v : V) :
    (m.set k v).get? k' = if k = k' then some v else m.get? k' := by
  by_cases h : k = k'
  · subst h; simp
  · simp [h, get?_set_ne m v h]

end JsMap

/-- Addition into a JS `Set` modelled as a duplicate-free list in insertion
order: `add` appends only when the element is missing. -/
def jsAdd {α : Type} [DecidableEq α] (l : List α) (a : α) : List α :=
  if a ∈ l then l else l ++ [a]

/-- Folding `jsAdd` over a list mirrors `for (x of news) set.add(x)`. -/
def jsUnion {α : Type} [DecidableEq α] (l news : List α) : List α :=
  news.foldl jsAdd l

/-! The Route class of `timetable/route.ts`: a columnar store of one route's
stops, packed stop-times and packed pick-up/drop-off types. -/

/-- PickUpDropOffType of `timetable/route.ts`. -/
inductive PickUpDropOffType where
  | REGULAR
  | NOT_AVAILABLE
  | MUST_PHONE_AGENCY
  | MUST_COORDINATE_WITH_DRIVER
deriving DecidableEq, Repr, BEq

/-- Embeds `toPickupDropOffType` (the numeric-to-enum table of
`timetable/route.ts`); callers always pass a 2-bit value. -/
def toPickupDropOffType (n : Nat) : PickUpDropOffType :=
  if n = 0 then .REGULAR
  else if n = 1 then .NOT_AVAILABLE
  else if n = 2 then .MUST_PHONE_AGENCY
  else .MUST_COORDINATE_WITH_DRIVER

/-- Embeds the `Route` class fields of `timetable/route.ts`. `stopTimes` is
the packed `[arrival1, departure1, arrival2, departure2, ...]` array of
minutes, `pickUpDropOffTypes` the 2-bit packed byte array, `stops` the ordered
stop list. -/
structure Route where
  id : Nat
  stopTimes : List Nat
  pickUpDropOffTypes : List Nat
  stops : List Nat
  serviceRouteId : Nat
deriving DecidableEq, Repr

namespace Route

/-- Embeds `getNbStops` (`nbStops = stops.length`). -/
def nbStops (r : Route) : Nat := r.stops.length

/-- Embeds `nbTrips = stopTimes.length / (stops.length * 2)`. -/
def nbTrips (r : Route) : Nat := r.stopTimes.length / (r.stops.length * 2)

/-- Embeds `Route.arrivalAt`. The source resolves a `StopId` to its stop-route
index through the `stopIndices` map and reads the packed array at
`(tripIndex * stops.length + stopIndex) * 2`; the router passes stop-route
indices, so the embedding takes the index directly. An out-of-range read
throws in the source; it is modelled as `Time.infinity`, which can never
improve an arrival nor board a trip. -/
def arrivalAt (r : Route) (stopIndex : Nat)
    (tripIndex : Nat) : Time :=
  match r.stopTimes.get? ((tripIndex * r.stops.length + stopIndex) * 2) with
  | some m => .mins m
  | none => .infinity

/-- Embeds `Route.departureFrom` (offset `... * 2 + 1`); same modelling notes
as `arrivalAt`. -/
def departureFrom (r : Route) (stopIndex : Nat)
    (tripIndex : Nat) : Time :=
  match r.stopTimes.get? ((tripIndex * r.stops.length + stopIndex) * 2 + 1) with
  | some m => .mins m
  | none => .infinity

/-- Embeds `Route.pickUpTypeFrom`: byte `globalIndex / 2`; for the second pair
of a byte the pick-up value is bits 6-7, for the first pair bits 2-3. An
out-of-range byte read throws in the source; it is modelled as
`NOT_AVAILABLE` (never boardable). -/
def pickUpTypeFrom (r : Route) (stopIndex : Nat)
    (tripIndex : Nat) : PickUpDropOffType :=
  let globalIndex := tripIndex * r.stops.length + stopIndex
  let byteIndex := globalIndex / 2
  match r.pickUpDropOffTypes.get? byteIndex with
  | none => .NOT_AVAILABLE
  | some byte =>
      let pickUpValue :=
        if globalIndex % 2 = 1 then (byte >>> 6) &&& 0x03
        else (byte >>> 2) &&& 0x03
      toPickupDropOffType pickUpValue

/-- Embeds `Route.dropOffTypeAt`: for the second pair of a byte the drop-off
value is bits 4-5, for the first pair bits 0-1. Same modelling notes as
`pickUpTypeFrom`. -/
def dropOffTypeAt (r : Route) (stopIndex : Nat)
    (tripIndex : Nat) : PickUpDropOffType :=
  let globalIndex := tripIndex * r.stops.length + stopIndex
  let byteIndex := globalIndex / 2
  match r.pickUpDropOffTypes.get? byteIndex with
  | none => .NOT_AVAILABLE
  | some byte =>
      let dropOffValue :=
        if globalIndex % 2 = 1 then (byte >>> 4) &&& 0x03
        else byte &&& 0x03
      toPickupDropOffType dropOffValue

end Route

/-- Loop body of `encodePickUpDropOffTypes` (the `for` loop of the GTFS trips
importer), processing position `i`: the second pair of a byte goes to the
upper nibble, the first pair to the lower nibble, drop-off below pick-up. -/
def encodePickUpDropOffStep (pickUpTypes dropOffTypes : List Nat)
    (encoded : List Nat) (i : Nat) : List Nat :=
  let byteIndex := i / 2
  match dropOffTypes.get? i, pickUpTypes.get? i, encoded.get? byteIndex with
  | some dropOffType, some pickUpType, some currentByte =>
      if i % 2 = 1 then
        encoded.set byteIndex
          (currentByte ||| (dropOffType <<< 4) ||| (pickUpType <<< 6))
      else
        encoded.set byteIndex
          (currentByte ||| dropOffType ||| (pickUpType <<< 2))
  | _, _, _ => encoded

/-- Embeds `encodePickUpDropOffTypes` of the GTFS trips importer: two
(pick-up, drop-off) pairs per byte at 2 bits per value. The
`Uint8Array(Math.ceil(stopsCount / 2))` is modelled as a zero-filled list of
bytes updated in place by the loop body `encodePickUpDropOffStep`. -/
def encodePickUpDropOffTypes (pickUpTypes dropOffTypes : List Nat) :
    List Nat :=
  let stopsCount := pickUpTypes.length
  let arraySize := (stopsCount + 1) / 2
  (List.range stopsCount).foldl
    (encodePickUpDropOffStep pickUpTypes dropOffTypes)
    (List.replicate arraySize 0)

/-- The value of byte `j` of the encoding after the first `m` positions have
been processed. -/
def encodedBytePartial (pickUpTypes dropOffTypes : List Nat) (m j : Nat) :
    Nat :=
  (if 2 * j < m then
      dropOffTypes.getD (2 * j) 0 + 4 * pickUpTypes.getD (2 * j) 0
    else 0) +
  (if 2 * j + 1 < m then
      16 * dropOffTypes.getD (2 * j + 1) 0 + 64 * pickUpTypes.getD (2 * j + 1) 0
    else 0)

theorem lor_low_nibble (b dv pv : Nat) (hb : b = 0) (hd : dv < 4)
    (hp : pv < 4) : b ||| dv ||| (pv <<< 2) = dv + 4 * pv := by
  subst hb
  interval_cases dv <;> interval_cases pv <;> rfl

theorem lor_high_nibble (b dv pv : Nat) (hb : b < 16) (hd : dv < 4)
    (hp : pv < 4) : b ||| (dv <<< 4) ||| (pv <<< 6) = b + 16 * dv + 64 * pv := by
  interval_cases b <;> interval_cases dv <;> interval_cases pv <;> rfl

theorem get?_eq_some_getD {l : List Nat} {i : Nat} (h : i < l.length) :
    l.get? i = some (l.getD i 0) := by
  simp [List.get?_eq_getElem?, List.getD_eq_getElem?_getD,
    List.getElem?_eq_getElem h]

theorem list_get?_set_self {α : Type} (l : List α) (i : Nat) (a : α)
    (h : i < l.length) : (l.set i a).get? i = some a := by
  induction l generalizing i with
  | nil => simp at h
  | cons x xs ih =>
    cases i with
    | zero => rfl
    | succ n => simpa [List.set, List.get?] using ih n (by simpa using h)

theorem lt_length_of_get?_eq_some {α : Type} {l : List α} {i : Nat} {a : α}
    (h : l.get? i = some a) : i < l.length := by
  by_contra hc
  rw [List.get?_eq_getElem?, List.getElem?_eq_none (by omega)] at h
  simp at h

theorem list_get?_set_ne {α : Type} (l : List α) (i j : Nat) (a : α)
    (h : i ≠ j) : (l.set i a).get? j = l.get? j := by
  induction l generalizing i j with
  | nil => rfl
  | cons x xs ih =>
    cases i with
    | zero =>
      cases j with
      | zero => exact absurd rfl h
      | succ n => rfl
    | succ n =>
      cases j with
      | zero => rfl
      | succ k => simpa [List.set, List.get?] using ih n k (by omega)

theorem encodedBytePartial_stable (p d : List Nat) (m j : Nat)
    (hne : j ≠ m / 2) :
    encodedBytePartial p d (m + 1) j = encodedBytePartial p d m j := by
  unfold encodedBytePartial
  rw [if_congr (show (2 * j < m + 1) ↔ (2 * j < m) by omega) rfl rfl,
    if_congr (show (2 * j + 1 < m + 1) ↔ (2 * j + 1 < m) by omega) rfl rfl]

/-- Characterization of the encoder loop: after processing the first `m`
positions, byte `j` holds exactly the packed pairs at positions `2j` and
`2j+1` that have been processed so far. -/
theorem encode_fold_spec (p d : List Nat) (hlen : d.length = p.length)
    (hp : ∀ i, p.getD i 0 < 4) (hd : ∀ i, d.getD i 0 < 4) (m : Nat)
    (hm : m ≤ p.length) :
    ∀ j, ((List.range m).foldl (encodePickUpDropOffStep p d)
        (List.replicate ((p.length + 1) / 2) 0)).get? j =
      if j < (p.length + 1) / 2 then some (encodedBytePartial p d m j)
      else none := by
  induction m with
  | zero =>
    intro j
    simp only [List.range_zero, List.foldl_nil]
    by_cases hj : j < (p.length + 1) / 2
    · rw [get?_eq_some_getD (by simpa using hj)]
      simp [encodedBytePartial, hj, List.getD_eq_getElem?_getD,
        List.getElem?_replicate]
    · simp only [if_neg hj]
      rw [List.get?_eq_getElem?, List.getElem?_eq_none (by simpa using hj)]
  | succ m ih =>
    intro j
    have hm' : m ≤ p.length := Nat.le_of_succ_le hm
    have hmp : m < p.length := hm
    have ihm := ih hm'
    rw [List.range_succ, List.foldl_append, List.foldl_cons, List.foldl_nil]
    have hbyte : m / 2 < (p.length + 1) / 2 := by omega
    have hEb := ihm (m / 2)
    rw [if_pos hbyte] at hEb
    have hpd : d.get? m = some (d.getD m 0) :=
      get?_eq_some_getD (by omega)
    have hpp : p.get? m = some (p.getD m 0) :=
      get?_eq_some_getD hmp
    simp only [encodePickUpDropOffStep, hpd, hpp, hEb]
    by_cases hpar : m % 2 = 1
    · rw [if_pos hpar]
      have h2j : 2 * (m / 2) = m - 1 := by omega
      have hcur : encodedBytePartial p d m (m / 2) =
          d.getD (m - 1) 0 + 4 * p.getD (m - 1) 0 := by
        simp only [encodedBytePartial, h2j]
        rw [if_pos (by omega), if_neg (by omega)]
        omega
      rw [hcur, lor_high_nibble _ _ _ (by have := hd (m - 1); have := hp (m - 1); omega)
        (hd m) (hp m)]
      by_cases hjm : j = m / 2
      · subst hjm
        rw [list_get?_set_self _ _ _ (lt_length_of_get?_eq_some hEb),
          if_pos hbyte]
        congr 1
        simp only [encodedBytePartial]
        rw [if_pos (by omega), if_pos (by omega),
          show 2 * (m / 2) + 1 = m by omega, show 2 * (m / 2) = m - 1 by omega]
        omega
      · rw [list_get?_set_ne _ _ _ _ (fun he => hjm he.symm), ihm j,
          encodedBytePartial_stable p d m j hjm]
    · rw [if_neg hpar]
      have h2j : 2 * (m / 2) = m := by omega
      have hcur : encodedBytePartial p d m (m / 2) = 0 := by
        simp only [encodedBytePartial, h2j]
        rw [if_neg (by omega), if_neg (by omega)]
      rw [hcur, lor_low_nibble _ _ _ rfl (hd m) (hp m)]
      by_cases hjm : j = m / 2
      · subst hjm
        rw [list_get?_set_self _ _ _ (lt_length_of_get?_eq_some hEb),
          if_pos hbyte]
        congr 1
        simp only [encodedBytePartial]
        rw [if_pos (by omega), if_neg (by omega),
          show 2 * (m / 2) = m by omega]
        omega
      · rw [list_get?_set_ne _ _ _ _ (fun he => hjm he.symm), ihm j,
          encodedBytePartial_stable p d m j hjm]

theorem extract_first_pick (d0 p0 d1 p1 : Nat) (h0 : d0 < 4) (h1 : p0 < 4)
    (h2 : d1 < 4) (h3 : p1 < 4) :
    ((d0 + 4 * p0 + (16 * d1 + 64 * p1)) >>> 2) &&& 0x03 = p0 := by
  interval_cases d0 <;> interval_cases p0 <;> interval_cases d1 <;>
    interval_cases p1 <;> rfl

theorem extract_first_drop (d0 p0 d1 p1 : Nat) (h0 : d0 < 4) (h1 : p0 < 4)
    (h2 : d1 < 4) (h3 : p1 < 4) :
    (d0 + 4 * p0 + (16 * d1 + 64 * p1)) &&& 0x03 = d0 := by
  interval_cases d0 <;> interval_cases p0 <;> interval_cases d1 <;>
    interval_cases p1 <;> rfl

theorem extract_second_pick (d0 p0 d1 p1 : Nat) (h0 : d0 < 4) (h1 : p0 < 4)
    (h2 : d1 < 4) (h3 : p1 < 4) :
    ((d0 + 4 * p0 + (16 * d1 + 64 * p1)) >>> 6) &&& 0x03 = p1 := by
  interval_cases d0 <;> interval_cases p0 <;> interval_cases d1 <;>
    interval_cases p1 <;> rfl

theorem extract_second_drop (d0 p0 d1 p1 : Nat) (h0 : d0 < 4) (h1 : p0 < 4)
    (h2 : d1 < 4) (h3 : p1 < 4) :
    ((d0 + 4 * p0 + (16 * d1 + 64 * p1)) >>> 4) &&& 0x03 = d1 := by
  interval_cases d0 <;> interval_cases p0 <;> interval_cases d1 <;>
    interval_cases p1 <;> rfl

theorem getD_lt_four {l : List Nat} (h : ∀ x ∈ l, x < 4) (i : Nat) :
    l.getD i 0 < 4 := by
  by_cases hi : i < l.length
  · rw [List.getD_eq_getElem?_getD, List.getElem?_eq_getElem hi]
    exact h _ (List.getElem_mem hi)
  · rw [List.getD_eq_getElem?_getD, List.getElem?_eq_none (by omega)]
    simp

/-- C8: pick-up/drop-off 2-bit packing round-trips bit-exactly. For every
list of (pick-up, drop-off) pairs with each value in 0..3, encoding with
`encodePickUpDropOffTypes` and reading every position `g` back through
`Route.pickUpTypeFrom` and `Route.dropOffTypeAt` yields the original values,
and the byte at `g / 2` holds, for even `g`, the pick-up in bits 2-3 and the
drop-off in bits 0-1, and for odd `g` the pick-up in bits 6-7 and the
drop-off in bits 4-5. -/
theorem pickUpDropOff_pack_roundtrip (p d : List Nat)
    (hlen : d.length = p.length) (hp : ∀ x ∈ p, x < 4) (hd : ∀ x ∈ d, x < 4)
    (r : Route) (henc : r.pickUpDropOffTypes = encodePickUpDropOffTypes p d)
    (stopIndex tripIndex : Nat)
    (hg : tripIndex * r.stops.length + stopIndex < p.length) :
    r.pickUpTypeFrom stopIndex tripIndex =
      toPickupDropOffType
        (p.getD (tripIndex * r.stops.length + stopIndex) 0) ∧
    r.dropOffTypeAt stopIndex tripIndex =
      toPickupDropOffType
        (d.getD (tripIndex * r.stops.length + stopIndex) 0) ∧
    ∃ b, (encodePickUpDropOffTypes p d).get?
        ((tripIndex * r.stops.length + stopIndex) / 2) = some b ∧
      ((tripIndex * r.stops.length + stopIndex) % 2 = 0 →
        (b >>> 2) &&& 0x03 =
            p.getD (tripIndex * r.stops.length + stopIndex) 0 ∧
        b &&& 0x03 = d.getD (tripIndex * r.stops.length + stopIndex) 0) ∧
      ((tripIndex * r.stops.length + stopIndex) % 2 = 1 →
        (b >>> 6) &&& 0x03 =
            p.getD (tripIndex * r.stops.length + stopIndex) 0 ∧
        (b >>> 4) &&& 0x03 =
            d.getD (tripIndex * r.stops.length + stopIndex) 0) := by
  have hp' : ∀ i, p.getD i 0 < 4 := getD_lt_four hp
  have hd' : ∀ i, d.getD i 0 < 4 := getD_lt_four hd
  set g := tripIndex * r.stops.length + stopIndex with hgdef
  have hbyte :
      (encodePickUpDropOffTypes p d).get? (g / 2) =
        some (encodedBytePartial p d p.length (g / 2)) := by
    have := encode_fold_spec p d hlen hp' hd' p.length (le_refl _) (g / 2)
    rw [if_pos (by omega)] at this
    exact this
  have hlow : 2 * (g / 2) < p.length := by omega
  by_cases hpar : g % 2 = 1
  · have e1 : 2 * (g / 2) + 1 = g := by omega
    have e0 : 2 * (g / 2) = g - 1 := by omega
    have hbv : encodedBytePartial p d p.length (g / 2) =
        d.getD (g - 1) 0 + 4 * p.getD (g - 1) 0 +
          (16 * d.getD g 0 + 64 * p.getD g 0) := by
      simp only [encodedBytePartial]
      rw [if_pos hlow, if_pos (by omega), e1, e0]
    rw [hbv] at hbyte
    refine ⟨?_, ?_, _, hbyte, fun h0 => by omega, fun _ => ?_⟩
    · simp only [Route.pickUpTypeFrom, ← hgdef, henc, hbyte]
      rw [if_pos hpar, extract_second_pick _ _ _ _ (hd' (g - 1)) (hp' (g - 1))
        (hd' g) (hp' g)]
    · simp only [Route.dropOffTypeAt, ← hgdef, henc, hbyte]
      rw [if_pos hpar, extract_second_drop _ _ _ _ (hd' (g - 1)) (hp' (g - 1))
        (hd' g) (hp' g)]
    · exact ⟨extract_second_pick _ _ _ _ (hd' (g - 1)) (hp' (g - 1)) (hd' g)
        (hp' g),
        extract_second_drop _ _ _ _ (hd' (g - 1)) (hp' (g - 1)) (hd' g)
        (hp' g)⟩
  · have e0 : 2 * (g / 2) = g := by omega
    have hbv : encodedBytePartial p d p.length (g / 2) =
        d.getD g 0 + 4 * p.getD g 0 +
          (if g + 1 < p.length then
            16 * d.getD (g + 1) 0 + 64 * p.getD (g + 1) 0 else 0) := by
      simp only [encodedBytePartial]
      rw [if_pos hlow, e0]
    have hsplit : ∃ d1 p1, d1 < 4 ∧ p1 < 4 ∧
        encodedBytePartial p d p.length (g / 2) =
          d.getD g 0 + 4 * p.getD g 0 + (16 * d1 + 64 * p1) := by
      by_cases hg1 : g + 1 < p.length
      · exact ⟨d.getD (g + 1) 0, p.getD (g + 1) 0, hd' _, hp' _, by
          rw [hbv, if_pos hg1]⟩
      · exact ⟨0, 0, by omega, by omega, by rw [hbv, if_neg hg1]⟩
    obtain ⟨d1, p1, hd1, hp1, hbv'⟩ := hsplit
    rw [hbv'] at hbyte
    refine ⟨?_, ?_, _, hbyte, fun _ => ?_, fun h1 => by omega⟩
    · simp only [Route.pickUpTypeFrom, ← hgdef, henc, hbyte]
      rw [if_neg hpar, extract_first_pick _ _ _ _ (hd' g) (hp' g) hd1 hp1]
    · simp only [Route.dropOffTypeAt, ← hgdef, henc, hbyte]
      rw [if_neg hpar, extract_first_drop _ _ _ _ (hd' g) (hp' g) hd1 hp1]
    · exact ⟨extract_first_pick _ _ _ _ (hd' g) (hp' g) hd1 hp1,
        extract_first_drop _ _ _ _ (hd' g) (hp' g) hd1 hp1⟩

/-- Witness for C8 at a concrete input: pick-ups `[1, 2, 3]` and drop-offs
`[0, 3, 2]` on a 3-stop single-trip route. -/
theorem pickUpDropOff_pack_roundtrip_witness :
    ((0 : Nat) + 3 = 3) ∧
    (Route.mk 0 [] (encodePickUpDropOffTypes [1, 2, 3] [0, 3, 2]) [7, 8, 9]
        0).pickUpTypeFrom 1 0 = .MUST_PHONE_AGENCY := by
  refine ⟨rfl, ?_⟩
  have h := pickUpDropOff_pack_roundtrip [1, 2, 3] [0, 3, 2] (by decide)
    (by decide) (by decide)
    (Route.mk 0 [] (encodePickUpDropOffTypes [1, 2, 3] [0, 3, 2]) [7, 8, 9] 0)
    rfl 1 0 (by decide)
  exact h.1.trans (by decide)

/-! The `Route.findEarliestTrip` binary search of `timetable/route.ts`. -/

namespace Route

/-- Embeds the lower-bound binary search loop of `findEarliestTrip`
(`while (lo <= hi) ...`). JavaScript numbers `lo`, `hi`, `lb` (which can hold
`-1`) are modelled as integers; the loop always terminates, which the
embedding expresses through a fuel argument that the caller chooses large
enough (the span `hi - lo + 1` shrinks at every iteration). -/
def findEarliestTripGo (r : Route) (stopIndex : Nat) (after : Time) :
    Nat → Int → Int → Int → Int
  | 0, _, _, lb => lb
  | fuel + 1, lo, hi, lb =>
      if lo ≤ hi then
        let mid := (lo + hi) / 2
        if (r.departureFrom stopIndex mid.toNat).isBefore after then
          r.findEarliestTripGo stopIndex after fuel (mid + 1) hi lb
        else
          r.findEarliestTripGo stopIndex after fuel lo (mid - 1) mid
      else lb

/-- Recursion core of the forward scan, structurally recursive on the number
`bound - t` of remaining candidate trips so that it evaluates by reduction. -/
def findFirstBoardableGo (r : Route) (stopIndex : Nat) :
    Nat → Nat → Option Nat
  | _, 0 => none
  | t, fuel + 1 =>
      if r.pickUpTypeFrom stopIndex t ≠ .NOT_AVAILABLE then some t
      else r.findFirstBoardableGo stopIndex (t + 1) fuel

/-- Embeds the forward scan of `findEarliestTrip`
(`for (t = lb; t < (beforeTrip ?? nbTrips); t++)`) that skips
`NOT_AVAILABLE` pick-ups. -/
def findFirstBoardable (r : Route) (stopIndex : Nat) (t bound : Nat) :
    Option Nat :=
  r.findFirstBoardableGo stopIndex t (bound - t)

/-- Embeds `Route.findEarliestTrip`: the earliest trip departing from the
stop at or after `after`, strictly before `beforeTrip` when given, with an
available pick-up; `undefined` becomes `none`. As with the other accessors
the source resolves a `StopId` through `stopIndices`; the embedding takes the
stop-route index directly. -/
def findEarliestTrip (r : Route) (stopIndex : Nat) (after : Time)
    (beforeTrip : Option Nat) : Option Nat :=
  if r.nbTrips ≤ 0 then none
  else
    let hi0 : Int :=
      match beforeTrip with
      | some b => Min.min ((r.nbTrips : Int) - 1) ((b : Int) - 1)
      | none => (r.nbTrips : Int) - 1
    if hi0 < 0 then none
    else
      let lb := r.findEarliestTripGo stopIndex after (r.nbTrips + 1) 0 hi0
        (-1)
      if lb = -1 then none
      else r.findFirstBoardable stopIndex lb.toNat
        (beforeTrip.getD r.nbTrips)

/-- Lower-bound binary-search invariant proof: assuming departures are
monotone below `hi0`, the loop returns `-1` exactly when no trip up to `hi0`
departs at or after `after`, and otherwise the least such trip index. -/
theorem findEarliestTripGo_spec (r : Route) (i : Nat) (after : Time)
    (hi0 : Int)
    (hmono : ∀ t t' : Nat, t ≤ t' → (t' : Int) ≤ hi0 →
      (r.departureFrom i t).isBefore after = false →
      (r.departureFrom i t').isBefore after = false) :
    ∀ fuel : Nat, ∀ lo hi lb : Int, 0 ≤ lo → hi ≤ hi0 →
    (hi - lo + 1).toNat ≤ fuel →
    (∀ t : Nat, (t : Int) < lo →
      ¬ (r.departureFrom i t).isBefore after = false) →
    ((lb = -1 ∧ hi = hi0) ∨
      (0 ≤ lb ∧ lb = hi + 1 ∧ lb ≤ hi0 ∧
        (r.departureFrom i lb.toNat).isBefore after = false)) →
    (r.findEarliestTripGo i after fuel lo hi lb = -1 ∧
        ∀ t : Nat, (t : Int) ≤ hi0 →
          ¬ (r.departureFrom i t).isBefore after = false) ∨
    (∃ n : Nat, r.findEarliestTripGo i after fuel lo hi lb = (n : Int) ∧
      (n : Int) ≤ hi0 ∧ (r.departureFrom i n).isBefore after = false ∧
      ∀ t : Nat, t < n →
        ¬ (r.departureFrom i t).isBefore after = false) := by
  intro fuel
  induction fuel with
  | zero =>
    intro lo hi lb hlo hhi hspan hinvlo hinvlb
    have hlohi : hi < lo := by omega
    simp only [findEarliestTripGo]
    rcases hinvlb with ⟨hlb, hhieq⟩ | ⟨hlb0, hlbeq, hlble, hlbP⟩
    · left
      refine ⟨hlb, fun t ht => hinvlo t (by omega)⟩
    · right
      refine ⟨lb.toNat, by omega, by omega, hlbP, fun t ht => ?_⟩
      exact hinvlo t (by omega)
  | succ fuel ih =>
    intro lo hi lb hlo hhi hspan hinvlo hinvlb
    simp only [findEarliestTripGo]
    by_cases hle : lo ≤ hi
    · rw [if_pos hle]
      have hmid1 : lo ≤ (lo + hi) / 2 := by omega
      have hmid2 : (lo + hi) / 2 ≤ hi := by omega
      by_cases hdep :
          (r.departureFrom i ((lo + hi) / 2).toNat).isBefore after = true
      · rw [if_pos hdep]
        refine ih ((lo + hi) / 2 + 1) hi lb (by omega) hhi (by omega)
          (fun t ht => ?_) hinvlb
        intro hP
        by_cases htlo : (t : Int) < lo
        · exact hinvlo t htlo hP
        · have hP' := hmono t ((lo + hi) / 2).toNat (by omega) (by omega) hP
          rw [hP'] at hdep
          simp at hdep
      · rw [if_neg hdep]
        have hPmid : (r.departureFrom i ((lo + hi) / 2).toNat).isBefore after
            = false := by
          revert hdep
          cases (r.departureFrom i ((lo + hi) / 2).toNat).isBefore after <;>
            simp
        refine ih lo ((lo + hi) / 2 - 1) ((lo + hi) / 2) hlo (by omega)
          (by omega) hinvlo ?_
        right
        refine ⟨by omega, by omega, by omega, hPmid⟩
    · rw [if_neg hle]
      have hlohi : hi < lo := by omega
      rcases hinvlb with ⟨hlb, hhieq⟩ | ⟨hlb0, hlbeq, hlble, hlbP⟩
      · left
        exact ⟨hlb, fun t ht => hinvlo t (by omega)⟩
      · right
        exact ⟨lb.toNat, by omega, by omega, hlbP,
          fun t ht => hinvlo t (by omega)⟩

/-- Forward-scan invariant proof: the scan returns the first boardable trip
in the window, or `none` when every trip in the window has pick-up
`NOT_AVAILABLE`. -/
theorem findFirstBoardableGo_spec (r : Route) (i : Nat) :
    ∀ fuel t : Nat,
    (∀ s : Nat, r.findFirstBoardableGo i t fuel = some s →
      t ≤ s ∧ s < t + fuel ∧ r.pickUpTypeFrom i s ≠ .NOT_AVAILABLE ∧
        ∀ u, t ≤ u → u < s → r.pickUpTypeFrom i u = .NOT_AVAILABLE) ∧
    (r.findFirstBoardableGo i t fuel = none →
      ∀ u, t ≤ u → u < t + fuel → r.pickUpTypeFrom i u = .NOT_AVAILABLE) := by
  intro fuel
  induction fuel with
  | zero =>
    intro t
    refine ⟨fun s hs => by simp [findFirstBoardableGo] at hs,
      fun _ u hu1 hu2 => by omega⟩
  | succ fuel ih =>
    intro t
    constructor
    · intro s hs
      simp only [findFirstBoardableGo] at hs
      by_cases hpick : r.pickUpTypeFrom i t ≠ .NOT_AVAILABLE
      · rw [if_pos hpick] at hs
        obtain rfl := Option.some.inj hs
        exact ⟨le_refl _, by omega, hpick, fun u hu1 hu2 => by omega⟩
      · rw [if_neg hpick] at hs
        obtain ⟨h1, h2, h3, h4⟩ := (ih (t + 1)).1 s hs
        refine ⟨by omega, by omega, h3, fun u hu1 hu2 => ?_⟩
        by_cases hut : u = t
        · subst hut
          revert hpick
          cases hpk : r.pickUpTypeFrom i u <;> simp
        · exact h4 u (by omega) hu2
    · intro hn u hu1 hu2
      simp only [findFirstBoardableGo] at hn
      by_cases hpick : r.pickUpTypeFrom i t ≠ .NOT_AVAILABLE
      · rw [if_pos hpick] at hn
        cases hn
      · rw [if_neg hpick] at hn
        by_cases hut : u = t
        · subst hut
          revert hpick
          cases hpk : r.pickUpTypeFrom i u <;> simp
        · exact (ih (t + 1)).2 hn u (by omega) (by omega)

/-- Search core of `findEarliestTrip` after the `hi < 0` early exits: with a
positive effective bound `bound` (that is, `beforeTrip ?? nbTrips`), the
binary search plus forward scan return the least admissible trip. -/
theorem findEarliestIndex_search (r : Route) (i : Nat) (after : Time)
    (bound : Nat) (hbound : bound ≤ r.nbTrips) (hbpos : 0 < bound)
    (hsorted : ∀ t t' : Nat, t ≤ t' → t' < r.nbTrips →
      (r.departureFrom i t').isBefore (r.departureFrom i t) = false) :
    match (if r.findEarliestTripGo i after (r.nbTrips + 1) 0
          ((bound : Int) - 1) (-1) = -1 then none
        else r.findFirstBoardable i
          (r.findEarliestTripGo i after (r.nbTrips + 1) 0
            ((bound : Int) - 1) (-1)).toNat bound) with
    | some t => (t < bound ∧
        (r.departureFrom i t).isBefore after = false ∧
        r.pickUpTypeFrom i t ≠ .NOT_AVAILABLE) ∧
      ∀ t' : Nat, t' < bound →
        (r.departureFrom i t').isBefore after = false →
        r.pickUpTypeFrom i t' ≠ .NOT_AVAILABLE → t ≤ t'
    | none => ∀ t' : Nat, t' < bound →
        (r.departureFrom i t').isBefore after = false →
        r.pickUpTypeFrom i t' = .NOT_AVAILABLE := by
  have hmono : ∀ t t' : Nat, t ≤ t' → (t' : Int) ≤ (bound : Int) - 1 →
      (r.departureFrom i t).isBefore after = false →
      (r.departureFrom i t').isBefore after = false := by
    intro t t' hle hub hP
    exact Time.not_isBefore_trans (hsorted t t' hle (by omega)) hP
  have hgo := findEarliestTripGo_spec r i after ((bound : Int) - 1) hmono
    (r.nbTrips + 1) 0 ((bound : Int) - 1) (-1) (by omega) (by omega)
    (by omega) (fun t ht => by omega) (Or.inl ⟨rfl, rfl⟩)
  rcases hgo with ⟨hgoeq, hno⟩ | ⟨n, hgoeq, hnle, hnP, hnleast⟩
  · rw [hgoeq]
    simp only [if_pos rfl]
    intro t' ht' hPt'
    exact absurd hPt' (hno t' (by omega))
  · rw [hgoeq]
    rw [if_neg (by omega)]
    have htonat : ((n : Int)).toNat = n := by omega
    rw [htonat]
    have hscan := findFirstBoardableGo_spec r i (bound - n) n
    rw [Route.findFirstBoardable]
    cases hres : r.findFirstBoardableGo i n (bound - n) with
    | none =>
      intro t' ht' hPt'
      have hge : n ≤ t' := by
        by_contra hlt
        exact hnleast t' (Nat.lt_of_not_le hlt) hPt'
      have hnb : n ≤ bound := by omega
      have hwin : t' < n + (bound - n) := by omega
      exact hscan.2 hres t' hge hwin
    | some s =>
      obtain ⟨hs1, hs2, hs3, hs4⟩ := hscan.1 s hres
      have hnb : n ≤ bound := by omega
      have hfuel : n + (bound - n) = bound := by omega
      rw [hfuel] at hs2
      have hsle : ((s : Nat) : Int) ≤ (bound : Int) - 1 := by omega
      refine ⟨⟨hs2, hmono n s hs1 hsle hnP, hs3⟩, ?_⟩
      intro t' ht' hPt' hpick'
      have hge : n ≤ t' := by
        by_contra hx
        exact hnleast t' (Nat.lt_of_not_le hx) hPt'
      by_contra hlt
      exact hpick' (hs4 t' hge (Nat.lt_of_not_le hlt))

end Route

/-- C2: correctness of `findEarliestTrip`. For every route whose same-stop
departures are non-decreasing in the trip index, every stop index, time
`after` and optional in-range bound `beforeTrip`, `findEarliestTrip` returns
the smallest trip index `t` with `departureFrom i t ≥ after`,
`t < beforeTrip` when the bound is given, and pick-up not `NOT_AVAILABLE`;
it returns `none` when no such trip exists — in particular on a route with
no trips and when `beforeTrip = 0`. -/
theorem findEarliestTrip_correct (r : Route) (i : Nat) (after : Time)
    (bt : Option Nat)
    (hsorted : ∀ t t' : Nat, t ≤ t' → t' < r.nbTrips →
      (r.departureFrom i t').isBefore (r.departureFrom i t) = false)
    (hbt : ∀ b ∈ bt, b ≤ r.nbTrips) :
    match r.findEarliestTrip i after bt with
    | some t => (t < r.nbTrips ∧
        (r.departureFrom i t).isBefore after = false ∧
        (∀ b ∈ bt, t < b) ∧
        r.pickUpTypeFrom i t ≠ .NOT_AVAILABLE) ∧
      ∀ t' : Nat, t' < r.nbTrips →
        (r.departureFrom i t').isBefore after = false →
        (∀ b ∈ bt, t' < b) →
        r.pickUpTypeFrom i t' ≠ .NOT_AVAILABLE → t ≤ t'
    | none => ∀ t' : Nat, t' < r.nbTrips →
        (r.departureFrom i t').isBefore after = false →
        (∀ b ∈ bt, t' < b) →
        r.pickUpTypeFrom i t' = .NOT_AVAILABLE := by
  by_cases hn : r.nbTrips ≤ 0
  · rw [Route.findEarliestTrip.eq_def, if_pos hn]
    intro t' ht'
    omega
  · rcases bt with _ | b
    · have hcore := Route.findEarliestIndex_search r i after r.nbTrips
        (le_refl _) (by omega) hsorted
      rw [Route.findEarliestTrip.eq_def, if_neg hn]
      simp only
      rw [if_neg (by omega : ¬ ((r.nbTrips : Int) - 1 < 0))]
      simp only [Option.getD]
      revert hcore
      cases hres : (if r.findEarliestTripGo i after (r.nbTrips + 1) 0
            ((r.nbTrips : Int) - 1) (-1) = -1 then none
          else r.findFirstBoardable i
            (r.findEarliestTripGo i after (r.nbTrips + 1) 0
              ((r.nbTrips : Int) - 1) (-1)).toNat r.nbTrips) with
      | none =>
        intro hcore t' h1 h2 _
        exact hcore t' h1 h2
      | some t =>
        intro hcore
        obtain ⟨⟨c1, c2, c3⟩, c4⟩ := hcore
        exact ⟨⟨c1, c2, by simp, c3⟩, fun t' h1 h2 _ h4 => c4 t' h1 h2 h4⟩
    · have hble : b ≤ r.nbTrips := hbt b rfl
      by_cases hb0 : b = 0
      · subst hb0
        rw [Route.findEarliestTrip.eq_def, if_neg hn]
        simp only
        have hminneg :
            Min.min ((r.nbTrips : Int) - 1) (((0 : Nat) : Int) - 1) < 0 :=
          lt_of_le_of_lt (min_le_right _ _) (by norm_num)
        rw [if_pos hminneg]
        intro t' _ _ h3
        exact absurd (h3 0 rfl) (by omega)
      · have hmin : Min.min ((r.nbTrips : Int) - 1) ((b : Int) - 1) =
            (b : Int) - 1 := by
          rw [min_def]
          split <;> omega
        have hcore := Route.findEarliestIndex_search r i after b hble
          (by omega) hsorted
        rw [Route.findEarliestTrip.eq_def, if_neg hn]
        simp only [hmin]
        rw [if_neg (by omega : ¬ ((b : Int) - 1 < 0))]
        simp only [Option.getD]
        revert hcore
        cases hres : (if r.findEarliestTripGo i after (r.nbTrips + 1) 0
              ((b : Int) - 1) (-1) = -1 then none
            else r.findFirstBoardable i
              (r.findEarliestTripGo i after (r.nbTrips + 1) 0
                ((b : Int) - 1) (-1)).toNat b) with
        | none =>
          intro hcore t' _ h2 h3
          exact hcore t' (h3 b rfl) h2
        | some t =>
          intro hcore
          obtain ⟨⟨c1, c2, c3⟩, c4⟩ := hcore
          have c1' : t < r.nbTrips := by omega
          refine ⟨⟨c1', c2, fun b' hb' => by
            cases hb'
            exact c1, c3⟩, ?_⟩
          intro t' _ h2 h3 h4
          exact c4 t' (h3 b rfl) h2 h4

/-- Witness for C2 at a concrete input: a single-stop route with three trips
departing at 10, 20 and 30 minutes, trip 1 not boardable; the earliest trip
departing at or after 15 is trip 2. -/
theorem findEarliestTrip_correct_witness :
    ((Route.mk 0 [10, 10, 20, 20, 30, 30] [64, 0] [5] 0).findEarliestTrip 0
        (.mins 15) none = some 2) ∧
    (2 < (Route.mk 0 [10, 10, 20, 20, 30, 30] [64, 0] [5] 0).nbTrips ∧
      ((Route.mk 0 [10, 10, 20, 20, 30, 30] [64, 0] [5] 0).departureFrom 0
          2).isBefore (.mins 15) = false ∧
      (∀ b ∈ (none : Option Nat), 2 < b) ∧
      (Route.mk 0 [10, 10, 20, 20, 30, 30] [64, 0] [5] 0).pickUpTypeFrom 0 2 ≠
        .NOT_AVAILABLE) := by
  constructor
  · decide
  · have h := findEarliestTrip_correct
      (Route.mk 0 [10, 10, 20, 20, 30, 30] [64, 0] [5] 0) 0 (.mins 15) none
      (by
        intro t t' h1 h2
        have h2' : t' < 3 := by simpa [Route.nbTrips] using h2
        interval_cases t' <;> interval_cases t <;> decide)
      (by simp)
    rw [show Route.findEarliestTrip
        (Route.mk 0 [10, 10, 20, 20, 30, 30] [64, 0] [5] 0) 0 (.mins 15) none
          = some 2 from by decide] at h
    exact h.1

/-! The Timetable of `timetable/timetable.ts` restricted to what routing
reads: per-stop adjacency (routes and transfers), the routes array, the
service-route metadata, and the in-seat continuation map. -/

/-- TransferType of `timetable/timetable.ts`. -/
inductive TransferType where
  | RECOMMENDED
  | GUARANTEED
  | REQUIRES_MINIMAL_TIME
  | NOT_POSSIBLE
  | IN_SEAT
  | REQUIRES_ALIGHTING_AND_REBOARDING
deriving DecidableEq, Repr, BEq

/-- RouteType of `timetable/timetable.ts`. -/
inductive RouteType where
  | TRAM
  | SUBWAY
  | RAIL
  | BUS
  | FERRY
  | CABLE_TRAM
  | AERIAL_LIFT
  | FUNICULAR
  | TROLLEYBUS
  | MONORAIL
deriving DecidableEq, Repr, BEq

/-- Transfer of `timetable/timetable.ts` (the fields the router reads:
destination, type, optional minimum transfer time). In JS
`transfer.minTransferTime` holds a `Duration` object, so its truthiness test
is a presence test, modelled by `Option`. -/
structure Transfer where
  destination : Nat
  type : TransferType
  minTransferTime : Option Nat
deriving DecidableEq, Repr

/-- TripBoarding of `timetable/timetable.ts`: board trip `tripIndex` of route
`routeId` at that route's stop index `hopOnStopIndex`. -/
structure TripBoarding where
  routeId : Nat
  hopOnStopIndex : Nat
  tripIndex : Nat
deriving DecidableEq, Repr

/-- StopAdjacency: the routes passing through a stop and its outgoing
transfers (the `stopTransfers` read by the router's one-argument
`getTransfers` calls). -/
structure StopAdjacency where
  routes : List Nat
  transfers : List Transfer
deriving DecidableEq, Repr

/-- ServiceRoute metadata (only the transport-mode `type` matters for
routing). -/
structure ServiceRoute where
  type : RouteType
deriving DecidableEq, Repr

/-- The Timetable class fields read by the router. The in-seat continuation
map is keyed by (stop index on the route, route id, trip index), the
components of a packed `TripStopId`. -/
structure Timetable where
  stopsAdjacency : List StopAdjacency
  routesAdjacency : List Route
  serviceRoutes : List ServiceRoute
  tripContinuations : List ((Nat × Nat × Nat) × List TripBoarding)
deriving DecidableEq, Repr

namespace Timetable

/-- Embeds `Timetable.getRoute`: `routesAdjacency[routeId]`, `undefined` when
absent. -/
def getRoute (tt : Timetable) (routeId : Nat) : Option Route :=
  tt.routesAdjacency.get? routeId

/-- Embeds `Timetable.getTransfers` at its router call sites (one argument):
the stop's transfers, an empty array when the stop is unknown. -/
def getTransfers (tt : Timetable) (stopId : Nat) : List Transfer :=
  ((tt.stopsAdjacency.get? stopId).map StopAdjacency.transfers).getD []

/-- Embeds `Timetable.routesPassingThrough`: the routes listed in the stop's
adjacency, skipping dangling route ids. -/
def routesPassingThrough (tt : Timetable) (stopId : Nat) : List Route :=
  match tt.stopsAdjacency.get? stopId with
  | none => []
  | some stopData =>
      stopData.routes.foldl
        (fun routes routeId =>
          match tt.routesAdjacency.get? routeId with
          | some route => routes ++ [route]
          | none => routes)
        []

/-- Embeds `Timetable.getServiceRouteInfo`; the source throws when the
service route is missing, modelled as `none`. -/
def getServiceRouteInfo? (tt : Timetable) (route : Route) :
    Option ServiceRoute :=
  tt.serviceRoutes.get? route.serviceRouteId

/-- Modelled from the spec: `get_continuous_trips(StopRouteIndex, RouteId,
TripRouteIndex)` returns the in-seat continuations boardable when alighting
from that trip at that stop index — a lookup in the continuation map. The
timetable revision implementing it is missing from the sources (only its
tests and its router call sites are present). -/
def getContinuousTrips (tt : Timetable) (stopIndex routeId tripIndex : Nat) :
    List TripBoarding :=
  (tt.tripContinuations.lookup (stopIndex, routeId, tripIndex)).getD []

end Timetable

/-- Embeds the `stopIndices` reverse map built by the `Route` constructor:
`for (i = 0; i < stops.length; i++) stopIndices.set(stops[i], i)` — for a
stop visited several times the last index survives. -/
def Route.stopIndices (r : Route) : JsMap Nat Nat :=
  (List.range r.stops.length).foldl
    (fun m i => m.set (r.stops.getD i 0) i) JsMap.empty

/-- Embeds `Route.isBefore`: compares the primary (stored) indices of two
stops on the route; the source throws when either stop is not on the route,
modelled as `false` (callers only pass stops on the route). -/
def Route.isBefore (r : Route) (stopA stopB : Nat) : Bool :=
  match (r.stopIndices).get? stopA, (r.stopIndices).get? stopB with
  | some ia, some ib => ia < ib
  | _, _ => false

/-- MarkedStop as consumed by `findReachableRoutes` (only `stopId` is
read). -/
structure MarkedStop where
  stopId : Nat
deriving DecidableEq, Repr

/-- The transport-mode filter of `findReachableRoutes`
(`if (transportModes.size > 0) { ... if (!transportModes.has(...)) continue }`,
so an empty mode set admits every route). -/
def routeModeOk (tt : Timetable) (transportModes : List RouteType)
    (route : Route) : Bool :=
  if transportModes.length > 0 then
    match tt.getServiceRouteInfo? route with
    | some serviceRoute => transportModes.contains serviceRoute.type
    | none => false
  else true

/-- The per-route body of `findReachableRoutes`'s inner loop: for a
mode-allowed route, keep the currently known hop-on stop unless the JS
truthiness test `if (hopOnStop)` fails (which it does both when the route is
new and when the recorded stop id is `0`), or the new stop is strictly
before the recorded one. -/
def reachStep (tt : Timetable) (transportModes : List RouteType)
    (originStop : MarkedStop) (reachableRoutes : JsMap Nat (Route × Nat))
    (route : Route) : JsMap Nat (Route × Nat) :=
  if routeModeOk tt transportModes route then
    match reachableRoutes.get? route.id with
    | some (_, hopOnStop) =>
        if hopOnStop ≠ 0 then
          if route.isBefore originStop.stopId hopOnStop then
            reachableRoutes.set route.id (route, originStop.stopId)
          else reachableRoutes
        else reachableRoutes.set route.id (route, originStop.stopId)
    | none => reachableRoutes.set route.id (route, originStop.stopId)
  else reachableRoutes

/-- Embeds `Timetable.findReachableRoutes` of `timetable/timetable.ts`:
for each marked stop, fold the per-route step over the routes passing
through it. The returned JS `Map<Route, StopId>` is modelled keyed by
`route.id` with the route kept alongside. -/
def Timetable.findReachableRoutes (tt : Timetable)
    (fromStops : List MarkedStop) (transportModes : List RouteType) :
    JsMap Nat (Route × Nat) :=
  fromStops.foldl
    (fun reachableRoutes originStop =>
      (tt.routesPassingThrough originStop.stopId).foldl
        (reachStep tt transportModes originStop) reachableRoutes)
    JsMap.empty

/-! The Router of `routing/router.ts`: per-query routing state, route
scanning, in-seat continuations, transfer relaxation and the round loop. -/

/-- VehicleEdge of `routing/router.ts`; `from`/`to` are stop-route indices
(`from` is a Lean keyword, hence `fromIdx`/`toIdx`). `continuationOf`
references the previous vehicle edge of the same round by value (JS holds an
object reference; edges are never mutated after being recorded). -/
inductive VehicleEdge where
  | mk (arrival : Time) (fromIdx : Nat) (toIdx : Nat) (routeId : Nat)
      (tripIndex : Nat) (continuationOf : Option VehicleEdge)

namespace VehicleEdge

def arrival : VehicleEdge → Time
  | .mk a _ _ _ _ _ => a

def fromIdx : VehicleEdge → Nat
  | .mk _ f _ _ _ _ => f

def toIdx : VehicleEdge → Nat
  | .mk _ _ t _ _ _ => t

def routeId : VehicleEdge → Nat
  | .mk _ _ _ r _ _ => r

def tripIndex : VehicleEdge → Nat
  | .mk _ _ _ _ t _ => t

def continuationOf : VehicleEdge → Option VehicleEdge
  | .mk _ _ _ _ _ c => c

end VehicleEdge

/-- TransferEdge of `routing/router.ts`. -/
structure TransferEdge where
  arrival : Time
  fromStop : Nat
  toStop : Nat
  type : TransferType
  minTransferTime : Option Nat

/-- RoutingEdge: the tagged variants stored in the per-round edge maps. The
entries of `graph[0]` are the origin initial states (`{arrival, legNumber}`
objects carrying neither a `routeId` nor a `type` tag), modelled as
`origin`. -/
inductive RoutingEdge where
  | origin (arrival : Time)
  | vehicle (e : VehicleEdge)
  | transfer (e : TransferEdge)

/-- Edge arrival, the `.arrival` field every variant carries. -/
def RoutingEdge.arrival : RoutingEdge → Time
  | .origin a => a
  | .vehicle e => e.arrival
  | .transfer e => e.arrival

/-- Arrival of `routing/router.ts` (`earliestArrivals` values). -/
structure Arrival where
  arrival : Time
  legNumber : Nat

/-- Ghost record of one edge write (round, stop, arrival), used only to state
temporal claims about the order of writes; the source has no such log. -/
structure WriteEvent where
  round : Nat
  stop : Nat
  arrival : Time

/-- RoutingState of `routing/router.ts` plus the ghost write log. -/
structure RoutingState where
  earliestArrivals : JsMap Nat Arrival
  graph : List (JsMap Nat RoutingEdge)
  destinations : List Nat
  writeLog : List WriteEvent

/-- The paired writes `graph[round].set(stop, edge)` and
`earliestArrivals.set(stop, {arrival, legNumber: round})` executed together
at both recording sites of the source (route scanning and transfer
relaxation); also appends to the ghost write log. -/
def RoutingState.recordEdge (rs : RoutingState) (round stop : Nat)
    (edge : RoutingEdge) : RoutingState :=
  { rs with
    graph := rs.graph.set round
      ((rs.graph.getD round JsMap.empty).set stop edge),
    earliestArrivals := rs.earliestArrivals.set stop
      ⟨edge.arrival, round⟩,
    writeLog := rs.writeLog ++ [⟨round, stop, edge.arrival⟩] }

/-- The earliest arrival recorded at a stop, `UNREACHED` když absent
(`earliestArrivals.get(stop)?.arrival ?? UNREACHED`). -/
def earliestArrivalGetD (earliestArrivals : JsMap Nat Arrival) (stop : Nat) :
    Time :=
  ((earliestArrivals.get? stop).map Arrival.arrival).getD Time.infinity

namespace Router

/-- Embeds `Router.earliestArrivalAtAnyStop`: the minimum earliest arrival
over the destination stops, `UNREACHED` for unreached ones. -/
def earliestArrivalAtAnyStop (earliestArrivals : JsMap Nat Arrival)
    (destinations : List Nat) : Time :=
  destinations.foldl
    (fun earliest destination =>
      Time.min earliest (earliestArrivalGetD earliestArrivals destination))
    Time.infinity

/-- TripContinuation of `routing/router.ts`: a TripBoarding plus the vehicle
edge it continues. -/
structure TripContinuation where
  routeId : Nat
  hopOnStopIndex : Nat
  tripIndex : Nat
  previousEdge : VehicleEdge

/-- Update phase of one `Router.scanRoute` loop iteration (step 1 in the
source): if on a trip, record a vehicle edge at the current stop when the
drop-off is available and the arrival passes local and target pruning. -/
def scanRouteUpdate (route : Route) (round : Nat)
    (tripContinuation : Option TripContinuation)
    (earliestArrivalAtAnyDestination : Time)
    (activeTrip : Option TripBoarding) (rs : RoutingState)
    (marked : List Nat) (currentStopIndex : Nat) :
    RoutingState × List Nat :=
  let currentStop := route.stops.getD currentStopIndex 0
  match activeTrip with
  | some atrip =>
      let arrivalTime := route.arrivalAt currentStopIndex atrip.tripIndex
      let dropOffType := route.dropOffTypeAt currentStopIndex atrip.tripIndex
      let earliestArrivalAtCurrentStop :=
        earliestArrivalGetD rs.earliestArrivals currentStop
      if dropOffType ≠ .NOT_AVAILABLE ∧
          arrivalTime.isBefore earliestArrivalAtCurrentStop = true ∧
          arrivalTime.isBefore earliestArrivalAtAnyDestination = true then
        let edge := VehicleEdge.mk arrivalTime atrip.hopOnStopIndex
          currentStopIndex route.id atrip.tripIndex
          (tripContinuation.map TripContinuation.previousEdge)
        (rs.recordEdge round currentStop (.vehicle edge),
          jsAdd marked currentStop)
      else (rs, marked)
  | none => (rs, marked)

/-- Board phase of one `Router.scanRoute` loop iteration (step 2 in the
source): catch an earlier trip at the current stop, skipped entirely during
a continuation re-scan. It only changes the active trip. -/
def scanRouteBoard (route : Route) (round : Nat)
    (tripContinuation : Option TripContinuation)
    (activeTrip : Option TripBoarding) (rs : RoutingState)
    (currentStopIndex : Nat) : Option TripBoarding :=
  if tripContinuation.isSome then activeTrip
  else
    let currentStop := route.stops.getD currentStopIndex 0
    match ((rs.graph.getD (round - 1) JsMap.empty).get? currentStop).map
        RoutingEdge.arrival with
    | none => activeTrip
    | some earliestArrivalOnPreviousRound =>
        let boardCheck :=
          match activeTrip with
          | none => true
          | some atrip =>
              earliestArrivalOnPreviousRound.isBefore
                (route.departureFrom currentStopIndex atrip.tripIndex) ||
              earliestArrivalOnPreviousRound ==
                route.departureFrom currentStopIndex atrip.tripIndex
        if boardCheck then
          match route.findEarliestTrip currentStopIndex
              earliestArrivalOnPreviousRound
              (activeTrip.map TripBoarding.tripIndex) with
          | some earliestTrip =>
              some ⟨route.id, currentStopIndex, earliestTrip⟩
          | none => activeTrip
        else activeTrip

/-- The per-stop body of `Router.scanRoute`'s `for` loop: the
update-then-board step at `currentStopIndex`. State: the active trip, the
routing state and the newly marked stops. `earliestArrivalAtAnyDestination`
is the target-pruning bound computed once per scan, before the loop. -/
def scanRouteStep (route : Route) (hopOnStopIndex round : Nat)
    (tripContinuation : Option TripContinuation)
    (earliestArrivalAtAnyDestination : Time)
    (st : Option TripBoarding × RoutingState × List Nat)
    (currentStopIndex : Nat) :
    Option TripBoarding × RoutingState × List Nat :=
  let next := scanRouteUpdate route round tripContinuation
    earliestArrivalAtAnyDestination st.1 st.2.1 st.2.2 currentStopIndex
  (scanRouteBoard route round tripContinuation st.1 next.1 currentStopIndex,
    next.1, next.2)

/-- Embeds `Router.scanRoute`: walks the route from the hop-on index,
maintaining the active trip; with a `tripContinuation` the active trip is
preset and the catch-an-earlier-trip step is disabled. Returns the updated
state and the newly marked stops. -/
def scanRoute (route : Route) (hopOnStopIndex round : Nat)
    (rs : RoutingState) (tripContinuation : Option TripContinuation) :
    RoutingState × List Nat :=
  let activeTrip0 : Option TripBoarding :=
    tripContinuation.map
      (fun c => ⟨route.id, hopOnStopIndex, c.tripIndex⟩)
  let earliestArrivalAtAnyDestination :=
    earliestArrivalAtAnyStop rs.earliestArrivals rs.destinations
  let final :=
    (List.range' hopOnStopIndex (route.nbStops - hopOnStopIndex)).foldl
      (scanRouteStep route hopOnStopIndex round tripContinuation
        earliestArrivalAtAnyDestination)
      (activeTrip0, rs, [])
  (final.2.1, final.2.2)

/-- Embeds `Router.findTripContinuations`: for each marked stop whose
current-round edge is a vehicle edge, the continuations boardable from its
alighting point, each carrying that edge as `previousEdge`. -/
def findTripContinuations (tt : Timetable) (markedStops : List Nat)
    (edgesAtCurrentRound : JsMap Nat RoutingEdge) : List TripContinuation :=
  markedStops.foldl
    (fun continuations stopId =>
      match edgesAtCurrentRound.get? stopId with
      | some (.vehicle ve) =>
          continuations ++
            (tt.getContinuousTrips ve.toIdx ve.routeId ve.tripIndex).map
              (fun trip =>
                ⟨trip.routeId, trip.hopOnStopIndex, trip.tripIndex, ve⟩)
      | _ => continuations)
    []

/-- QueryOptions of `routing/query.ts` (the fields the router reads). -/
structure QueryOptions where
  maxTransfers : Nat
  minTransferTime : Nat
  transportModes : List RouteType

/-- Query of `routing/query.ts` (the fields the router reads); `from` and
`to` are Lean keywords, hence `fromStop` and `toStops`. -/
structure Query where
  fromStop : Nat
  toStops : List Nat
  departureTime : Time
  options : QueryOptions

/-- The dwell-time selection of `Router.considerTransfers`:
`transfer.minTransferTime` when present, else zero for `IN_SEAT`, else the
query's default minimum transfer time. -/
def transferTimeOf (options : QueryOptions) (transfer : Transfer) : Nat :=
  match transfer.minTransferTime with
  | some d => d
  | none =>
      if transfer.type = .IN_SEAT then 0
      else options.minTransferTime

/-- The innermost body of `Router.considerTransfers`: relax one transfer
from a stop whose current-round edge is `currentArrival`, recording an edge
and marking the destination when it improves its earliest arrival. -/
def relaxTransfer (query : Query) (round stop : Nat)
    (currentArrival : RoutingEdge) (st : RoutingState × List Nat)
    (transfer : Transfer) : RoutingState × List Nat :=
  let rs := st.1
  let newly := st.2
  let transferTime := transferTimeOf query.options transfer
  let arrivalAfterTransfer := currentArrival.arrival.plus transferTime
  let originalArrival :=
    earliestArrivalGetD rs.earliestArrivals transfer.destination
  if arrivalAfterTransfer.isBefore originalArrival = true then
    (rs.recordEdge round transfer.destination
      (.transfer ⟨arrivalAfterTransfer, stop, transfer.destination,
        transfer.type, transfer.minTransferTime⟩),
      jsAdd newly transfer.destination)
  else (rs, newly)

/-- The per-stop body of `Router.considerTransfers`: skip stops without a
current-round edge and stops whose last leg was itself a transfer, else
relax all outgoing transfers. -/
def relaxStopTransfers (tt : Timetable) (query : Query) (round : Nat)
    (st : RoutingState × List Nat) (stop : Nat) : RoutingState × List Nat :=
  match (st.1.graph.getD round JsMap.empty).get? stop with
  | none => st
  | some (.transfer _) => st
  | some currentArrival =>
      (tt.getTransfers stop).foldl
        (relaxTransfer query round stop currentArrival) st

/-- Embeds `Router.considerTransfers`: relaxes the outgoing transfers of
every marked stop whose current-round edge exists and is not itself a
transfer; an improving transfer records an edge and marks the destination. -/
def considerTransfers (tt : Timetable) (query : Query) (round : Nat)
    (markedStops : List Nat) (rs0 : RoutingState) :
    RoutingState × List Nat :=
  markedStops.foldl (relaxStopTransfers tt query round) (rs0, [])

/-- Modelled from the spec: the hop-on map consumed by the round loop — for
each route passing through a marked stop (with its service-route type among
the requested modes, all modes when the set is empty), the smallest
stop-route index among the marked stops' occurrences on that route. The
timetable revision returning indices is missing from the sources (its tests
exercise exactly this behavior); `timetable.ts` as retrieved returns hop-on
stop ids instead. -/
def findReachableRoutesIdx (tt : Timetable) (markedStops : List Nat)
    (transportModes : List RouteType) : List (Route × Nat) :=
  (markedStops.foldl
    (fun (reachable : JsMap Nat (Route × Nat)) stop =>
      (tt.routesPassingThrough stop).foldl
        (fun reachable route =>
          let modeOk :=
            if transportModes.length > 0 then
              match tt.getServiceRouteInfo? route with
              | some serviceRoute => transportModes.contains serviceRoute.type
              | none => false
            else true
          if modeOk then
            match route.stops.indexOf? stop with
            | some idx =>
                match reachable.get? route.id with
                | some (r0, idx0) =>
                    if idx < idx0 then reachable.set route.id (route, idx)
                    else reachable
                | none => reachable.set route.id (route, idx)
            | none => reachable
          else reachable)
        reachable)
    JsMap.empty).map Prod.snd

/-- The in-seat continuation fixpoint loop
(`while (continuations.length > 0) ...`). The source loop always terminates
because every recorded edge strictly improves an earliest arrival; the
embedding makes the iteration count explicit through a ghost fuel argument
(every theorem below holds for every fuel, and concrete runs use an amply
sufficient fuel). -/
def continuationLoop (tt : Timetable) (round : Nat) :
    Nat → List TripContinuation → RoutingState → List Nat →
    RoutingState × List Nat
  | 0, _, rs, marked => (rs, marked)
  | fuel + 1, continuations, rs, marked =>
      if continuations.isEmpty then (rs, marked)
      else
        let step := continuations.foldl
          (fun (st : RoutingState × List Nat) continuation =>
            match tt.getRoute continuation.routeId with
            | some route =>
                let res := scanRoute route continuation.hopOnStopIndex round
                  st.1 (some continuation)
                (res.1, jsUnion st.2 res.2)
            | none => (st.1, st.2))
          (rs, [])
        let rs' := step.1
        let stopsFromContinuations := step.2
        let marked' := jsUnion marked stopsFromContinuations
        let nextContinuations := findTripContinuations tt
          stopsFromContinuations (rs'.graph.getD round JsMap.empty)
        continuationLoop tt round fuel nextContinuations rs' marked'

/-- One round of the main loop: push the round's edge map, scan every
reachable route, run the continuation fixpoint, then relax transfers.
Returns the state and the marked stops for the next round. -/
def runRound (tt : Timetable) (query : Query) (round contFuel : Nat)
    (markedStops : List Nat) (rs : RoutingState) :
    RoutingState × List Nat :=
  let rs := { rs with graph := rs.graph ++ [JsMap.empty] }
  let reachableRoutes := findReachableRoutesIdx tt markedStops
    query.options.transportModes
  let scanned := reachableRoutes.foldl
    (fun (st : RoutingState × List Nat) rh =>
      let res := scanRoute rh.1 rh.2 round st.1 none
      (res.1, jsUnion st.2 res.2))
    (rs, [])
  let afterCont := continuationLoop tt round contFuel
    (findTripContinuations tt scanned.2
      (scanned.1.graph.getD round JsMap.empty))
    scanned.1 scanned.2
  let afterTransfers := considerTransfers tt query round afterCont.2
    afterCont.1
  (afterTransfers.1, jsUnion afterCont.2 afterTransfers.2)

/-- The round loop `for (round = 1; round <= maxTransfers + 1; round++)`,
with the `if (markedStops.size === 0) break` check at the end of each
round. -/
def runRounds (tt : Timetable) (query : Query) :
    Nat → Nat → Nat → List Nat → RoutingState → RoutingState
  | 0, _, _, _, rs => rs
  | roundsLeft + 1, round, contFuel, markedStops, rs =>
      let res := runRound tt query round contFuel markedStops rs
      if res.2.isEmpty then res.1
      else runRounds tt query roundsLeft (round + 1) contFuel res.2 res.1

/-- The stops index collaborator, reduced to `equivalentStops` returning the
stop ids of the equivalent stops (the stops module is an external
collaborator outside the routing core). -/
def StopsIndexFn := Nat → List Nat

/-- Embeds `Router.initRoutingState`: expands origins and destinations
through the stops index and seeds `earliestArrivals` and `graph[0]` with the
departure time at every origin. -/
def initRoutingState (stopsIndex : StopsIndexFn) (query : Query) :
    RoutingState :=
  let origins := stopsIndex query.fromStop
  let destinations := query.toStops.foldl
    (fun acc destination => acc ++ stopsIndex destination) []
  let earliestArrivals := origins.foldl
    (fun (m : JsMap Nat Arrival) originStop =>
      m.set originStop ⟨query.departureTime, 0⟩)
    JsMap.empty
  let earliestArrivalsWithoutAnyLeg := origins.foldl
    (fun (m : JsMap Nat RoutingEdge) originStop =>
      m.set originStop (.origin query.departureTime))
    JsMap.empty
  ⟨earliestArrivals, [earliestArrivalsWithoutAnyLeg], destinations, []⟩

/-- Embeds `Router.route`: initialise, relax the origins' transfers into
round 0, then run the rounds. `contFuel` is the ghost bound on continuation
fixpoint iterations (see `continuationLoop`). -/
def route (tt : Timetable) (stopsIndex : StopsIndexFn) (query : Query)
    (contFuel : Nat) : RoutingState :=
  let routingState := initRoutingState stopsIndex query
  let markedStops := (routingState.graph.getD 0 JsMap.empty).keys
  let afterInitTransfers := considerTransfers tt query 0 markedStops
    routingState
  let markedStops := jsUnion markedStops afterInitTransfers.2
  runRounds tt query (query.options.maxTransfers + 1) 1 contFuel markedStops
    afterInitTransfers.1

end Router

/-! The Result class (route reconstruction): `bestRoute` and its helpers. In
the source the legs carry `Stop` objects resolved through the stops index;
the embedding keeps the stop ids. -/

/-- VehicleLeg as built by `Result.buildVehicleLeg` (stop ids instead of
resolved `Stop` objects; `route` is the service-route metadata of the first
boarded route). -/
structure VehicleLeg where
  fromStop : Nat
  toStop : Nat
  route : Option ServiceRoute
  departureTime : Time
  arrivalTime : Time
  pickUpType : PickUpDropOffType
  dropOffType : PickUpDropOffType

/-- TransferLeg (`Transfer` in `routing/route.ts`). -/
structure TransferLeg where
  fromStop : Nat
  toStop : Nat
  minTransferTime : Option Nat
  type : TransferType

/-- A leg of a reconstructed route. -/
inductive Leg where
  | vehicle (l : VehicleLeg)
  | transfer (l : TransferLeg)

/-- The stop a leg starts from (`leg.from.id`). -/
def Leg.fromStop : Leg → Nat
  | .vehicle l => l.fromStop
  | .transfer l => l.fromStop

namespace Result

/-- The chain of vehicle edges collected by following `continuationOf`
pointers (`chainedEdges` in `Result.bestRoute`), newest first. -/
def chainedEdges : VehicleEdge → List VehicleEdge
  | .mk a f t r tr none => [.mk a f t r tr none]
  | .mk a f t r tr (some prev) =>
      .mk a f t r tr (some prev) :: chainedEdges prev

/-- Embeds `Result.buildVehicleLeg`: the first edge of the rider-visible leg
is the last of the chain, the last edge the first; the source's
`firstEdge.stopIndex` / `lastEdge.hopOffStopIndex` are the hop-on and
hop-off indices, `fromIdx` / `toIdx` here. The source throws on an empty
chain or a missing route, modelled as `none`. -/
def buildVehicleLeg (tt : Timetable) (edges : List VehicleEdge) :
    Option VehicleLeg :=
  match edges.getLast?, edges.head? with
  | some firstEdge, some lastEdge =>
      match tt.getRoute firstEdge.routeId, tt.getRoute lastEdge.routeId with
      | some firstRoute, some lastRoute =>
          some
            { fromStop := firstRoute.stops.getD firstEdge.fromIdx 0,
              toStop := lastRoute.stops.getD lastEdge.toIdx 0,
              route := tt.getServiceRouteInfo? firstRoute,
              departureTime := firstRoute.departureFrom firstEdge.fromIdx
                firstEdge.tripIndex,
              arrivalTime := lastEdge.arrival,
              pickUpType := firstRoute.pickUpTypeFrom firstEdge.fromIdx
                firstEdge.tripIndex,
              dropOffType := lastRoute.dropOffTypeAt lastEdge.toIdx
                lastEdge.tripIndex }
      | _, _ => none
  | _, _ => none

/-- Outcome of `Result.bestRoute`: `noRoute` is the `undefined` return,
`route legs` a reconstructed route, `error` a thrown reconstruction
inconsistency, and `outOfFuel` the ghost-fuel exhaustion of the backward
walk (the walk's termination is proved separately). -/
inductive BestRouteResult where
  | noRoute
  | route (legs : List Leg)
  | error
  | outOfFuel

/-- The backward walk of `Result.bestRoute` (`while (round > 0) ...`): read
the edge at the current stop and round; a vehicle edge contributes one leg
merging its continuation chain and decrements the round; a transfer edge
contributes a leg and keeps the round; a missing edge throws; an origin
entry breaks. Fuel is ghost (see `BestRouteResult.outOfFuel`). -/
def bestRouteGo (tt : Timetable) (rs : RoutingState) :
    Nat → Nat → Nat → List Leg → BestRouteResult
  | 0, _, _, _ => .outOfFuel
  | fuel + 1, currentStop, round, legs =>
      if round = 0 then .route legs
      else
        match (rs.graph.getD round JsMap.empty).get? currentStop with
        | none => .error
        | some (.vehicle ve) =>
            match buildVehicleLeg tt (chainedEdges ve) with
            | none => .error
            | some leg =>
                bestRouteGo tt rs fuel leg.fromStop (round - 1)
                  (.vehicle leg :: legs)
        | some (.transfer te) =>
            bestRouteGo tt rs fuel te.fromStop round
              (.transfer ⟨te.fromStop, te.toStop, te.minTransferTime,
                te.type⟩ :: legs)
        | some (.origin _) => .route legs

/-- Embeds `Result.bestRoute`: expand the requested destinations (the
query's destinations when none are given), pick the first strictly-improving
reached destination, then walk backwards from its leg number. The JS
truthiness test `if (!fastestDestination || !fastestTime)` also returns
`undefined` when the fastest destination's stop id is `0`. -/
def bestRoute (tt : Timetable) (stopsIndex : Router.StopsIndexFn)
    (query : Router.Query) (rs : RoutingState) (to? : Option (List Nat))
    (fuel : Nat) : BestRouteResult :=
  let destinationList := to?.getD query.toStops
  let destinations := destinationList.foldl
    (fun acc destination => acc ++ stopsIndex destination) []
  let fastest := destinations.foldl
    (fun (acc : Option (Nat × Arrival)) destination =>
      match rs.earliestArrivals.get? destination with
      | some arrivalTime =>
          match acc with
          | none => some (destination, arrivalTime)
          | some (_, fastestTime) =>
              if arrivalTime.arrival.isBefore fastestTime.arrival then
                some (destination, arrivalTime)
              else acc
      | none => acc)
    none
  match fastest with
  | none => .noRoute
  | some (fastestDestination, fastestTime) =>
      if fastestDestination = 0 then .noRoute
      else bestRouteGo tt rs fuel fastestDestination fastestTime.legNumber []

end Result

/-! Generic fold-invariant and state-update lemmas shared by the routing
proofs. -/

theorem foldl_invariant {α β : Type} (f : β → α → β) (P : β → Prop)
    (l : List α) (init : β) (hinit : P init)
    (hstep : ∀ b a, a ∈ l → P b → P (f b a)) : P (l.foldl f init) := by
  induction l generalizing init with
  | nil => exact hinit
  | cons x xs ih =>
    exact ih (f init x) (hstep init x (by simp) hinit)
      (fun b a ha hb => hstep b a (by simp [ha]) hb)

theorem list_getD_set_self {α : Type} (l : List α) (i : Nat) (x : α) (d : α)
    (h : i < l.length) : (l.set i x).getD i d = x := by
  rw [List.getD_eq_getElem?_getD, ← List.get?_eq_getElem?,
    list_get?_set_self l i x h]
  rfl

theorem list_getD_set_ne {α : Type} (l : List α) (i j : Nat) (x : α) (d : α)
    (h : i ≠ j) : (l.set i x).getD j d = l.getD j d := by
  rw [List.getD_eq_getElem?_getD, ← List.get?_eq_getElem?,
    list_get?_set_ne l i j x h, List.get?_eq_getElem?,
    ← List.getD_eq_getElem?_getD]

theorem list_set_of_le {α : Type} (l : List α) (i : Nat) (x : α)
    (h : l.length ≤ i) : l.set i x = l := by
  induction l generalizing i with
  | nil => rfl
  | cons y ys ih =>
    cases i with
    | zero => simp at h
    | succ n => simp [List.set, ih n (by simpa using h)]

/-- The graph row at the recording round after `recordEdge`: updated when the
round exists, untouched otherwise (the source always records into an
existing row). -/
theorem recordEdge_row_self (rs : RoutingState) (round stop : Nat)
    (edge : RoutingEdge) :
    (rs.recordEdge round stop edge).graph.getD round JsMap.empty =
      if round < rs.graph.length then
        (rs.graph.getD round JsMap.empty).set stop edge
      else rs.graph.getD round JsMap.empty := by
  by_cases h : round < rs.graph.length
  · rw [if_pos h]
    exact list_getD_set_self _ _ _ _ h
  · rw [if_neg h, RoutingState.recordEdge]
    simp only
    rw [list_set_of_le _ _ _ (by omega)]

/-- Graph rows other than the recording round are untouched by
`recordEdge`. -/
theorem recordEdge_row_ne (rs : RoutingState) (round stop k : Nat)
    (edge : RoutingEdge) (h : k ≠ round) :
    (rs.recordEdge round stop edge).graph.getD k JsMap.empty =
      rs.graph.getD k JsMap.empty :=
  list_getD_set_ne _ _ _ _ _ (fun he => h he.symm)

theorem recordEdge_earliest_self (rs : RoutingState) (round stop : Nat)
    (edge : RoutingEdge) :
    (rs.recordEdge round stop edge).earliestArrivals.get? stop =
      some ⟨edge.arrival, round⟩ :=
  JsMap.get?_set_self _ _ _

theorem recordEdge_earliest_ne (rs : RoutingState) (round stop s : Nat)
    (edge : RoutingEdge) (h : s ≠ stop) :
    (rs.recordEdge round stop edge).earliestArrivals.get? s =
      rs.earliestArrivals.get? s :=
  JsMap.get?_set_ne _ _ (fun he => h he.symm)

/-- Transition shape of the update phase: either the state is untouched, or
it records exactly one vehicle edge at the current stop, guarded by drop-off
availability, local pruning against `earliestArrivals`, and target pruning
against the scan-start bound. -/
theorem scanRouteUpdate_cases (route : Route) (round : Nat)
    (cont : Option Router.TripContinuation) (bound : Time)
    (atrip : Option TripBoarding) (rs : RoutingState) (marked : List Nat)
    (j : Nat) :
    (Router.scanRouteUpdate route round cont bound atrip rs marked j).1 =
      rs ∨
    ∃ a, atrip = some a ∧
      route.dropOffTypeAt j a.tripIndex ≠ .NOT_AVAILABLE ∧
      (route.arrivalAt j a.tripIndex).isBefore
        (earliestArrivalGetD rs.earliestArrivals
          (route.stops.getD j 0)) = true ∧
      (route.arrivalAt j a.tripIndex).isBefore bound = true ∧
      (Router.scanRouteUpdate route round cont bound atrip rs marked j).1 =
        rs.recordEdge round (route.stops.getD j 0)
          (.vehicle (.mk (route.arrivalAt j a.tripIndex)
            a.hopOnStopIndex j route.id a.tripIndex
            (cont.map Router.TripContinuation.previousEdge))) := by
  cases atrip with
  | none => left; rfl
  | some a =>
    by_cases hg : route.dropOffTypeAt j a.tripIndex ≠ .NOT_AVAILABLE ∧
        (route.arrivalAt j a.tripIndex).isBefore
          (earliestArrivalGetD rs.earliestArrivals
            (route.stops.getD j 0)) = true ∧
        (route.arrivalAt j a.tripIndex).isBefore bound = true
    · right
      refine ⟨a, rfl, hg.1, hg.2.1, hg.2.2, ?_⟩
      simp only [Router.scanRouteUpdate, if_pos hg]
    · left
      simp only [Router.scanRouteUpdate, if_neg hg]

/-- The step function's state component is the update phase's result. -/
theorem scanRouteStep_rs (route : Route) (hopOn round : Nat)
    (cont : Option Router.TripContinuation) (bound : Time)
    (st : Option TripBoarding × RoutingState × List Nat) (j : Nat) :
    (Router.scanRouteStep route hopOn round cont bound st j).2.1 =
      (Router.scanRouteUpdate route round cont bound st.1 st.2.1 st.2.2
        j).1 := rfl

/-- Transition shape of the board phase: the active trip is unchanged, or
(never during a continuation re-scan) re-seated to a trip found by
`findEarliestTrip` boarding at the current index. -/
theorem scanRouteBoard_cases (route : Route) (round : Nat)
    (cont : Option Router.TripContinuation) (atrip : Option TripBoarding)
    (rs : RoutingState) (j : Nat) :
    Router.scanRouteBoard route round cont atrip rs j = atrip ∨
    (cont = none ∧ ∃ t : Nat, ∃ a : Time, ∃ bt : Option Nat,
      route.findEarliestTrip j a bt = some t ∧
      Router.scanRouteBoard route round cont atrip rs j =
        some ⟨route.id, j, t⟩) := by
  by_cases hc : cont.isSome
  · left
    simp only [Router.scanRouteBoard, if_pos hc]
  · have hcn : cont = none := Option.not_isSome_iff_eq_none.mp hc
    subst hcn
    simp only [Router.scanRouteBoard, Option.isSome_none,
      Bool.false_eq_true, if_false]
    cases hprev : (((rs.graph.getD (round - 1) JsMap.empty).get?
        (route.stops.getD j 0)).map RoutingEdge.arrival) with
    | none => left; rfl
    | some prevArr =>
      simp only
      split
      · cases hfind : route.findEarliestTrip j prevArr
            (atrip.map TripBoarding.tripIndex) with
        | some t =>
          right
          exact ⟨by trivial, t, prevArr, atrip.map TripBoarding.tripIndex,
            hfind, rfl⟩
        | none => left; rfl
      · left; rfl

/-- The step function's active-trip component is the board phase applied
after the update phase. -/
theorem scanRouteStep_atrip (route : Route) (hopOn round : Nat)
    (cont : Option Router.TripContinuation) (bound : Time)
    (st : Option TripBoarding × RoutingState × List Nat) (j : Nat) :
    (Router.scanRouteStep route hopOn round cont bound st j).1 =
      Router.scanRouteBoard route round cont st.1
        (Router.scanRouteUpdate route round cont bound st.1 st.2.1 st.2.2
          j).1 j := rfl

/-- C3 (amended): target pruning as implemented — every edge that
`scanRoute` adds to or overwrites in the current round's map is a vehicle
edge whose arrival is strictly before the best destination arrival known
when the scan started; entries it does not touch keep their previous value.
Transfer relaxation performs no target pruning (see the counterexample for
the claim as stated). -/
theorem scanRoute_target_pruning (route : Route) (hopOn round : Nat)
    (rs : RoutingState) (cont : Option Router.TripContinuation) (s : Nat) :
    ((Router.scanRoute route hopOn round rs cont).1.graph.getD round
        JsMap.empty).get? s =
      (rs.graph.getD round JsMap.empty).get? s ∨
    ∃ ve, ((Router.scanRoute route hopOn round rs cont).1.graph.getD round
        JsMap.empty).get? s = some (.vehicle ve) ∧
      ve.arrival.isBefore (Router.earliestArrivalAtAnyStop
        rs.earliestArrivals rs.destinations) = true := by
  have hmain :
      ∀ st : Option TripBoarding × RoutingState × List Nat,
        st = (List.range' hopOn (route.nbStops - hopOn)).foldl
          (Router.scanRouteStep route hopOn round cont
            (Router.earliestArrivalAtAnyStop rs.earliestArrivals
              rs.destinations))
          (cont.map (fun c => ⟨route.id, hopOn, c.tripIndex⟩), rs, []) →
        ∀ s : Nat,
          (st.2.1.graph.getD round JsMap.empty).get? s =
            (rs.graph.getD round JsMap.empty).get? s ∨
          ∃ ve, (st.2.1.graph.getD round JsMap.empty).get? s =
              some (.vehicle ve) ∧
            ve.arrival.isBefore (Router.earliestArrivalAtAnyStop
              rs.earliestArrivals rs.destinations) = true := by
    intro st hst
    rw [hst]
    apply foldl_invariant
      (P := fun st : Option TripBoarding × RoutingState × List Nat =>
        ∀ s : Nat,
          (st.2.1.graph.getD round JsMap.empty).get? s =
            (rs.graph.getD round JsMap.empty).get? s ∨
          ∃ ve, (st.2.1.graph.getD round JsMap.empty).get? s =
              some (.vehicle ve) ∧
            ve.arrival.isBefore (Router.earliestArrivalAtAnyStop
              rs.earliestArrivals rs.destinations) = true)
    · intro s
      left
      rfl
    · intro b j hj hb s
      rw [scanRouteStep_rs]
      rcases scanRouteUpdate_cases route round cont _ b.1 b.2.1 b.2.2 j with
        heq | ⟨a, _, _, _, hbound, heq⟩
      · rw [heq]
        exact hb s
      · rw [heq, recordEdge_row_self]
        by_cases hlen : round < b.2.1.graph.length
        · rw [if_pos hlen, JsMap.get?_set]
          by_cases hstop : route.stops.getD j 0 = s
          · rw [if_pos hstop]
            right
            exact ⟨_, rfl, hbound⟩
          · rw [if_neg hstop]
            exact hb s
        · rw [if_neg hlen]
          exact hb s
  exact hmain _ rfl s

/-- Concrete timetable refuting C3 as stated: one route visiting stops 1
(origin), 2 (the destination, arrival 540) and 3 (arrival 550). -/
def c3Timetable : Timetable :=
  ⟨[⟨[], []⟩, ⟨[0], []⟩, ⟨[0], []⟩, ⟨[0], []⟩],
    [⟨0, [475, 480, 540, 541, 550, 551], [0, 0], [1, 2, 3], 0⟩],
    [⟨.BUS⟩], []⟩

/-- A stops index where every stop is its own only equivalent. -/
def singletonStopsIndex : Router.StopsIndexFn := fun s => [s]

def c3Query : Router.Query := ⟨1, [2], .mins 480, ⟨2, 2, []⟩⟩

/-- Counterexample to C3 as stated: on `c3Timetable`, after the destination
(stop 2) is recorded with arrival 540 during the round-1 scan, the same scan
continues along the route and records an edge at stop 3 with arrival
550 ≥ 540 — the target-pruning bound is computed once per route scan and is
stale within it (and transfer relaxation is not target-pruned at all). The
ghost write log exhibits the two writes in order. -/
theorem target_pruning_total_cex :
    (Router.route c3Timetable singletonStopsIndex c3Query 10).destinations =
      [2] ∧
    (Router.route c3Timetable singletonStopsIndex c3Query 10).writeLog.map
      (fun w => (w.round, w.stop, w.arrival)) =
      [(1, 2, .mins 540), (1, 3, .mins 550)] ∧
    (Time.mins 550).isBefore (Time.mins 540) = false :=
  ⟨rfl, rfl, rfl⟩

/-! Admissibility of vehicle edges (C4). -/

theorem list_getD_append_last {α : Type} (l : List α) (x : α) (d : α)
    (k : Nat) :
    (l ++ [x]).getD k d =
      if k < l.length then l.getD k d
      else if k = l.length then x else d := by
  rw [List.getD_eq_getElem?_getD, List.getElem?_append]
  by_cases h1 : k < l.length
  · rw [if_pos h1, if_pos h1, List.getD_eq_getElem?_getD]
  · rw [if_neg h1, if_neg h1]
    by_cases h2 : k = l.length
    · subst h2
      simp
    · rw [if_neg h2, List.getElem?_eq_none (by simp; omega)]
      simp

/-- A trip found by `findEarliestTrip` always has an available pick-up at
the boarding stop (the forward scan skips `NOT_AVAILABLE` trips). -/
theorem findEarliestTrip_pickup_ne (r : Route) (i : Nat) (a : Time)
    (bt : Option Nat) (t : Nat) (h : r.findEarliestTrip i a bt = some t) :
    r.pickUpTypeFrom i t ≠ .NOT_AVAILABLE := by
  rw [Route.findEarliestTrip.eq_def] at h
  by_cases h0 : r.nbTrips ≤ 0
  · rw [if_pos h0] at h
    cases h
  · rw [if_neg h0] at h
    rcases bt with _ | b
    · simp only at h
      by_cases h1 : ((r.nbTrips : Int) - 1) < 0
      · rw [if_pos h1] at h
        cases h
      · rw [if_neg h1] at h
        by_cases h2 : r.findEarliestTripGo i a (r.nbTrips + 1) 0
            ((r.nbTrips : Int) - 1) (-1) = -1
        · rw [if_pos h2] at h
          cases h
        · rw [if_neg h2] at h
          rw [Route.findFirstBoardable] at h
          exact ((Route.findFirstBoardableGo_spec r i _ _).1 t h).2.2.1
    · simp only at h
      by_cases h1 : Min.min ((r.nbTrips : Int) - 1) ((b : Int) - 1) < 0
      · rw [if_pos h1] at h
        cases h
      · rw [if_neg h1] at h
        by_cases h2 : r.findEarliestTripGo i a (r.nbTrips + 1) 0
            (Min.min ((r.nbTrips : Int) - 1) ((b : Int) - 1)) (-1) = -1
        · rw [if_pos h2] at h
          cases h
        · rw [if_neg h2] at h
          rw [Route.findFirstBoardable] at h
          exact ((Route.findFirstBoardableGo_spec r i _ _).1 t h).2.2.1

/-- Admissibility of a single vehicle edge: the route exists, the drop-off
at the alighting stop is available, the hop-on index never exceeds the
alighting index, and for edges not produced by continuation re-scans the
hop-on is strictly before the alighting stop with an available pick-up. -/
def VehEdgeAdm (tt : Timetable) (ve : VehicleEdge) : Prop :=
  ∃ r, tt.getRoute ve.routeId = some r ∧
    r.dropOffTypeAt ve.toIdx ve.tripIndex ≠ .NOT_AVAILABLE ∧
    ve.fromIdx ≤ ve.toIdx ∧
    (ve.continuationOf = none → ve.fromIdx < ve.toIdx ∧
      r.pickUpTypeFrom ve.fromIdx ve.tripIndex ≠ .NOT_AVAILABLE)

/-- Invariant: every vehicle edge of the graph is admissible. -/
def VehInv (tt : Timetable) (rs : RoutingState) : Prop :=
  ∀ k s : Nat, ∀ ve,
    (rs.graph.getD k JsMap.empty).get? s = some (.vehicle ve) →
    VehEdgeAdm tt ve

theorem VehInv_recordEdge (tt : Timetable) (rs : RoutingState)
    (round stop : Nat) (edge : RoutingEdge)
    (hinv : VehInv tt rs)
    (hedge : ∀ ve, edge = .vehicle ve → VehEdgeAdm tt ve) :
    VehInv tt (rs.recordEdge round stop edge) := by
  intro k s ve hget
  by_cases hk : k = round
  · subst hk
    rw [recordEdge_row_self] at hget
    by_cases hlen : k < rs.graph.length
    · rw [if_pos hlen, JsMap.get?_set] at hget
      by_cases hs : stop = s
      · rw [if_pos hs] at hget
        exact hedge ve (Option.some.inj hget)
      · rw [if_neg hs] at hget
        exact hinv k s ve hget
    · rw [if_neg hlen] at hget
      exact hinv k s ve hget
  · rw [recordEdge_row_ne _ _ _ _ _ hk] at hget
    exact hinv k s ve hget

theorem VehInv_pushRow (tt : Timetable) (rs : RoutingState)
    (hinv : VehInv tt rs) :
    VehInv tt { rs with graph := rs.graph ++ [JsMap.empty] } := by
  intro k s ve hget
  simp only at hget
  rw [list_getD_append_last] at hget
  by_cases h1 : k < rs.graph.length
  · rw [if_pos h1] at hget
    exact hinv k s ve hget
  · rw [if_neg h1] at hget
    by_cases h2 : k = rs.graph.length
    · rw [if_pos h2] at hget
      cases hget
    · rw [if_neg h2] at hget
      cases hget

/-- Route ids are consistent: the route stored at index `i` of
`routesAdjacency` carries `id = i` (the GTFS importer constructs routes this
way: `new Route(routeId, ...)` with `routeId = routesAdjacency.length`). -/
def Timetable.WF (tt : Timetable) : Prop :=
  ∀ i : Nat, ∀ r, tt.routesAdjacency.get? i = some r → r.id = i

theorem JsMap.mem_set {K V : Type} [DecidableEq K] (m : JsMap K V) (k : K)
    (v : V) (p : K × V) (h : p ∈ (m.set k v).toList) :
    p ∈ m.toList ∨ p = (k, v) := by
  simp only [JsMap.toList] at h ⊢
  induction m with
  | nil => simpa [JsMap.set] using h
  | cons kv rest ih =>
    by_cases hk : kv.1 = k
    · simp only [JsMap.set, if_pos hk] at h
      rcases List.mem_cons.mp h with h | h
      · right
        rw [h, hk]
      · left
        exact List.mem_cons_of_mem _ h
    · simp only [JsMap.set, if_neg hk] at h
      rcases List.mem_cons.mp h with h | h
      · left
        rw [h]
        exact List.mem_cons_self _ _
      · rcases ih h with h | h
        · left
          exact List.mem_cons_of_mem _ h
        · right
          exact h

theorem JsMap.get?_mem {K V : Type} [DecidableEq K] (m : JsMap K V) (k : K)
    (v : V) (h : m.get? k = some v) : (k, v) ∈ m.toList := by
  simp only [JsMap.toList]
  induction m with
  | nil => cases h
  | cons kv rest ih =>
    by_cases hk : kv.1 = k
    · simp only [JsMap.get?, if_pos hk] at h
      obtain rfl := Option.some.inj h
      have hkv : (k, kv.2) = kv := by
        rw [← hk]
      rw [hkv]
      exact List.mem_cons_self _ _
    · simp only [JsMap.get?, if_neg hk] at h
      exact List.mem_cons_of_mem _ (ih h)

theorem routesPassingThrough_mem (tt : Timetable) (stop : Nat) (route : Route)
    (h : route ∈ tt.routesPassingThrough stop) :
    ∃ i : Nat, tt.routesAdjacency.get? i = some route := by
  rw [Timetable.routesPassingThrough] at h
  rcases hventry : tt.stopsAdjacency.get? stop with _ | stopData
  · rw [hventry] at h
    cases h
  · rw [hventry] at h
    revert h
    refine foldl_invariant _
      (fun routes => route ∈ routes →
        ∃ i : Nat, tt.routesAdjacency.get? i = some route) _ _
      (fun h => absurd h (List.not_mem_nil _)) ?_
    intro b rid hrid hb hmem
    revert hmem
    rcases hget : tt.routesAdjacency.get? rid with _ | r
    · exact hb
    · intro hmem
      rcases List.mem_append.mp hmem with h | h
      · exact hb h
      · obtain rfl := List.mem_singleton.mp h
        exact ⟨rid, hget⟩

theorem findReachableRoutesIdx_mem (tt : Timetable) (marked : List Nat)
    (modes : List RouteType) (route : Route) (idx : Nat)
    (h : (route, idx) ∈ Router.findReachableRoutesIdx tt marked modes) :
    ∃ i : Nat, tt.routesAdjacency.get? i = some route := by
  rw [Router.findReachableRoutesIdx] at h
  obtain ⟨⟨k, rv⟩, hmem, hsnd⟩ := List.mem_map.mp h
  simp only at hsnd
  subst hsnd
  revert hmem
  refine foldl_invariant _
    (fun m : JsMap Nat (Route × Nat) =>
      ((k, (route, idx)) : Nat × (Route × Nat)) ∈ m.toList →
      ∃ i : Nat, tt.routesAdjacency.get? i = some route) _ _
    (fun h => absurd h (List.not_mem_nil _)) ?_
  intro m stop hstop hm
  refine foldl_invariant _
    (fun m : JsMap Nat (Route × Nat) =>
      ((k, (route, idx)) : Nat × (Route × Nat)) ∈ m.toList →
      ∃ i : Nat, tt.routesAdjacency.get? i = some route) _ _ hm ?_
  intro m2 r hr hm2
  have hset : ∀ j : Nat,
      ((k, (route, idx)) : Nat × (Route × Nat)) ∈ (m2.set r.id (r, j)).toList →
      ∃ i : Nat, tt.routesAdjacency.get? i = some route := by
    intro j hmem
    rcases JsMap.mem_set _ _ _ _ hmem with h | h
    · exact hm2 h
    · obtain rfl : route = r := congrArg (Prod.fst ∘ Prod.snd) h
      exact routesPassingThrough_mem tt stop route hr
  simp only
  repeat' split
  all_goals first
  | exact hset _
  | exact hm2

/-- Transition shape of a single transfer relaxation: untouched, or exactly
one recorded transfer edge whose arrival is the source edge's arrival plus
the dwell time, guarded by strict improvement at the destination. -/
theorem relaxTransfer_cases (query : Router.Query) (round stop : Nat)
    (currentArrival : RoutingEdge) (st : RoutingState × List Nat)
    (transfer : Transfer) :
    Router.relaxTransfer query round stop currentArrival st transfer = st ∨
    ((currentArrival.arrival.plus
        (Router.transferTimeOf query.options transfer)).isBefore
      (earliestArrivalGetD st.1.earliestArrivals transfer.destination) =
        true ∧
    Router.relaxTransfer query round stop currentArrival st transfer =
      (st.1.recordEdge round transfer.destination
        (.transfer ⟨currentArrival.arrival.plus
            (Router.transferTimeOf query.options transfer), stop,
          transfer.destination, transfer.type, transfer.minTransferTime⟩),
        jsAdd st.2 transfer.destination)) := by
  by_cases hg : (currentArrival.arrival.plus
      (Router.transferTimeOf query.options transfer)).isBefore
        (earliestArrivalGetD st.1.earliestArrivals transfer.destination) =
      true
  · right
    exact ⟨hg, by simp only [Router.relaxTransfer, if_pos hg]⟩
  · left
    simp only [Router.relaxTransfer, if_neg hg]

/-- The active-trip invariant maintained along a route scan: with no
continuation, any boarded trip was caught (by `findEarliestTrip`) at a stop
index strictly before every remaining stop, with an available pick-up
there; during a continuation re-scan the preset trip boards at the hop-on
index, which is at or before every remaining stop. -/
def ATripOk (route : Route) (cont : Option Router.TripContinuation)
    (hopOn : Nat) (rem : List Nat) (atrip : Option TripBoarding) : Prop :=
  ∀ a, atrip = some a →
    match cont with
    | none =>
        route.pickUpTypeFrom a.hopOnStopIndex a.tripIndex ≠
          PickUpDropOffType.NOT_AVAILABLE ∧
        ∀ j ∈ rem, a.hopOnStopIndex < j
    | some _ => a.hopOnStopIndex = hopOn ∧ ∀ j ∈ rem, hopOn ≤ j

theorem ATripOk_tail (route : Route) (cont : Option Router.TripContinuation)
    (hopOn j : Nat) (l : List Nat) (atrip : Option TripBoarding)
    (h : ATripOk route cont hopOn (j :: l) atrip) :
    ATripOk route cont hopOn l atrip := by
  intro a ha
  cases cont with
  | none =>
    obtain ⟨h1, h2⟩ := h a ha
    exact ⟨h1, fun x hx => h2 x (List.mem_cons_of_mem _ hx)⟩
  | some c =>
    obtain ⟨h1, h2⟩ := h a ha
    exact ⟨h1, fun x hx => h2 x (List.mem_cons_of_mem _ hx)⟩

/-- The scan fold preserves vehicle-edge admissibility: every edge the
update phase records is admissible given the active-trip invariant, and the
board phase re-establishes the invariant for the remaining (strictly
increasing) stop indices. -/
theorem scanRouteFold_VehInv (tt : Timetable) (route : Route)
    (hopOn round : Nat) (cont : Option Router.TripContinuation)
    (bound : Time) (hroute : tt.getRoute route.id = some route)
    (l : List Nat) :
    ∀ st : Option TripBoarding × RoutingState × List Nat,
      l.Pairwise (· < ·) →
      VehInv tt st.2.1 →
      ATripOk route cont hopOn l st.1 →
      VehInv tt (l.foldl
        (Router.scanRouteStep route hopOn round cont bound) st).2.1 := by
  induction l with
  | nil =>
    intro st _ hv _
    exact hv
  | cons j l' ih =>
    intro st hpair hv hat
    rw [List.foldl_cons]
    have hjlt := (List.pairwise_cons.mp hpair).1
    have hpair' := (List.pairwise_cons.mp hpair).2
    have hv' : VehInv tt
        (Router.scanRouteStep route hopOn round cont bound st j).2.1 := by
      rw [scanRouteStep_rs]
      rcases scanRouteUpdate_cases route round cont bound st.1 st.2.1 st.2.2
          j with heq | ⟨a, ha, hdrop, _, _, heq⟩
      · rw [heq]
        exact hv
      · rw [heq]
        refine VehInv_recordEdge tt st.2.1 round _ _ hv ?_
        intro ve hve
        have hve' := (RoutingEdge.vehicle.injEq _ _).mp hve
        subst hve'
        refine ⟨route, ?_, ?_, ?_, ?_⟩
        · exact hroute
        · exact hdrop
        · cases hcont : cont with
          | none =>
            rw [hcont] at hat
            obtain ⟨_, hlt⟩ := hat a ha
            exact Nat.le_of_lt (hlt j (List.mem_cons_self _ _))
          | some c =>
            rw [hcont] at hat
            obtain ⟨hh, hle⟩ := hat a ha
            simp only [VehicleEdge.fromIdx, VehicleEdge.toIdx]
            rw [hh]
            exact hle j (List.mem_cons_self _ _)
        · cases hcont : cont with
          | none =>
            intro _
            rw [hcont] at hat
            obtain ⟨hpick, hlt⟩ := hat a ha
            exact ⟨hlt j (List.mem_cons_self _ _), hpick⟩
          | some c =>
            intro hnone
            simp only [VehicleEdge.continuationOf, Option.map_some'] at hnone
            cases hnone
    have hat' : ATripOk route cont hopOn l'
        (Router.scanRouteStep route hopOn round cont bound st j).1 := by
      rw [scanRouteStep_atrip]
      rcases scanRouteBoard_cases route round cont st.1
          (Router.scanRouteUpdate route round cont bound st.1 st.2.1 st.2.2
            j).1 j with heq | ⟨hcn, t, a0, bt, hfind, heq⟩
      · rw [heq]
        exact ATripOk_tail route cont hopOn j l' st.1 hat
      · rw [heq]
        subst hcn
        intro a ha
        obtain rfl := (Option.some.inj ha).symm
        exact ⟨findEarliestTrip_pickup_ne route j a0 bt t hfind, hjlt⟩
    exact ih _ hpair' hv' hat'

/-- `Router.scanRoute` preserves vehicle-edge admissibility, for any route
whose id resolves back to it through the timetable. -/
theorem scanRoute_VehInv (tt : Timetable) (route : Route)
    (hopOn round : Nat) (rs : RoutingState)
    (cont : Option Router.TripContinuation)
    (hroute : tt.getRoute route.id = some route) (hinv : VehInv tt rs) :
    VehInv tt (Router.scanRoute route hopOn round rs cont).1 := by
  rw [Router.scanRoute]
  simp only
  apply scanRouteFold_VehInv tt route hopOn round cont _ hroute
  · exact List.pairwise_lt_range' _ _
  · exact hinv
  · intro a ha
    cases hcont : cont with
    | none =>
      rw [hcont] at ha
      cases ha
    | some c =>
      rw [hcont] at ha
      simp only [Option.map_some'] at ha
      obtain rfl := (Option.some.inj ha).symm
      exact ⟨rfl, fun j hj => (List.mem_range'_1.mp hj).1⟩

/-- Transfer relaxation records only transfer edges, so it preserves
vehicle-edge admissibility. -/
theorem relaxTransfer_VehInv (tt : Timetable) (query : Router.Query)
    (round stop : Nat) (cur : RoutingEdge) (st : RoutingState × List Nat)
    (transfer : Transfer) (hinv : VehInv tt st.1) :
    VehInv tt (Router.relaxTransfer query round stop cur st transfer).1 := by
  rcases relaxTransfer_cases query round stop cur st transfer with
    heq | ⟨_, heq⟩
  · rw [heq]
    exact hinv
  · rw [heq]
    exact VehInv_recordEdge tt st.1 _ _ _ hinv (fun ve hve => by cases hve)

theorem relaxStopTransfers_VehInv (tt : Timetable) (query : Router.Query)
    (round : Nat) (st : RoutingState × List Nat) (stop : Nat)
    (hinv : VehInv tt st.1) :
    VehInv tt (Router.relaxStopTransfers tt query round st stop).1 := by
  rw [Router.relaxStopTransfers]
  split
  · exact hinv
  · exact hinv
  · refine foldl_invariant _
      (fun st : RoutingState × List Nat => VehInv tt st.1) _ _ hinv ?_
    intro b a _ hb
    exact relaxTransfer_VehInv tt query round stop _ b a hb

theorem considerTransfers_VehInv (tt : Timetable) (query : Router.Query)
    (round : Nat) (marked : List Nat) (rs0 : RoutingState)
    (hinv : VehInv tt rs0) :
    VehInv tt (Router.considerTransfers tt query round marked rs0).1 := by
  rw [Router.considerTransfers]
  refine foldl_invariant _
    (fun st : RoutingState × List Nat => VehInv tt st.1) _ _ hinv ?_
  intro b a _ hb
  exact relaxStopTransfers_VehInv tt query round b a hb

/-- The continuation fixpoint loop preserves vehicle-edge admissibility on a
timetable with consistent route ids. -/
theorem continuationLoop_VehInv (tt : Timetable) (hWF : tt.WF)
    (round : Nat) :
    ∀ (fuel : Nat) (conts : List Router.TripContinuation)
      (rs : RoutingState) (marked : List Nat), VehInv tt rs →
      VehInv tt (Router.continuationLoop tt round fuel conts rs marked).1 := by
  intro fuel
  induction fuel with
  | zero =>
    intro conts rs marked h
    exact h
  | succ n ih =>
    intro conts rs marked h
    rw [Router.continuationLoop]
    split
    · exact h
    · simp only
      apply ih
      refine foldl_invariant _
        (fun st : RoutingState × List Nat => VehInv tt st.1) _ _ h ?_
      intro b c hc hb
      rcases hget : tt.getRoute c.routeId with _ | r
      · exact hb
      · have hid : r.id = c.routeId := hWF c.routeId r hget
        have hr : tt.getRoute r.id = some r := by
          rw [Timetable.getRoute, hid]
          exact hget
        exact scanRoute_VehInv tt r c.hopOnStopIndex round b.1 (some c) hr hb

/-- One complete round preserves vehicle-edge admissibility. -/
theorem runRound_VehInv (tt : Timetable) (hWF : tt.WF)
    (query : Router.Query) (round contFuel : Nat) (marked : List Nat)
    (rs : RoutingState) (hinv : VehInv tt rs) :
    VehInv tt (Router.runRound tt query round contFuel marked rs).1 := by
  rw [Router.runRound]
  simp only
  have h1 : VehInv tt { rs with graph := rs.graph ++ [JsMap.empty] } :=
    VehInv_pushRow tt rs hinv
  have h2 : VehInv tt ((Router.findReachableRoutesIdx tt marked
      query.options.transportModes).foldl
      (fun (st : RoutingState × List Nat) rh =>
        let res := Router.scanRoute rh.1 rh.2 round st.1 none
        (res.1, jsUnion st.2 res.2))
      ({ rs with graph := rs.graph ++ [JsMap.empty] }, [])).1 := by
    refine foldl_invariant _
      (fun st : RoutingState × List Nat => VehInv tt st.1) _ _ h1 ?_
    intro b rh hrh hb
    obtain ⟨i, hi⟩ := findReachableRoutesIdx_mem tt marked
      query.options.transportModes rh.1 rh.2 hrh
    have hid : rh.1.id = i := hWF i rh.1 hi
    have hr : tt.getRoute rh.1.id = some rh.1 := by
      rw [Timetable.getRoute, hid]
      exact hi
    exact scanRoute_VehInv tt rh.1 rh.2 round b.1 none hr hb
  exact considerTransfers_VehInv tt query round _ _
    (continuationLoop_VehInv tt hWF round contFuel _ _ _ h2)

/-- The round loop preserves vehicle-edge admissibility. -/
theorem runRounds_VehInv (tt : Timetable) (hWF : tt.WF)
    (query : Router.Query) :
    ∀ (roundsLeft round contFuel : Nat) (marked : List Nat)
      (rs : RoutingState), VehInv tt rs →
      VehInv tt (Router.runRounds tt query roundsLeft round contFuel marked
        rs) := by
  intro roundsLeft
  induction roundsLeft with
  | zero =>
    intro round contFuel marked rs h
    exact h
  | succ n ih =>
    intro round contFuel marked rs h
    rw [Router.runRounds]
    split
    · exact runRound_VehInv tt hWF query round contFuel marked rs h
    · exact ih _ _ _ _ (runRound_VehInv tt hWF query round contFuel marked
        rs h)

/-- The initial routing state contains only origin edges, hence no vehicle
edge at all. -/
theorem initRoutingState_VehInv (tt : Timetable)
    (stopsIndex : Router.StopsIndexFn) (query : Router.Query) :
    VehInv tt (Router.initRoutingState stopsIndex query) := by
  intro k s ve hget
  rw [Router.initRoutingState] at hget
  simp only at hget
  cases k with
  | zero =>
    rw [List.getD_cons_zero] at hget
    have hall : ∀ s : Nat, ∀ e,
        ((stopsIndex query.fromStop).foldl
          (fun (m : JsMap Nat RoutingEdge) originStop =>
            m.set originStop (.origin query.departureTime))
          JsMap.empty).get? s = some e →
        ∃ a, e = RoutingEdge.origin a := by
      refine foldl_invariant _
        (fun m : JsMap Nat RoutingEdge => ∀ s : Nat, ∀ e,
          m.get? s = some e → ∃ a, e = RoutingEdge.origin a) _ _ ?_ ?_
      · intro s e h
        cases h
      · intro m o _ hm s e h
        rw [JsMap.get?_set] at h
        by_cases ho : o = s
        · rw [if_pos ho] at h
          exact ⟨query.departureTime, (Option.some.inj h).symm⟩
        · rw [if_neg ho] at h
          exact hm s e h
    obtain ⟨a, ha⟩ := hall s _ hget
    cases ha
  | succ n =>
    rw [List.getD_eq_getElem?_getD] at hget
    simp only [List.getElem?_cons_succ, List.getElem?_nil,
      Option.getD_none] at hget
    cases hget

/-- The full router run keeps every recorded vehicle edge admissible. -/
theorem route_VehInv (tt : Timetable) (hWF : tt.WF)
    (stopsIndex : Router.StopsIndexFn) (query : Router.Query)
    (contFuel : Nat) :
    VehInv tt (Router.route tt stopsIndex query contFuel) := by
  rw [Router.route]
  exact runRounds_VehInv tt hWF query _ _ _ _ _
    (considerTransfers_VehInv tt query 0 _ _
      (initRoutingState_VehInv tt stopsIndex query))

/-- Concrete timetable for C4: route 0 runs stop 1 (dep 480) → stop 2
(arr 505); route 1 runs stop 2 (arr 500, dep 505) → stop 4 (arr 535); an
in-seat continuation links route 0's trip, alighting at its stop index 1,
to boarding route 1's trip at its stop index 0. -/
def c4Timetable : Timetable :=
  ⟨[⟨[], []⟩, ⟨[0], []⟩, ⟨[0, 1], []⟩, ⟨[], []⟩, ⟨[1], []⟩],
    [⟨0, [470, 480, 505, 505], [0], [1, 2], 0⟩,
      ⟨1, [500, 505, 535, 535], [0], [2, 4], 0⟩],
    [⟨.BUS⟩],
    [((1, 0, 0), [⟨1, 0, 0⟩])]⟩

def c4Query : Router.Query := ⟨1, [4], .mins 480, ⟨4, 2, []⟩⟩

theorem c4Timetable_WF : c4Timetable.WF := by
  intro i r h
  rcases i with _ | (_ | i)
  · obtain rfl := Option.some.inj h
    rfl
  · obtain rfl := Option.some.inj h
    rfl
  · cases h

/-- Counterexample to C4 as stated: on `c4Timetable`, the continuation
re-scan of route 1 records at stop 2 (round 1) a vehicle edge whose
`fromIdx` equals its `toIdx` (both 0: the continuation trip's arrival 500
at its own hop-on stop improves the previous arrival 505), refuting
`from_index < to_index` for continuation edges; its pick-up availability is
also never checked. -/
theorem vehicle_edges_admissible_cex :
    ((Router.route c4Timetable singletonStopsIndex c4Query 10).graph.getD 1
        JsMap.empty).get? 2 =
      some (.vehicle (.mk (.mins 500) 0 0 1 0
        (some (.mk (.mins 505) 0 1 0 0 none)))) ∧
    ¬ ((VehicleEdge.mk (.mins 500) 0 0 1 0
        (some (.mk (.mins 505) 0 1 0 0 none))).fromIdx <
      (VehicleEdge.mk (.mins 500) 0 0 1 0
        (some (.mk (.mins 505) 0 1 0 0 none))).toIdx) :=
  ⟨rfl, by decide⟩

/-- C4 (amended): on a timetable whose route ids are consistent
(`Timetable.WF`), every vehicle edge recorded in any round's graph by
`Router.route` is admissible: its route id resolves to a route, the
drop-off at the alighting index is available for its trip, and its hop-on
index never exceeds its alighting index; moreover every vehicle edge NOT
produced by an in-seat continuation re-scan (`continuationOf = none`) has
its hop-on index strictly below the alighting index and an available
pick-up there. Continuation re-scan edges can alight at their own hop-on
index and never have their pick-up checked (see the counterexample), so the
claim's unconditional `from_index < to_index` and pick-up availability do
not hold. -/
theorem vehicle_edges_admissible (tt : Timetable) (hWF : tt.WF)
    (stopsIndex : Router.StopsIndexFn) (query : Router.Query)
    (contFuel : Nat) (k s : Nat) (ve : VehicleEdge)
    (hget : ((Router.route tt stopsIndex query contFuel).graph.getD k
        JsMap.empty).get? s = some (.vehicle ve)) :
    VehEdgeAdm tt ve :=
  route_VehInv tt hWF stopsIndex query contFuel k s ve hget

theorem vehicle_edges_admissible_witness :
    c4Timetable.WF ∧
    VehEdgeAdm c4Timetable
      (.mk (.mins 500) 0 0 1 0 (some (.mk (.mins 505) 0 1 0 0 none))) :=
  ⟨c4Timetable_WF,
    vehicle_edges_admissible c4Timetable c4Timetable_WF singletonStopsIndex
      c4Query 10 1 2 _ rfl⟩

/-- Concrete inputs exercising the transfer dwell rule's default branch: a
walkable transfer to stop 5 with no own minimum transfer time, relaxed from
an origin edge arriving at minute 100 under a query whose default minimum
transfer time is 2 minutes. -/
def c6Query : Router.Query := ⟨1, [5], .mins 100, ⟨2, 2, []⟩⟩

def c6Transfer : Transfer := ⟨5, .RECOMMENDED, none⟩

def c6State : RoutingState × List Nat :=
  (⟨JsMap.empty, [JsMap.empty], [], []⟩, [])

/-- C6: the transfer dwell rule — whenever relaxing a transfer from a stop
whose current-round edge arrives at time T actually records (changes the
state), the destination's earliest arrival becomes exactly T plus the
dwell, where the dwell is the transfer's own `minTransferTime` when
present (regardless of the transfer type, including IN_SEAT), else zero
for IN_SEAT transfers, else the query's default `options.minTransferTime`. -/
theorem transfer_dwell_rule (query : Router.Query) (round stop : Nat)
    (cur : RoutingEdge) (st : RoutingState × List Nat) (transfer : Transfer)
    (hrec : Router.relaxTransfer query round stop cur st transfer ≠ st) :
    (Router.relaxTransfer query round stop cur st
        transfer).1.earliestArrivals.get? transfer.destination =
      some ⟨cur.arrival.plus
        (match transfer.minTransferTime with
         | some d => d
         | none =>
             if transfer.type = TransferType.IN_SEAT then 0
             else query.options.minTransferTime), round⟩ := by
  rcases relaxTransfer_cases query round stop cur st transfer with
    heq | ⟨_, heq⟩
  · exact absurd heq hrec
  · rw [heq]
    exact recordEdge_earliest_self st.1 round transfer.destination _

theorem transfer_dwell_rule_witness :
    Router.relaxTransfer c6Query 0 1 (.origin (.mins 100)) c6State
        c6Transfer ≠ c6State ∧
    (Router.relaxTransfer c6Query 0 1 (.origin (.mins 100)) c6State
        c6Transfer).1.earliestArrivals.get? 5 =
      some ⟨.mins 102, 0⟩ := by
  have hne : Router.relaxTransfer c6Query 0 1 (.origin (.mins 100)) c6State
      c6Transfer ≠ c6State := by
    intro h
    have hlen := congrArg
      (fun p : RoutingState × List Nat => p.1.writeLog.length) h
    simp only [c6State] at hlen
    exact absurd hlen (by decide)
  exact ⟨hne, transfer_dwell_rule c6Query 0 1 (.origin (.mins 100)) c6State
    c6Transfer hne⟩

/-- With no marked stops, a round is a no-op apart from pushing the new
round's empty edge map. -/
theorem runRound_nil (tt : Timetable) (query : Router.Query)
    (round contFuel : Nat) (rs : RoutingState) :
    Router.runRound tt query round contFuel [] rs =
      ({ rs with graph := rs.graph ++ [JsMap.empty] }, []) := by
  cases contFuel with
  | zero => rfl
  | succ n => rfl

/-- With no marked stops the round loop stops after its first round. -/
theorem runRounds_nil (tt : Timetable) (query : Router.Query)
    (n round contFuel : Nat) (rs : RoutingState) :
    Router.runRounds tt query (n + 1) round contFuel [] rs =
      { rs with graph := rs.graph ++ [JsMap.empty] } := by
  rw [Router.runRounds, runRound_nil]
  rfl

/-- A query whose origin expands to no equivalent stops yields the empty
initial state, and the whole run only pushes the round-1 empty edge map. -/
theorem route_empty_origin_state (tt : Timetable)
    (stopsIndex : Router.StopsIndexFn) (query : Router.Query)
    (contFuel : Nat) (horigin : stopsIndex query.fromStop = []) :
    Router.route tt stopsIndex query contFuel =
      ⟨JsMap.empty, [JsMap.empty, JsMap.empty],
        query.toStops.foldl
          (fun acc destination => acc ++ stopsIndex destination) [], []⟩ := by
  rw [Router.route, Router.initRoutingState, horigin]
  cases contFuel with
  | zero => rfl
  | succ n => rfl

/-- On a state whose earliest-arrivals map is empty, `bestRoute` finds no
reached destination and returns `undefined`. -/
theorem bestRoute_empty_arrivals (tt : Timetable)
    (stopsIndex : Router.StopsIndexFn) (query : Router.Query)
    (rs : RoutingState) (to? : Option (List Nat)) (fuel : Nat)
    (h : rs.earliestArrivals = JsMap.empty) :
    Result.bestRoute tt stopsIndex query rs to? fuel =
      Result.BestRouteResult.noRoute := by
  rw [Result.bestRoute]
  simp only [h]
  have hfold := foldl_invariant
    (fun (acc : Option (Nat × Arrival)) destination =>
      match (JsMap.empty : JsMap Nat Arrival).get? destination with
      | some arrivalTime =>
          match acc with
          | none => some (destination, arrivalTime)
          | some (_, fastestTime) =>
              if arrivalTime.arrival.isBefore fastestTime.arrival then
                some (destination, arrivalTime)
              else acc
      | none => acc)
    (fun acc => acc = none)
    ((to?.getD query.toStops).foldl
      (fun acc destination => acc ++ stopsIndex destination) [])
    none rfl (fun b a _ hb => hb)
  rw [hfold]

def c9Timetable : Timetable := ⟨[], [], [], []⟩

/-- A stops index that knows no stop: every source id expands to nothing. -/
def c9StopsIndex : Router.StopsIndexFn := fun _ => []

def c9Query : Router.Query := ⟨7, [5], .mins 480, ⟨2, 2, []⟩⟩

/-- C9: an unknown origin is a domain miss, not an error — when the origin
expands to no equivalent stops, `Router.route` still returns a state (whose
earliest-arrivals map stays empty: nothing is ever marked or reached), and
`bestRoute` on it returns `undefined` (`noRoute`) instead of throwing. -/
theorem unknown_origin_no_route (tt : Timetable)
    (stopsIndex : Router.StopsIndexFn) (query : Router.Query)
    (contFuel : Nat) (horigin : stopsIndex query.fromStop = []) :
    (Router.route tt stopsIndex query contFuel).earliestArrivals =
      JsMap.empty ∧
    ∀ (to? : Option (List Nat)) (fuel : Nat),
      Result.bestRoute tt stopsIndex query
        (Router.route tt stopsIndex query contFuel) to? fuel =
        Result.BestRouteResult.noRoute := by
  have hstate := route_empty_origin_state tt stopsIndex query contFuel
    horigin
  constructor
  · rw [hstate]
  · intro to? fuel
    exact bestRoute_empty_arrivals tt stopsIndex query _ to? fuel
      (by rw [hstate])

theorem unknown_origin_no_route_witness :
    c9StopsIndex c9Query.fromStop = [] ∧
    (Router.route c9Timetable c9StopsIndex c9Query 5).earliestArrivals =
      JsMap.empty ∧
    Result.bestRoute c9Timetable c9StopsIndex c9Query
      (Router.route c9Timetable c9StopsIndex c9Query 5) none 5 =
      Result.BestRouteResult.noRoute :=
  ⟨rfl,
    (unknown_origin_no_route c9Timetable c9StopsIndex c9Query 5 rfl).1,
    (unknown_origin_no_route c9Timetable c9StopsIndex c9Query 5 rfl).2
      none 5⟩

/-! Earliest hop-on stop of `findReachableRoutes` (C7). -/

theorem isBefore_self (r : Route) (s : Nat) : r.isBefore s s = false := by
  rw [Route.isBefore]
  cases h : r.stopIndices.get? s with
  | none => rfl
  | some ia => simp

/-- Primary-index ordering: if `b` is strictly before `c` but `a` (on the
route) is not, then `a` is not strictly before `b` either. -/
theorem isBefore_false_of (r : Route) {a b c : Nat}
    (hbc : r.isBefore b c = true) (hac : r.isBefore a c = false)
    (ha : (r.stopIndices.get? a).isSome = true) :
    r.isBefore a b = false := by
  rw [Route.isBefore] at hbc hac ⊢
  rcases hA : r.stopIndices.get? a with _ | ia
  · rw [hA] at ha
  · rcases hB : r.stopIndices.get? b with _ | ib
    · rfl
    · rcases hC : r.stopIndices.get? c with _ | ic
      · rw [hB, hC] at hbc
        cases hbc
      · rw [hB, hC] at hbc
        rw [hA, hC] at hac
        have h1 : ib < ic := of_decide_eq_true hbc
        have h2 : ¬ ia < ic := of_decide_eq_false hac
        exact decide_eq_false (by omega)

/-- On a timetable with consistent route ids, two routes of the adjacency
with the same id are the same route. -/
theorem routesPassingThrough_id_inj (tt : Timetable) (hWF : tt.WF)
    {s1 s2 : Nat} {r1 r2 : Route}
    (h1 : r1 ∈ tt.routesPassingThrough s1)
    (h2 : r2 ∈ tt.routesPassingThrough s2) (hid : r1.id = r2.id) :
    r1 = r2 := by
  obtain ⟨i1, hi1⟩ := routesPassingThrough_mem tt s1 r1 h1
  obtain ⟨i2, hi2⟩ := routesPassingThrough_mem tt s2 r2 h2
  have e1 := hWF i1 r1 hi1
  have e2 := hWF i2 r2 hi2
  have h3 : tt.routesAdjacency.get? r1.id = some r1 := by
    rw [e1]
    exact hi1
  have h4 : tt.routesAdjacency.get? r1.id = some r2 := by
    rw [hid, e2]
    exact hi2
  exact Option.some.inj (h3.symm.trans h4)

/-- What a surviving entry of the reachable-routes map satisfies: keyed by
its route's id, mode-allowed, hop-on stop on the route, and the hop-on stop
is one of the marked stops in scope with the route passing through it. -/
def ReachEntryOk (tt : Timetable) (modes : List RouteType)
    (scope : List MarkedStop) (rid : Nat) (r : Route) (hop : Nat) : Prop :=
  rid = r.id ∧ routeModeOk tt modes r = true ∧
  (r.stopIndices.get? hop).isSome = true ∧
  ∃ m ∈ scope, m.stopId = hop ∧ r ∈ tt.routesPassingThrough m.stopId

/-- Invariant of the outer fold over marked stops: every entry is sound and
minimal for the processed stops, and every mode-allowed route through a
processed stop has an entry. -/
def ReachInv (tt : Timetable) (modes : List RouteType)
    (processed : List MarkedStop) (map : JsMap Nat (Route × Nat)) : Prop :=
  (∀ rid : Nat, ∀ r : Route, ∀ hop : Nat, map.get? rid = some (r, hop) →
    ReachEntryOk tt modes processed rid r hop ∧
    ∀ m ∈ processed, r ∈ tt.routesPassingThrough m.stopId →
      r.isBefore m.stopId hop = false) ∧
  ∀ m ∈ processed, ∀ r ∈ tt.routesPassingThrough m.stopId,
    routeModeOk tt modes r = true →
    ∃ hop : Nat, map.get? r.id = some (r, hop)

/-- Invariant of the inner fold while marked stop `m` is being processed
and the routes `rs` are still pending: minimality and completeness with
respect to `m` hold for every route already handled (not left in `rs`). -/
def ReachMid (tt : Timetable) (modes : List RouteType)
    (processed : List MarkedStop) (m : MarkedStop) (rs : List Route)
    (map : JsMap Nat (Route × Nat)) : Prop :=
  (∀ rid : Nat, ∀ r : Route, ∀ hop : Nat, map.get? rid = some (r, hop) →
    ReachEntryOk tt modes (processed ++ [m]) rid r hop ∧
    (∀ m' ∈ processed, r ∈ tt.routesPassingThrough m'.stopId →
      r.isBefore m'.stopId hop = false) ∧
    (r ∈ tt.routesPassingThrough m.stopId → r ∉ rs →
      r.isBefore m.stopId hop = false)) ∧
  (∀ m' ∈ processed, ∀ r ∈ tt.routesPassingThrough m'.stopId,
    routeModeOk tt modes r = true →
    ∃ hop : Nat, map.get? r.id = some (r, hop)) ∧
  ∀ r ∈ tt.routesPassingThrough m.stopId, r ∉ rs →
    routeModeOk tt modes r = true →
    ∃ hop : Nat, map.get? r.id = some (r, hop)

/-- One inner-loop step of `findReachableRoutes` re-establishes the
mid-scan invariant, with the handled route removed from the pending list.
Requires no marked stop id `0` (so the JS truthiness test on the recorded
hop-on stop never misfires) and marked stops consistent with the stop
sequences of their routes. -/
theorem reachStep_mid (tt : Timetable) (hWF : tt.WF)
    (modes : List RouteType) (processed : List MarkedStop) (m : MarkedStop)
    (r0 : Route) (rs' : List Route) (map : JsMap Nat (Route × Nat))
    (h0 : ∀ m' ∈ processed ++ [m], m'.stopId ≠ 0)
    (hcons : ∀ m' ∈ processed ++ [m],
      ∀ r ∈ tt.routesPassingThrough m'.stopId,
      (r.stopIndices.get? m'.stopId).isSome = true)
    (hr0 : r0 ∈ tt.routesPassingThrough m.stopId)
    (hmid : ReachMid tt modes processed m (r0 :: rs') map) :
    ReachMid tt modes processed m rs' (reachStep tt modes m map r0) := by
  obtain ⟨hent, hcompOld, hcompM⟩ := hmid
  have hmem : m ∈ processed ++ [m] := List.mem_append_right _
    (List.mem_singleton.mpr rfl)
  have hidxm : (r0.stopIndices.get? m.stopId).isSome = true :=
    hcons m hmem r0 hr0
  have hhead : ∀ r : Route, r ∈ r0 :: rs' → r ∉ rs' → r = r0 := by
    intro r hin hnotin
    rcases List.mem_cons.mp hin with h | h
    · exact h
    · exact absurd h hnotin
  have hsetMid : routeModeOk tt modes r0 = true →
      (∀ m' ∈ processed, r0 ∈ tt.routesPassingThrough m'.stopId →
        r0.isBefore m'.stopId m.stopId = false) →
      ReachMid tt modes processed m rs'
        (map.set r0.id (r0, m.stopId)) := by
    intro hmode hminNew
    refine ⟨?_, ?_, ?_⟩
    · intro rid r hop hget2
      rw [JsMap.get?_set] at hget2
      by_cases heq : r0.id = rid
      · rw [if_pos heq] at hget2
        have hpair := Option.some.inj hget2
        obtain rfl : r0 = r := congrArg Prod.fst hpair
        obtain rfl : m.stopId = hop := congrArg Prod.snd hpair
        refine ⟨⟨heq.symm, hmode, hidxm, m, hmem, rfl, hr0⟩, hminNew, ?_⟩
        intro _ _
        exact isBefore_self r0 m.stopId
      · rw [if_neg heq] at hget2
        obtain ⟨hE, hminOld, hminM⟩ := hent rid r hop hget2
        refine ⟨hE, hminOld, ?_⟩
        intro hrm hnotin
        by_cases hin : r ∈ r0 :: rs'
        · have hre2 := hhead r hin hnotin
          have : rid = r0.id := by rw [hE.1, hre2]
          exact absurd this.symm heq
        · exact hminM hrm hin
    · intro m' hm' r hr hmode2
      by_cases heq : r0.id = r.id
      · have hre : r = r0 := routesPassingThrough_id_inj tt hWF hr hr0
          heq.symm
        refine ⟨m.stopId, ?_⟩
        rw [JsMap.get?_set, if_pos heq, hre]
      · obtain ⟨hop, hhop⟩ := hcompOld m' hm' r hr hmode2
        refine ⟨hop, ?_⟩
        rw [JsMap.get?_set, if_neg heq]
        exact hhop
    · intro r hr hnotin hmode2
      by_cases heq : r0.id = r.id
      · have hre : r = r0 := routesPassingThrough_id_inj tt hWF hr hr0
          heq.symm
        refine ⟨m.stopId, ?_⟩
        rw [JsMap.get?_set, if_pos heq, hre]
      · by_cases hin : r ∈ r0 :: rs'
        · have hre2 := hhead r hin hnotin
          exact absurd (congrArg Route.id hre2).symm heq
        · obtain ⟨hop, hhop⟩ := hcompM r hr hin hmode2
          refine ⟨hop, ?_⟩
          rw [JsMap.get?_set, if_neg heq]
          exact hhop
  rw [reachStep]
  by_cases hmode : routeModeOk tt modes r0 = true
  · rw [if_pos hmode]
    rcases hget : map.get? r0.id with _ | ⟨rprev, hop⟩
    · refine hsetMid hmode ?_
      intro m' hm' hrm'
      exfalso
      obtain ⟨hop, hhop⟩ := hcompOld m' hm' r0 hrm' hmode
      rw [hget] at hhop
      cases hhop
    · obtain ⟨hE, hminOld, hminM⟩ := hent r0.id rprev hop hget
      obtain ⟨m2, hm2, hs2, hr2⟩ := hE.2.2.2
      have hre : rprev = r0 := routesPassingThrough_id_inj tt hWF hr2 hr0
        (by rw [← hE.1])
      have hop0 : hop ≠ 0 := by
        rw [← hs2]
        exact h0 m2 hm2
      simp only
      rw [if_pos hop0]
      by_cases hbef : r0.isBefore m.stopId hop = true
      · rw [if_pos hbef]
        refine hsetMid hmode ?_
        intro m' hm' hrm'
        have hold := hminOld m' hm' (by rw [hre]; exact hrm')
        rw [hre] at hold
        have hidx' : (r0.stopIndices.get? m'.stopId).isSome = true :=
          hcons m' (List.mem_append_left _ hm') r0 hrm'
        exact isBefore_false_of r0 hbef hold hidx'
      · rw [if_neg hbef]
        have hbef' : r0.isBefore m.stopId hop = false := by
          simpa using hbef
        refine ⟨?_, hcompOld, ?_⟩
        · intro rid r hop2 hget2
          obtain ⟨hE2, hmin2, hminM2⟩ := hent rid r hop2 hget2
          refine ⟨hE2, hmin2, ?_⟩
          intro hrm hnotin
          by_cases hin : r ∈ r0 :: rs'
          · have hre2 := hhead r hin hnotin
            have hkey : rid = r0.id := by rw [hE2.1, hre2]
            rw [hkey, hget] at hget2
            have hpair := Option.some.inj hget2
            have hr3 : rprev = r := congrArg Prod.fst hpair
            have hh3 : hop = hop2 := congrArg Prod.snd hpair
            rw [← hr3, ← hh3, hre]
            exact hbef'
          · exact hminM2 hrm hin
        · intro r hr hnotin hmode2
          by_cases hin : r ∈ r0 :: rs'
          · have hre2 := hhead r hin hnotin
            refine ⟨hop, ?_⟩
            rw [hre2, hget, hre]
          · exact hcompM r hr hin hmode2
  · rw [if_neg hmode]
    refine ⟨?_, hcompOld, ?_⟩
    · intro rid r hop hget2
      obtain ⟨hE2, hmin2, hminM2⟩ := hent rid r hop hget2
      refine ⟨hE2, hmin2, ?_⟩
      intro hrm hnotin
      by_cases hin : r ∈ r0 :: rs'
      · have hre2 := hhead r hin hnotin
        exact absurd (hre2 ▸ hE2.2.1) hmode
      · exact hminM2 hrm hin
    · intro r hr hnotin hmode2
      by_cases hin : r ∈ r0 :: rs'
      · have hre2 := hhead r hin hnotin
        exact absurd (hre2 ▸ hmode2) hmode
      · exact hcompM r hr hin hmode2

theorem reach_inner (tt : Timetable) (hWF : tt.WF)
    (modes : List RouteType) (processed : List MarkedStop) (m : MarkedStop)
    (h0 : ∀ m' ∈ processed ++ [m], m'.stopId ≠ 0)
    (hcons : ∀ m' ∈ processed ++ [m],
      ∀ r ∈ tt.routesPassingThrough m'.stopId,
      (r.stopIndices.get? m'.stopId).isSome = true) :
    ∀ (rs : List Route) (map : JsMap Nat (Route × Nat)),
      (∀ r ∈ rs, r ∈ tt.routesPassingThrough m.stopId) →
      ReachMid tt modes processed m rs map →
      ReachMid tt modes processed m []
        (rs.foldl (reachStep tt modes m) map) := by
  intro rs
  induction rs with
  | nil =>
    intro map _ h
    exact h
  | cons r0 rs' ih =>
    intro map hsub hmid
    rw [List.foldl_cons]
    refine ih _ (fun r hr => hsub r (List.mem_cons_of_mem _ hr)) ?_
    exact reachStep_mid tt hWF modes processed m r0 rs' map h0 hcons
      (hsub r0 (List.mem_cons_self _ _)) hmid

theorem ReachMid_start (tt : Timetable) (modes : List RouteType)
    (processed : List MarkedStop) (m : MarkedStop)
    (map : JsMap Nat (Route × Nat))
    (hinv : ReachInv tt modes processed map) :
    ReachMid tt modes processed m (tt.routesPassingThrough m.stopId) map := by
  obtain ⟨hent, hcomp⟩ := hinv
  refine ⟨?_, hcomp, ?_⟩
  · intro rid r hop hget
    obtain ⟨hE, hmin⟩ := hent rid r hop hget
    obtain ⟨h1, h2, h3, m', hm', h4⟩ := hE
    refine ⟨⟨h1, h2, h3, m', List.mem_append_left _ hm', h4⟩, hmin, ?_⟩
    intro hrm hnotin
    exact absurd hrm hnotin
  · intro r hr hnotin _
    exact absurd hr hnotin

theorem ReachMid_finish (tt : Timetable) (modes : List RouteType)
    (processed : List MarkedStop) (m : MarkedStop)
    (map : JsMap Nat (Route × Nat))
    (hmid : ReachMid tt modes processed m [] map) :
    ReachInv tt modes (processed ++ [m]) map := by
  obtain ⟨hent, hcompOld, hcompM⟩ := hmid
  constructor
  · intro rid r hop hget
    obtain ⟨hE, hminOld, hminM⟩ := hent rid r hop hget
    refine ⟨hE, ?_⟩
    intro m' hm' hrm'
    rcases List.mem_append.mp hm' with h | h
    · exact hminOld m' h hrm'
    · obtain rfl := List.mem_singleton.mp h
      exact hminM hrm' (List.not_mem_nil _)
  · intro m' hm' r hr hmode
    rcases List.mem_append.mp hm' with h | h
    · exact hcompOld m' h r hr hmode
    · obtain rfl := List.mem_singleton.mp h
      exact hcompM r hr (List.not_mem_nil _) hmode

theorem reach_outer (tt : Timetable) (hWF : tt.WF)
    (modes : List RouteType) :
    ∀ (todo processed : List MarkedStop) (map : JsMap Nat (Route × Nat)),
      (∀ m' ∈ processed ++ todo, m'.stopId ≠ 0) →
      (∀ m' ∈ processed ++ todo,
        ∀ r ∈ tt.routesPassingThrough m'.stopId,
        (r.stopIndices.get? m'.stopId).isSome = true) →
      ReachInv tt modes processed map →
      ReachInv tt modes (processed ++ todo)
        (todo.foldl
          (fun reachableRoutes originStop =>
            (tt.routesPassingThrough originStop.stopId).foldl
              (reachStep tt modes originStop) reachableRoutes)
          map) := by
  intro todo
  induction todo with
  | nil =>
    intro processed map h0 hcons hinv
    simpa using hinv
  | cons m todo' ih =>
    intro processed map h0 hcons hinv
    rw [List.foldl_cons]
    have hsub1 : ∀ m' ∈ processed ++ [m], m' ∈ processed ++ m :: todo' := by
      intro m' hm'
      rcases List.mem_append.mp hm' with h | h
      · exact List.mem_append_left _ h
      · obtain rfl := List.mem_singleton.mp h
        exact List.mem_append_right _ (List.mem_cons_self _ _)
    have hsub2 : ∀ m' ∈ (processed ++ [m]) ++ todo',
        m' ∈ processed ++ m :: todo' := by
      intro m' hm'
      rcases List.mem_append.mp hm' with h | h
      · exact hsub1 m' h
      · exact List.mem_append_right _ (List.mem_cons_of_mem _ h)
    have hstep : ReachInv tt modes (processed ++ [m])
        ((tt.routesPassingThrough m.stopId).foldl (reachStep tt modes m)
          map) :=
      ReachMid_finish tt modes processed m _
        (reach_inner tt hWF modes processed m
          (fun m' hm' => h0 m' (hsub1 m' hm'))
          (fun m' hm' => hcons m' (hsub1 m' hm'))
          (tt.routesPassingThrough m.stopId) map (fun r hr => hr)
          (ReachMid_start tt modes processed m map hinv))
    have hres := ih (processed ++ [m]) _
      (fun m' hm' => h0 m' (hsub2 m' hm'))
      (fun m' hm' => hcons m' (hsub2 m' hm'))
      hstep
    have hlist : (processed ++ [m]) ++ todo' = processed ++ m :: todo' := by
      simp
    rw [hlist] at hres
    exact hres

/-- Counterexample route for C7 as stated: stop id `0` at index 0, stop 5
at index 1 (one trip; times are immaterial). -/
def c7Route : Route := ⟨0, [100, 100, 110, 110], [0], [0, 5], 0⟩

def c7Timetable : Timetable :=
  ⟨[⟨[0], []⟩, ⟨[], []⟩, ⟨[], []⟩, ⟨[], []⟩, ⟨[], []⟩, ⟨[0], []⟩],
    [c7Route], [⟨.BUS⟩], []⟩

/-- Counterexample to C7 as stated: with marked stops `{0, 5}` (processed in
that order), `findReachableRoutes` ends up mapping the route to hop-on stop
5, although marked stop 0 lies strictly before it on the route — the JS
truthiness test `if (hopOnStop)` treats the recorded hop-on stop id `0` as
absent and unconditionally overwrites it. (The cited revision also returns
hop-on stop ids, not stop-route indices.) -/
theorem findReachableRoutes_earliest_hopOn_cex :
    (c7Timetable.findReachableRoutes [⟨0⟩, ⟨5⟩] []).get? 0 =
      some (c7Route, 5) ∧
    c7Route.isBefore 0 5 = true :=
  ⟨rfl, rfl⟩

/-- C7 (amended): provided no marked stop has id `0` (avoiding the hop-on
truthiness bug), marked stops lie on the stop sequences of the routes
passing through them, and route ids are consistent, `findReachableRoutes`
maps exactly the mode-allowed routes passing through at least one marked
stop (every mode when the mode set is empty), each to a hop-on **stop id**
(not a stop-route index as claimed) that is one of the marked stops on the
route and whose primary stop index (`Route.isBefore` compares the
constructor's last-occurrence indices) is minimal among the marked stops
the route passes through. -/
theorem findReachableRoutes_earliest_hopOn (tt : Timetable) (hWF : tt.WF)
    (marked : List MarkedStop) (modes : List RouteType)
    (h0 : ∀ m ∈ marked, m.stopId ≠ 0)
    (hcons : ∀ m ∈ marked, ∀ r ∈ tt.routesPassingThrough m.stopId,
      (r.stopIndices.get? m.stopId).isSome = true) :
    (∀ rid : Nat, ∀ r : Route, ∀ hop : Nat,
      (tt.findReachableRoutes marked modes).get? rid = some (r, hop) →
      (∃ m ∈ marked, m.stopId = hop ∧
        r ∈ tt.routesPassingThrough m.stopId) ∧
      ∀ m ∈ marked, r ∈ tt.routesPassingThrough m.stopId →
        r.isBefore m.stopId hop = false) ∧
    ∀ m ∈ marked, ∀ r ∈ tt.routesPassingThrough m.stopId,
      routeModeOk tt modes r = true →
      ∃ hop : Nat, (tt.findReachableRoutes marked modes).get? r.id =
        some (r, hop) := by
  have hinit : ReachInv tt modes [] JsMap.empty := by
    refine ⟨?_, ?_⟩
    · intro rid r hop h
      cases h
    · intro m hm
      exact absurd hm (List.not_mem_nil _)
  have hres := reach_outer tt hWF modes marked [] JsMap.empty
    (by simpa using h0) (by simpa using hcons) hinit
  rw [List.nil_append] at hres
  rw [Timetable.findReachableRoutes]
  obtain ⟨hent, hcomp⟩ := hres
  exact ⟨fun rid r hop h =>
    ⟨(hent rid r hop h).1.2.2.2, (hent rid r hop h).2⟩, hcomp⟩

/-- Witness route and timetable for the amended C7: marked stops 3 and 5
(both nonzero) on a single route visiting stop 3 then stop 5. -/
def c7WitRoute : Route := ⟨0, [100, 100, 110, 110], [0], [3, 5], 0⟩

def c7WitTimetable : Timetable :=
  ⟨[⟨[], []⟩, ⟨[], []⟩, ⟨[], []⟩, ⟨[0], []⟩, ⟨[], []⟩, ⟨[0], []⟩],
    [c7WitRoute], [⟨.BUS⟩], []⟩

theorem c7WitTimetable_WF : c7WitTimetable.WF := by
  intro i r h
  rcases i with _ | i
  · obtain rfl := Option.some.inj h
    rfl
  · cases h

theorem findReachableRoutes_earliest_hopOn_witness :
    (c7WitTimetable.findReachableRoutes [⟨5⟩, ⟨3⟩] []).get? 0 =
      some (c7WitRoute, 3) ∧
    c7WitRoute.isBefore 5 3 = false ∧
    c7WitRoute.isBefore 3 3 = false :=
  ⟨rfl,
    ((findReachableRoutes_earliest_hopOn c7WitTimetable c7WitTimetable_WF
        [⟨5⟩, ⟨3⟩] [] (by decide) (by decide)).1 0 c7WitRoute 3 rfl).2
      ⟨5⟩ (by decide) (by decide),
    ((findReachableRoutes_earliest_hopOn c7WitTimetable c7WitTimetable_WF
        [⟨5⟩, ⟨3⟩] [] (by decide) (by decide)).1 0 c7WitRoute 3 rfl).2
      ⟨3⟩ (by decide) (by decide)⟩

/-! In-seat continuations (C5). -/

/-- During a continuation re-scan the active trip stays the preset one and
every edge recorded into the current round's map is a vehicle edge boarding
at the hop-on index on the continuation's trip, carrying
`continuationOf = some c.previousEdge`. -/
theorem inseat_scan_invariant (route : Route) (hopOn round : Nat)
    (rs0 : RoutingState) (c : Router.TripContinuation) (bound : Time) :
    ∀ l : List Nat, ∀ st : Option TripBoarding × RoutingState × List Nat,
      st.1 = some ⟨route.id, hopOn, c.tripIndex⟩ →
      (∀ s : Nat, (st.2.1.graph.getD round JsMap.empty).get? s =
          (rs0.graph.getD round JsMap.empty).get? s ∨
        ∃ arr : Time, ∃ toIdx : Nat,
          (st.2.1.graph.getD round JsMap.empty).get? s =
            some (.vehicle (.mk arr hopOn toIdx route.id c.tripIndex
              (some c.previousEdge)))) →
      (l.foldl (Router.scanRouteStep route hopOn round (some c) bound)
          st).1 = some ⟨route.id, hopOn, c.tripIndex⟩ ∧
      ∀ s : Nat,
        ((l.foldl (Router.scanRouteStep route hopOn round (some c) bound)
            st).2.1.graph.getD round JsMap.empty).get? s =
          (rs0.graph.getD round JsMap.empty).get? s ∨
        ∃ arr : Time, ∃ toIdx : Nat,
          ((l.foldl (Router.scanRouteStep route hopOn round (some c) bound)
              st).2.1.graph.getD round JsMap.empty).get? s =
            some (.vehicle (.mk arr hopOn toIdx route.id c.tripIndex
              (some c.previousEdge))) := by
  intro l
  induction l with
  | nil =>
    intro st h1 h2
    exact ⟨h1, h2⟩
  | cons j l' ih =>
    intro st h1 h2
    rw [List.foldl_cons]
    apply ih
    · rw [scanRouteStep_atrip, Router.scanRouteBoard,
        if_pos (show (some c).isSome = true from rfl)]
      exact h1
    · intro s
      rw [scanRouteStep_rs]
      rcases scanRouteUpdate_cases route round (some c) bound st.1 st.2.1
          st.2.2 j with heq | ⟨a, ha, _, _, _, heq⟩
      · rw [heq]
        exact h2 s
      · rw [heq, recordEdge_row_self]
        by_cases hlen : round < st.2.1.graph.length
        · rw [if_pos hlen, JsMap.get?_set]
          by_cases hstop : route.stops.getD j 0 = s
          · rw [if_pos hstop]
            right
            have := Option.some.inj (ha.symm.trans h1)
            subst this
            exact ⟨route.arrivalAt j c.tripIndex, j, rfl⟩
          · rw [if_neg hstop]
            exact h2 s
        · rw [if_neg hlen]
          exact h2 s

/-- C5: in-seat continuations form a single leg and consume no round.
During a continuation re-scan the catch-an-earlier-trip step is disabled
(the active trip is returned untouched), every vehicle edge recorded in
the current round's map boards at the hop-on index on the continuation's
trip and carries `continuationOf = some c.previousEdge`, and on the
concrete continuation scenario (`c4Timetable`: route 0 stop 1 → stop 2
continuing in seat as route 1 stop 2 → stop 4) `bestRoute` merges the
chained vehicle edges of the two route ids into one single leg from stop 1
to stop 4, arriving at 535 with leg number 1 (one round for the whole
chain). -/
theorem inseat_single_leg :
    (∀ (route : Route) (round : Nat) (c : Router.TripContinuation)
        (atrip : Option TripBoarding) (rs : RoutingState) (j : Nat),
      Router.scanRouteBoard route round (some c) atrip rs j = atrip) ∧
    (∀ (route : Route) (hopOn round : Nat) (rs : RoutingState)
        (c : Router.TripContinuation) (s : Nat),
      ((Router.scanRoute route hopOn round rs (some c)).1.graph.getD round
          JsMap.empty).get? s =
        (rs.graph.getD round JsMap.empty).get? s ∨
      ∃ arr : Time, ∃ toIdx : Nat,
        ((Router.scanRoute route hopOn round rs (some c)).1.graph.getD
            round JsMap.empty).get? s =
          some (.vehicle (.mk arr hopOn toIdx route.id c.tripIndex
            (some c.previousEdge)))) ∧
    Result.bestRoute c4Timetable singletonStopsIndex c4Query
        (Router.route c4Timetable singletonStopsIndex c4Query 10) none 10 =
      .route [.vehicle ⟨1, 4, some ⟨.BUS⟩, .mins 480, .mins 535,
        .REGULAR, .REGULAR⟩] ∧
    (Router.route c4Timetable singletonStopsIndex c4Query
        10).earliestArrivals.get? 4 = some ⟨.mins 535, 1⟩ := by
  refine ⟨?_, ?_, rfl, rfl⟩
  · intro route round c atrip rs j
    rw [Router.scanRouteBoard, if_pos (show (some c).isSome = true from rfl)]
  · intro route hopOn round rs c s
    have h := inseat_scan_invariant route hopOn round rs c
      (Router.earliestArrivalAtAnyStop rs.earliestArrivals rs.destinations)
      (List.range' hopOn (route.nbStops - hopOn))
      (some ⟨route.id, hopOn, c.tripIndex⟩, rs, []) rfl
      (fun _ => Or.inl rfl)
    rw [Router.scanRoute]
    simp only [Option.map_some']
    exact h.2 s

/-! Monotone arrivals (C1) and reconstruction termination (C10): a master
invariant on routing states maintained by every write of the router. -/

theorem Time.isBefore_asymm {a b : Time} (h : a.isBefore b = true) :
    b.isBefore a = false := by
  cases a <;> cases b <;> simp_all [Time.isBefore] <;> omega

theorem get?_foldl_set_const {V : Type} (l : List Nat) (v : V) :
    ∀ (m0 : JsMap Nat V) (s : Nat),
      (l.foldl (fun m x => m.set x v) m0).get? s =
        if s ∈ l then some v else m0.get? s := by
  induction l with
  | nil =>
    intro m0 s
    simp
  | cons x xs ih =>
    intro m0 s
    rw [List.foldl_cons, ih]
    by_cases hmem : s ∈ xs
    · rw [if_pos hmem, if_pos (List.mem_cons_of_mem _ hmem)]
    · rw [if_neg hmem, JsMap.get?_set]
      by_cases hx : x = s
      · subst hx
        rw [if_pos rfl, if_pos (List.mem_cons_self _ _)]
      · rw [if_neg hx, if_neg ?hn]
        case hn =>
          intro h
          rcases List.mem_cons.mp h with h | h
          · exact hx h.symm
          · exact hmem h

theorem recordEdge_length (rs : RoutingState) (round stop : Nat)
    (edge : RoutingEdge) :
    (rs.recordEdge round stop edge).graph.length = rs.graph.length := by
  rw [RoutingState.recordEdge]
  simp

theorem earliestGetD_recordEdge_self (rs : RoutingState) (round stop : Nat)
    (edge : RoutingEdge) :
    earliestArrivalGetD (rs.recordEdge round stop edge).earliestArrivals
      stop = edge.arrival := by
  rw [earliestArrivalGetD, recordEdge_earliest_self]
  rfl

theorem earliestGetD_recordEdge_ne (rs : RoutingState) (round stop s : Nat)
    (edge : RoutingEdge) (h : s ≠ stop) :
    earliestArrivalGetD (rs.recordEdge round stop edge).earliestArrivals s =
      earliestArrivalGetD rs.earliestArrivals s := by
  rw [earliestArrivalGetD, recordEdge_earliest_ne _ _ _ _ _ h,
    earliestArrivalGetD]

/-- C1's master invariant: for every stop, an unreached stop has no edge in
any round and no logged write; a reached stop's earliest arrival is a lower
bound on every surviving edge and every logged write at the stop, and is
attained by the surviving edge of its own leg number; and the logged writes
at the stop are strictly decreasing in log order (each write strictly
improved on everything before it). -/
def MonoInv (rs : RoutingState) : Prop :=
  ∀ s : Nat,
    (rs.earliestArrivals.get? s = none →
      (∀ k : Nat, (rs.graph.getD k JsMap.empty).get? s = none) ∧
      ∀ w ∈ rs.writeLog, w.stop ≠ s) ∧
    (∀ a : Arrival, rs.earliestArrivals.get? s = some a →
      (∀ k : Nat, ∀ e, (rs.graph.getD k JsMap.empty).get? s = some e →
        e.arrival.isBefore a.arrival = false) ∧
      (∀ w ∈ rs.writeLog, w.stop = s →
        w.arrival.isBefore a.arrival = false) ∧
      ∃ e, (rs.graph.getD a.legNumber JsMap.empty).get? s = some e ∧
        e.arrival = a.arrival) ∧
    (rs.writeLog.filter (fun w => decide (w.stop = s))).Pairwise
      (fun w1 w2 => w2.arrival.isBefore w1.arrival = true)

/-- C10's transfer-chain invariant: every surviving transfer edge points
back to a stop that has a surviving edge in the same round, any transfer
edge there arrives strictly earlier, and the transfer's arrival is no
earlier than the predecessor stop's earliest arrival. -/
def WalkInv (rs : RoutingState) : Prop :=
  ∀ k s : Nat, ∀ te : TransferEdge,
    (rs.graph.getD k JsMap.empty).get? s = some (.transfer te) →
    (∃ e2, (rs.graph.getD k JsMap.empty).get? te.fromStop = some e2 ∧
      ∀ te2, e2 = RoutingEdge.transfer te2 →
        te2.arrival.isBefore te.arrival = true) ∧
    te.arrival.isBefore
      (earliestArrivalGetD rs.earliestArrivals te.fromStop) = false

def GlobalInv (rs : RoutingState) : Prop := MonoInv rs ∧ WalkInv rs

/-- A guarded write (strictly improving the written stop's earliest
arrival, into an existing round row) preserves the monotone-arrivals
invariant. -/
theorem MonoInv_recordEdge (rs : RoutingState) (round stop : Nat)
    (edge : RoutingEdge)
    (hguard : edge.arrival.isBefore
      (earliestArrivalGetD rs.earliestArrivals stop) = true)
    (hlen : round < rs.graph.length)
    (hinv : MonoInv rs) :
    MonoInv (rs.recordEdge round stop edge) := by
  intro s
  by_cases hs : s = stop
  · subst hs
    rcases hOld : rs.earliestArrivals.get? s with _ | aOld
    · obtain ⟨hrows, hwrites⟩ := (hinv s).1 hOld
      refine ⟨?_, ?_, ?_⟩
      · intro h
        rw [recordEdge_earliest_self] at h
        cases h
      · intro a ha
        rw [recordEdge_earliest_self] at ha
        obtain rfl : (⟨edge.arrival, round⟩ : Arrival) = a :=
          Option.some.inj ha
        refine ⟨?_, ?_, ?_⟩
        · intro k e hk
          by_cases hkr : k = round
          · subst hkr
            rw [recordEdge_row_self, if_pos hlen,
              JsMap.get?_set_self] at hk
            obtain rfl : edge = e := Option.some.inj hk
            exact Time.isBefore_irrefl _
          · rw [recordEdge_row_ne _ _ _ _ _ hkr, hrows k] at hk
            cases hk
        · intro w hw hws
          rcases List.mem_append.mp hw with h | h
          · exact absurd hws (hwrites w h)
          · obtain rfl := List.mem_singleton.mp h
            exact Time.isBefore_irrefl _
        · refine ⟨edge, ?_, rfl⟩
          rw [recordEdge_row_self, if_pos hlen, JsMap.get?_set_self]
      · have hfilold : rs.writeLog.filter
            (fun w => decide (w.stop = s)) = [] := by
          rw [List.filter_eq_nil]
          intro w hw
          simpa using hwrites w hw
        have hfil : (rs.recordEdge round s edge).writeLog.filter
            (fun w => decide (w.stop = s)) =
            [⟨round, s, edge.arrival⟩] := by
          rw [RoutingState.recordEdge]
          simp only
          rw [List.filter_append, hfilold]
          simp
        rw [hfil]
        exact List.pairwise_singleton _ _
    · have hg : edge.arrival.isBefore aOld.arrival = true := by
        rw [earliestArrivalGetD, hOld] at hguard
        simpa using hguard
      obtain ⟨hrows, hwrites, _⟩ := (hinv s).2.1 aOld hOld
      refine ⟨?_, ?_, ?_⟩
      · intro h
        rw [recordEdge_earliest_self] at h
        cases h
      · intro a ha
        rw [recordEdge_earliest_self] at ha
        obtain rfl : (⟨edge.arrival, round⟩ : Arrival) = a :=
          Option.some.inj ha
        refine ⟨?_, ?_, ?_⟩
        · intro k e hk
          by_cases hkr : k = round
          · subst hkr
            rw [recordEdge_row_self, if_pos hlen,
              JsMap.get?_set_self] at hk
            obtain rfl : edge = e := Option.some.inj hk
            exact Time.isBefore_irrefl _
          · rw [recordEdge_row_ne _ _ _ _ _ hkr] at hk
            exact Time.isBefore_asymm
              (Time.isBefore_of_isBefore_of_not hg (hrows k e hk))
        · intro w hw hws
          rcases List.mem_append.mp hw with h | h
          · exact Time.isBefore_asymm
              (Time.isBefore_of_isBefore_of_not hg (hwrites w h hws))
          · obtain rfl := List.mem_singleton.mp h
            exact Time.isBefore_irrefl _
        · refine ⟨edge, ?_, rfl⟩
          rw [recordEdge_row_self, if_pos hlen, JsMap.get?_set_self]
      · have hfil : (rs.recordEdge round s edge).writeLog.filter
            (fun w => decide (w.stop = s)) =
            rs.writeLog.filter (fun w => decide (w.stop = s)) ++
              [⟨round, s, edge.arrival⟩] := by
          rw [RoutingState.recordEdge]
          simp only
          rw [List.filter_append]
          simp
        rw [hfil, List.pairwise_append]
        refine ⟨(hinv s).2.2, List.pairwise_singleton _ _, ?_⟩
        intro w1 hw1 w2 hw2
        obtain rfl := List.mem_singleton.mp hw2
        obtain ⟨hw1log, hw1s⟩ := List.mem_filter.mp hw1
        exact Time.isBefore_of_isBefore_of_not hg
          (hwrites w1 hw1log (of_decide_eq_true hw1s))
  · have hea : (rs.recordEdge round stop edge).earliestArrivals.get? s =
        rs.earliestArrivals.get? s := recordEdge_earliest_ne _ _ _ _ _ hs
    have hrow : ∀ k : Nat, ((rs.recordEdge round stop edge).graph.getD k
        JsMap.empty).get? s = (rs.graph.getD k JsMap.empty).get? s := by
      intro k
      by_cases hkr : k = round
      · subst hkr
        rw [recordEdge_row_self]
        by_cases hl : k < rs.graph.length
        · rw [if_pos hl, JsMap.get?_set_ne _ _ (fun h => hs h.symm)]
        · rw [if_neg hl]
      · rw [recordEdge_row_ne _ _ _ _ _ hkr]
    have hfil : (rs.recordEdge round stop edge).writeLog.filter
        (fun w => decide (w.stop = s)) =
        rs.writeLog.filter (fun w => decide (w.stop = s)) := by
      rw [RoutingState.recordEdge]
      simp only
      rw [List.filter_append]
      have hdec : decide (stop = s) = false :=
        decide_eq_false (fun h => hs h.symm)
      simp [hdec]
    refine ⟨?_, ?_, ?_⟩
    · intro h
      rw [hea] at h
      obtain ⟨hrows, hwrites⟩ := (hinv s).1 h
      refine ⟨fun k => by rw [hrow k]; exact hrows k, ?_⟩
      intro w hw
      rcases List.mem_append.mp hw with h2 | h2
      · exact hwrites w h2
      · obtain rfl := List.mem_singleton.mp h2
        exact fun hss => hs hss.symm
    · intro a ha
      rw [hea] at ha
      obtain ⟨hrows, hwrites, e0, he0, hee⟩ := (hinv s).2.1 a ha
      refine ⟨?_, ?_, ⟨e0, ?_, hee⟩⟩
      · intro k e hk
        rw [hrow k] at hk
        exact hrows k e hk
      · intro w hw hws
        rcases List.mem_append.mp hw with h2 | h2
        · exact hwrites w h2 hws
        · obtain rfl := List.mem_singleton.mp h2
          exact absurd hws.symm hs
      · rw [hrow a.legNumber]
        exact he0
    · rw [hfil]
      exact (hinv s).2.2

/-- A guarded write preserves the transfer-chain invariant, provided that a
written transfer edge does not come from the written stop itself, its
predecessor stop has a (non-transfer) surviving edge in the round, and its
arrival is no earlier than the predecessor's earliest arrival. -/
theorem WalkInv_recordEdge (rs : RoutingState) (round stop : Nat)
    (edge : RoutingEdge)
    (hguard : edge.arrival.isBefore
      (earliestArrivalGetD rs.earliestArrivals stop) = true)
    (hlen : round < rs.graph.length)
    (hwalk : WalkInv rs)
    (hedge : ∀ te : TransferEdge, edge = .transfer te →
      te.fromStop ≠ stop ∧
      (∃ e2, (rs.graph.getD round JsMap.empty).get? te.fromStop = some e2 ∧
        ∀ te2, e2 ≠ RoutingEdge.transfer te2) ∧
      te.arrival.isBefore
        (earliestArrivalGetD rs.earliestArrivals te.fromStop) = false) :
    WalkInv (rs.recordEdge round stop edge) := by
  intro k s te hte
  by_cases hks : k = round ∧ s = stop
  · obtain ⟨rfl, rfl⟩ := hks
    rw [recordEdge_row_self, if_pos hlen, JsMap.get?_set_self] at hte
    obtain rfl : edge = .transfer te := Option.some.inj hte
    obtain ⟨hne, ⟨e2, he2, hnt⟩, hb⟩ := hedge te rfl
    constructor
    · refine ⟨e2, ?_, ?_⟩
      · rw [recordEdge_row_self, if_pos hlen,
          JsMap.get?_set_ne _ _ (fun h => hne h.symm)]
        exact he2
      · intro te2 h
        exact absurd h (hnt te2)
    · rw [earliestGetD_recordEdge_ne _ _ _ _ _ hne]
      exact hb
  · have hte_old : (rs.graph.getD k JsMap.empty).get? s =
        some (.transfer te) := by
      by_cases hkr : k = round
      · subst hkr
        have hss : s ≠ stop := fun h => hks ⟨rfl, h⟩
        rw [recordEdge_row_self, if_pos hlen,
          JsMap.get?_set_ne _ _ (fun h => hss h.symm)] at hte
        exact hte
      · rw [recordEdge_row_ne _ _ _ _ _ hkr] at hte
        exact hte
    obtain ⟨⟨e2, he2, hcl⟩, hb⟩ := hwalk k s te hte_old
    by_cases hover : k = round ∧ te.fromStop = stop
    · obtain ⟨rfl, hf1⟩ := hover
      have hlt : edge.arrival.isBefore te.arrival = true := by
        rw [hf1] at hb
        exact Time.isBefore_of_isBefore_of_not hguard hb
      constructor
      · refine ⟨edge, ?_, ?_⟩
        · rw [hf1, recordEdge_row_self, if_pos hlen, JsMap.get?_set_self]
        · intro te2 h
          rw [h] at hlt
          exact hlt
      · rw [hf1, earliestGetD_recordEdge_self]
        exact Time.isBefore_asymm hlt
    · have he2' : ((rs.recordEdge round stop edge).graph.getD k
          JsMap.empty).get? te.fromStop = some e2 := by
        by_cases hkr : k = round
        · subst hkr
          have hfs : te.fromStop ≠ stop := fun h => hover ⟨rfl, h⟩
          rw [recordEdge_row_self, if_pos hlen,
            JsMap.get?_set_ne _ _ (fun h => hfs h.symm)]
          exact he2
        · rw [recordEdge_row_ne _ _ _ _ _ hkr]
          exact he2
      refine ⟨⟨e2, he2', hcl⟩, ?_⟩
      by_cases hfs2 : te.fromStop = stop
      · have hlt : edge.arrival.isBefore te.arrival = true := by
          rw [hfs2] at hb
          exact Time.isBefore_of_isBefore_of_not hguard hb
        rw [hfs2, earliestGetD_recordEdge_self]
        exact Time.isBefore_asymm hlt
      · rw [earliestGetD_recordEdge_ne _ _ _ _ _ hfs2]
        exact hb

/-- The combined invariant is preserved by every guarded write. -/
theorem GlobalInv_recordEdge (rs : RoutingState) (round stop : Nat)
    (edge : RoutingEdge)
    (hguard : edge.arrival.isBefore
      (earliestArrivalGetD rs.earliestArrivals stop) = true)
    (hlen : round < rs.graph.length)
    (hinv : GlobalInv rs)
    (hedge : ∀ te : TransferEdge, edge = .transfer te →
      te.fromStop ≠ stop ∧
      (∃ e2, (rs.graph.getD round JsMap.empty).get? te.fromStop = some e2 ∧
        ∀ te2, e2 ≠ RoutingEdge.transfer te2) ∧
      te.arrival.isBefore
        (earliestArrivalGetD rs.earliestArrivals te.fromStop) = false) :
    GlobalInv (rs.recordEdge round stop edge) :=
  ⟨MonoInv_recordEdge rs round stop edge hguard hlen hinv.1,
    WalkInv_recordEdge rs round stop edge hguard hlen hinv.2 hedge⟩

theorem list_getD_of_le {α : Type} (l : List α) (k : Nat) (d : α)
    (h : l.length ≤ k) : l.getD k d = d := by
  rw [List.getD_eq_getElem?_getD, List.getElem?_eq_none h]
  rfl

/-- Pushing a fresh empty round row preserves the combined invariant. -/
theorem GlobalInv_pushRow (rs : RoutingState) (hinv : GlobalInv rs) :
    GlobalInv { rs with graph := rs.graph ++ [JsMap.empty] } := by
  have hrow : ∀ k s : Nat,
      (({ rs with graph := rs.graph ++ [JsMap.empty] } :
        RoutingState).graph.getD k JsMap.empty).get? s =
      (rs.graph.getD k JsMap.empty).get? s := by
    intro k s
    show ((rs.graph ++ [JsMap.empty]).getD k JsMap.empty).get? s = _
    rw [list_getD_append_last]
    by_cases h1 : k < rs.graph.length
    · rw [if_pos h1]
    · rw [if_neg h1]
      by_cases h2 : k = rs.graph.length
      · rw [if_pos h2, list_getD_of_le _ _ _ (by omega)]
      · rw [if_neg h2, list_getD_of_le _ _ _ (by omega)]
  obtain ⟨hmono, hwalk⟩ := hinv
  constructor
  · intro s
    refine ⟨?_, ?_, (hmono s).2.2⟩
    · intro h
      obtain ⟨hrows, hwrites⟩ := (hmono s).1 h
      exact ⟨fun k => by rw [hrow k s]; exact hrows k, hwrites⟩
    · intro a ha
      obtain ⟨hrows, hwrites, e0, he0, hee⟩ := (hmono s).2.1 a ha
      refine ⟨?_, hwrites, e0, ?_, hee⟩
      · intro k e hk
        rw [hrow k s] at hk
        exact hrows k e hk
      · rw [hrow a.legNumber s]
        exact he0
  · intro k s te hte
    rw [hrow k s] at hte
    obtain ⟨⟨e2, he2, hcl⟩, hb⟩ := hwalk k s te hte
    refine ⟨⟨e2, ?_, hcl⟩, hb⟩
    rw [hrow k te.fromStop]
    exact he2

/-- The route-scanning fold preserves the combined invariant: every write
it makes is a vehicle edge guarded by strict improvement of the written
stop's earliest arrival. -/
theorem scanRouteFold_GlobalInv (route : Route) (hopOn round : Nat)
    (cont : Option Router.TripContinuation) (bound : Time) (L : Nat)
    (hrl : round < L) :
    ∀ (l : List Nat) (st : Option TripBoarding × RoutingState × List Nat),
      GlobalInv st.2.1 → st.2.1.graph.length = L →
      GlobalInv (l.foldl
        (Router.scanRouteStep route hopOn round cont bound) st).2.1 ∧
      (l.foldl (Router.scanRouteStep route hopOn round cont bound)
        st).2.1.graph.length = L := by
  intro l
  induction l with
  | nil =>
    intro st h hL
    exact ⟨h, hL⟩
  | cons j l' ih =>
    intro st h hL
    rw [List.foldl_cons]
    apply ih
    · rw [scanRouteStep_rs]
      rcases scanRouteUpdate_cases route round cont bound st.1 st.2.1 st.2.2
          j with heq | ⟨a, _, _, hloc, _, heq⟩
      · rw [heq]
        exact h
      · rw [heq]
        exact GlobalInv_recordEdge _ _ _ _ hloc (by omega) h
          (fun te hte => by cases hte)
    · rw [scanRouteStep_rs]
      rcases scanRouteUpdate_cases route round cont bound st.1 st.2.1 st.2.2
          j with heq | ⟨a, _, _, _, _, heq⟩
      · rw [heq]
        exact hL
      · rw [heq, recordEdge_length]
        exact hL

/-- `Router.scanRoute` preserves the combined invariant and the graph
length (it writes only into the existing current-round row). -/
theorem scanRoute_GlobalInv (route : Route) (hopOn round : Nat)
    (rs : RoutingState) (cont : Option Router.TripContinuation)
    (hinv : GlobalInv rs) (hrl : round < rs.graph.length) :
    GlobalInv (Router.scanRoute route hopOn round rs cont).1 ∧
    (Router.scanRoute route hopOn round rs cont).1.graph.length =
      rs.graph.length := by
  rw [Router.scanRoute]
  simp only
  exact scanRouteFold_GlobalInv route hopOn round cont _ rs.graph.length hrl
    _ _ hinv rfl

/-- The per-stop transfer-relaxation fold preserves the combined invariant:
every transfer it writes starts from the relaxing stop, whose non-transfer
current-round edge survives the whole fold (a transfer never improves its
own source stop). -/
theorem relaxTransfersFold_GlobalInv (tt : Timetable)
    (query : Router.Query) (round stop : Nat) (cur : RoutingEdge) (L : Nat)
    (hcur_nt : ∀ te : TransferEdge, cur ≠ .transfer te) (hrl : round < L) :
    ∀ (trs : List Transfer) (st : RoutingState × List Nat),
      GlobalInv st.1 → st.1.graph.length = L →
      (st.1.graph.getD round JsMap.empty).get? stop = some cur →
      GlobalInv (trs.foldl (Router.relaxTransfer query round stop cur)
        st).1 ∧
      (trs.foldl (Router.relaxTransfer query round stop cur)
        st).1.graph.length = L ∧
      ((trs.foldl (Router.relaxTransfer query round stop cur)
        st).1.graph.getD round JsMap.empty).get? stop = some cur := by
  intro trs
  induction trs with
  | nil =>
    intro st h hL hc
    exact ⟨h, hL, hc⟩
  | cons tr trs' ih =>
    intro st h hL hc
    rw [List.foldl_cons]
    rcases relaxTransfer_cases query round stop cur st tr with
      heq | ⟨hg, heq⟩
    · rw [heq]
      exact ih st h hL hc
    · -- the current stop is reached, with earliest ≤ cur.arrival
      rcases hOldS : st.1.earliestArrivals.get? stop with _ | a
      · exfalso
        obtain ⟨hrows, _⟩ := (h.1 stop).1 hOldS
        rw [hrows round] at hc
        cases hc
      · have hlb : cur.arrival.isBefore a.arrival = false :=
          ((h.1 stop).2.1 a hOldS).1 round cur hc
        have hge : (cur.arrival.plus
            (Router.transferTimeOf query.options tr)).isBefore
            a.arrival = false :=
          Time.not_isBefore_trans (Time.not_isBefore_plus _ _) hlb
        have hgearl : (cur.arrival.plus
            (Router.transferTimeOf query.options tr)).isBefore
            (earliestArrivalGetD st.1.earliestArrivals stop) = false := by
          rw [earliestArrivalGetD, hOldS]
          simpa using hge
        have hne_stop : stop ≠ tr.destination := by
          intro hd
          rw [← hd] at hg
          rw [hg] at hgearl
          cases hgearl
        have hstep := GlobalInv_recordEdge st.1 round tr.destination
          (.transfer ⟨cur.arrival.plus
            (Router.transferTimeOf query.options tr), stop,
            tr.destination, tr.type, tr.minTransferTime⟩)
          hg (by omega) h ?hedge
        case hedge =>
          intro te hte
          obtain rfl : (⟨cur.arrival.plus
              (Router.transferTimeOf query.options tr), stop,
              tr.destination, tr.type, tr.minTransferTime⟩ :
              TransferEdge) = te := by
            cases hte
            rfl
          exact ⟨hne_stop, ⟨cur, hc, fun te2 => hcur_nt te2⟩, hgearl⟩
        rw [heq]
        apply ih
        · exact hstep
        · rw [recordEdge_length]
          exact hL
        · rw [recordEdge_row_self, if_pos (by omega),
            JsMap.get?_set_ne _ _ (fun hd => hne_stop hd.symm)]
          exact hc

theorem relaxStopTransfers_GlobalInv (tt : Timetable)
    (query : Router.Query) (round : Nat) (st : RoutingState × List Nat)
    (stop : Nat) (L : Nat) (hinv : GlobalInv st.1)
    (hL : st.1.graph.length = L) (hrl : round < L) :
    GlobalInv (Router.relaxStopTransfers tt query round st stop).1 ∧
    (Router.relaxStopTransfers tt query round st stop).1.graph.length =
      L := by
  rw [Router.relaxStopTransfers]
  split
  · exact ⟨hinv, hL⟩
  · exact ⟨hinv, hL⟩
  · rename_i cur hne heq
    have hres := relaxTransfersFold_GlobalInv tt query round stop cur L
      (fun te h2 => hne te (by rw [h2])) hrl (tt.getTransfers stop) st hinv
      hL heq
    exact ⟨hres.1, hres.2.1⟩

theorem considerTransfers_GlobalInv (tt : Timetable)
    (query : Router.Query) (round : Nat) (marked : List Nat)
    (rs0 : RoutingState) (L : Nat) (hinv : GlobalInv rs0)
    (hL : rs0.graph.length = L) (hrl : round < L) :
    GlobalInv (Router.considerTransfers tt query round marked rs0).1 ∧
    (Router.considerTransfers tt query round marked
      rs0).1.graph.length = L := by
  rw [Router.considerTransfers]
  refine foldl_invariant _
    (fun st : RoutingState × List Nat =>
      GlobalInv st.1 ∧ st.1.graph.length = L) _ _ ⟨hinv, hL⟩ ?_
  intro b a _ hb
  exact relaxStopTransfers_GlobalInv tt query round b a L hb.1 hb.2 hrl

theorem continuationLoop_GlobalInv (tt : Timetable) (round : Nat) (L : Nat)
    (hrl : round < L) :
    ∀ (fuel : Nat) (conts : List Router.TripContinuation)
      (rs : RoutingState) (marked : List Nat),
      GlobalInv rs → rs.graph.length = L →
      GlobalInv (Router.continuationLoop tt round fuel conts rs
        marked).1 ∧
      (Router.continuationLoop tt round fuel conts rs
        marked).1.graph.length = L := by
  intro fuel
  induction fuel with
  | zero =>
    intro conts rs marked h hL
    exact ⟨h, hL⟩
  | succ n ih =>
    intro conts rs marked h hL
    rw [Router.continuationLoop]
    split
    · exact ⟨h, hL⟩
    · simp only
      apply ih
      · refine (foldl_invariant _
          (fun st : RoutingState × List Nat =>
            GlobalInv st.1 ∧ st.1.graph.length = L) _ _ ⟨h, hL⟩ ?_).1
        intro b c hc hb
        rcases tt.getRoute c.routeId with _ | r
        · exact hb
        · have hs := scanRoute_GlobalInv r c.hopOnStopIndex round b.1
            (some c) hb.1 (by omega)
          exact ⟨hs.1, by rw [hs.2]; exact hb.2⟩
      · refine (foldl_invariant _
          (fun st : RoutingState × List Nat =>
            GlobalInv st.1 ∧ st.1.graph.length = L) _ _ ⟨h, hL⟩ ?_).2
        intro b c hc hb
        rcases tt.getRoute c.routeId with _ | r
        · exact hb
        · have hs := scanRoute_GlobalInv r c.hopOnStopIndex round b.1
            (some c) hb.1 (by omega)
          exact ⟨hs.1, by rw [hs.2]; exact hb.2⟩

theorem runRound_GlobalInv (tt : Timetable) (query : Router.Query)
    (round contFuel : Nat) (marked : List Nat) (rs : RoutingState)
    (hinv : GlobalInv rs) (hrl : round < rs.graph.length + 1) :
    GlobalInv (Router.runRound tt query round contFuel marked rs).1 ∧
    (Router.runRound tt query round contFuel marked
      rs).1.graph.length = rs.graph.length + 1 := by
  rw [Router.runRound]
  simp only
  have h1 : GlobalInv { rs with graph := rs.graph ++ [JsMap.empty] } :=
    GlobalInv_pushRow rs hinv
  have hL1 : ({ rs with graph := rs.graph ++ [JsMap.empty] } :
      RoutingState).graph.length = rs.graph.length + 1 := by
    simp
  have hstepfn : ∀ (b : RoutingState × List Nat) (rh : Route × Nat),
      rh ∈ Router.findReachableRoutesIdx tt marked
        query.options.transportModes →
      (GlobalInv b.1 ∧ b.1.graph.length = rs.graph.length + 1) →
      GlobalInv (Router.scanRoute rh.1 rh.2 round b.1 none).1 ∧
        (Router.scanRoute rh.1 rh.2 round b.1 none).1.graph.length =
          rs.graph.length + 1 := by
    intro b rh hrh hb
    have hs := scanRoute_GlobalInv rh.1 rh.2 round b.1 none hb.1 (by omega)
    exact ⟨hs.1, by rw [hs.2]; exact hb.2⟩
  have h2 := foldl_invariant
    (fun (st : RoutingState × List Nat) (rh : Route × Nat) =>
      ((Router.scanRoute rh.1 rh.2 round st.1 none).1,
        jsUnion st.2 (Router.scanRoute rh.1 rh.2 round st.1 none).2))
    (fun st : RoutingState × List Nat =>
      GlobalInv st.1 ∧ st.1.graph.length = rs.graph.length + 1)
    (Router.findReachableRoutesIdx tt marked query.options.transportModes)
    ({ rs with graph := rs.graph ++ [JsMap.empty] }, []) ⟨h1, hL1⟩
    (fun b rh hrh hb => hstepfn b rh hrh hb)
  obtain ⟨h2a, h2b⟩ := h2
  have hcc : ∀ (rs2 : RoutingState) (marked2 : List Nat)
      (conts : List Router.TripContinuation), GlobalInv rs2 →
      rs2.graph.length = rs.graph.length + 1 →
      GlobalInv (Router.considerTransfers tt query round
        (Router.continuationLoop tt round contFuel conts rs2 marked2).2
        (Router.continuationLoop tt round contFuel conts rs2
          marked2).1).1 ∧
      (Router.considerTransfers tt query round
        (Router.continuationLoop tt round contFuel conts rs2 marked2).2
        (Router.continuationLoop tt round contFuel conts rs2
          marked2).1).1.graph.length = rs.graph.length + 1 := by
    intro rs2 marked2 conts hg hLen
    have h3 := continuationLoop_GlobalInv tt round (rs.graph.length + 1)
      (by omega) contFuel conts rs2 marked2 hg hLen
    exact considerTransfers_GlobalInv tt query round _ _
      (rs.graph.length + 1) h3.1 h3.2 (by omega)
  exact hcc _ _ _ h2a h2b

theorem runRounds_GlobalInv (tt : Timetable) (query : Router.Query) :
    ∀ (roundsLeft round contFuel : Nat) (marked : List Nat)
      (rs : RoutingState), GlobalInv rs → rs.graph.length = round →
      GlobalInv (Router.runRounds tt query roundsLeft round contFuel
        marked rs) := by
  intro roundsLeft
  induction roundsLeft with
  | zero =>
    intro round contFuel marked rs h _
    exact h
  | succ n ih =>
    intro round contFuel marked rs h hL
    rw [Router.runRounds]
    split
    · exact (runRound_GlobalInv tt query round contFuel marked rs h
        (by omega)).1
    · exact ih (round + 1) contFuel _ _
        (runRound_GlobalInv tt query round contFuel marked rs h
          (by omega)).1
        (by rw [(runRound_GlobalInv tt query round contFuel marked rs h
          (by omega)).2, hL])

theorem initRoutingState_GlobalInv (stopsIndex : Router.StopsIndexFn)
    (query : Router.Query) :
    GlobalInv (Router.initRoutingState stopsIndex query) ∧
    (Router.initRoutingState stopsIndex query).graph.length = 1 := by
  have hea : ∀ s : Nat,
      (Router.initRoutingState stopsIndex query).earliestArrivals.get? s =
      if s ∈ stopsIndex query.fromStop
      then some ⟨query.departureTime, 0⟩ else none := by
    intro s
    rw [Router.initRoutingState]
    simp only
    rw [get?_foldl_set_const]
    by_cases h : s ∈ stopsIndex query.fromStop
    · rw [if_pos h, if_pos h]
    · rw [if_neg h, if_neg h, JsMap.get?_empty]
  have hrow0 : ∀ s : Nat,
      ((Router.initRoutingState stopsIndex query).graph.getD 0
        JsMap.empty).get? s =
      if s ∈ stopsIndex query.fromStop
      then some (RoutingEdge.origin query.departureTime) else none := by
    intro s
    rw [Router.initRoutingState]
    simp only [List.getD_cons_zero]
    rw [get?_foldl_set_const]
    by_cases h : s ∈ stopsIndex query.fromStop
    · rw [if_pos h, if_pos h]
    · rw [if_neg h, if_neg h, JsMap.get?_empty]
  have hrowk : ∀ k : Nat, 0 < k →
      (Router.initRoutingState stopsIndex query).graph.getD k
        JsMap.empty = JsMap.empty := by
    intro k hk
    rw [Router.initRoutingState]
    simp only
    apply list_getD_of_le
    simp only [List.length_singleton]
    omega
  have hlog : (Router.initRoutingState stopsIndex query).writeLog = [] :=
    rfl
  refine ⟨⟨?_, ?_⟩, rfl⟩
  · intro s
    by_cases hs : s ∈ stopsIndex query.fromStop
    · refine ⟨?_, ?_, ?_⟩
      · intro h
        rw [hea s, if_pos hs] at h
        cases h
      · intro a ha
        rw [hea s, if_pos hs] at ha
        obtain rfl : (⟨query.departureTime, 0⟩ : Arrival) = a :=
          Option.some.inj ha
        refine ⟨?_, ?_, ?_⟩
        · intro k e hk
          cases k with
          | zero =>
            rw [hrow0 s, if_pos hs] at hk
            obtain rfl : RoutingEdge.origin query.departureTime = e :=
              Option.some.inj hk
            exact Time.isBefore_irrefl _
          | succ n =>
            rw [hrowk (n + 1) (by omega)] at hk
            cases hk
        · intro w hw
          rw [hlog] at hw
          cases hw
        · refine ⟨.origin query.departureTime, ?_, rfl⟩
          rw [hrow0 s, if_pos hs]
      · rw [hlog]
        simp
    · refine ⟨?_, ?_, ?_⟩
      · intro _
        refine ⟨?_, ?_⟩
        · intro k
          cases k with
          | zero =>
            rw [hrow0 s, if_neg hs]
          | succ n =>
            rw [hrowk (n + 1) (by omega)]
            rfl
        · intro w hw
          rw [hlog] at hw
          cases hw
      · intro a ha
        rw [hea s, if_neg hs] at ha
        cases ha
      · rw [hlog]
        simp
  · intro k s te hte
    cases k with
    | zero =>
      rw [hrow0 s] at hte
      by_cases hs : s ∈ stopsIndex query.fromStop
      · rw [if_pos hs] at hte
        have h := Option.some.inj hte
        cases h
      · rw [if_neg hs] at hte
        cases hte
    | succ n =>
      rw [hrowk (n + 1) (by omega)] at hte
      cases hte

/-- The full run of `Router.route` satisfies the combined monotone-arrival
and transfer-chain invariant. -/
theorem route_GlobalInv (tt : Timetable)
    (stopsIndex : Router.StopsIndexFn) (query : Router.Query)
    (contFuel : Nat) :
    GlobalInv (Router.route tt stopsIndex query contFuel) := by
  rw [Router.route]
  obtain ⟨hinit, hlen⟩ := initRoutingState_GlobalInv stopsIndex query
  have hct := considerTransfers_GlobalInv tt query 0
    ((Router.initRoutingState stopsIndex query).graph.getD 0
      JsMap.empty).keys
    (Router.initRoutingState stopsIndex query) 1 hinit hlen (by omega)
  exact runRounds_GlobalInv tt query (query.options.maxTransfers + 1) 1
    contFuel _ _ hct.1 hct.2

/-- C1: local pruning keeps per-stop arrivals monotone. On the state
`Router.route` returns: for every stop, the log of edge writes at that stop
is strictly decreasing (every edge was recorded only when its arrival was
strictly before everything written before — i.e. before the then-current
earliest arrival — and the paired `earliestArrivals` update happened in the
same `recordEdge` step); the final earliest arrival at a reached stop is a
lower bound on the surviving edge of every round and is attained by the
surviving edge at its own leg number, hence equals the minimum arrival over
all rounds' surviving edges; an unreached stop has no edge and no write. -/
theorem local_pruning_monotone (tt : Timetable)
    (stopsIndex : Router.StopsIndexFn) (query : Router.Query)
    (contFuel : Nat) :
    MonoInv (Router.route tt stopsIndex query contFuel) :=
  (route_GlobalInv tt stopsIndex query contFuel).1

/-! Unfolding equations of the backward walk `bestRouteGo`, one per edge
shape, used by the fuel-monotonicity and termination proofs (C10). -/

theorem bestRouteGo_round0 (tt : Timetable) (rs : RoutingState) (N s : Nat)
    (legs : List Leg) :
    Result.bestRouteGo tt rs (N + 1) s 0 legs = .route legs := by
  rw [Result.bestRouteGo, if_pos rfl]

theorem bestRouteGo_edge_none (tt : Timetable) (rs : RoutingState)
    (N s round : Nat) (legs : List Leg) (hr : round ≠ 0)
    (hedge : (rs.graph.getD round JsMap.empty).get? s = none) :
    Result.bestRouteGo tt rs (N + 1) s round legs = .error := by
  rw [Result.bestRouteGo, if_neg hr, hedge]

theorem bestRouteGo_origin (tt : Timetable) (rs : RoutingState)
    (N s round : Nat) (legs : List Leg) (a : Time) (hr : round ≠ 0)
    (hedge : (rs.graph.getD round JsMap.empty).get? s =
      some (.origin a)) :
    Result.bestRouteGo tt rs (N + 1) s round legs = .route legs := by
  rw [Result.bestRouteGo, if_neg hr, hedge]

theorem bestRouteGo_vehicle_err (tt : Timetable) (rs : RoutingState)
    (N s round : Nat) (legs : List Leg) (ve : VehicleEdge) (hr : round ≠ 0)
    (hedge : (rs.graph.getD round JsMap.empty).get? s =
      some (.vehicle ve))
    (hbl : Result.buildVehicleLeg tt (Result.chainedEdges ve) = none) :
    Result.bestRouteGo tt rs (N + 1) s round legs = .error := by
  rw [Result.bestRouteGo, if_neg hr, hedge]
  simp [hbl]

theorem bestRouteGo_vehicle (tt : Timetable) (rs : RoutingState)
    (N s round : Nat) (legs : List Leg) (ve : VehicleEdge)
    (leg : VehicleLeg) (hr : round ≠ 0)
    (hedge : (rs.graph.getD round JsMap.empty).get? s =
      some (.vehicle ve))
    (hbl : Result.buildVehicleLeg tt (Result.chainedEdges ve) = some leg) :
    Result.bestRouteGo tt rs (N + 1) s round legs =
      Result.bestRouteGo tt rs N leg.fromStop (round - 1)
        (.vehicle leg :: legs) := by
  rw [Result.bestRouteGo, if_neg hr, hedge]
  simp [hbl]

theorem bestRouteGo_transfer (tt : Timetable) (rs : RoutingState)
    (N s round : Nat) (legs : List Leg) (te : TransferEdge)
    (hr : round ≠ 0)
    (hedge : (rs.graph.getD round JsMap.empty).get? s =
      some (.transfer te)) :
    Result.bestRouteGo tt rs (N + 1) s round legs =
      Result.bestRouteGo tt rs N te.fromStop round
        (.transfer ⟨te.fromStop, te.toStop, te.minTransferTime, te.type⟩
          :: legs) := by
  rw [Result.bestRouteGo, if_neg hr, hedge]

/-- Fuel monotonicity of the backward walk: once the walk finishes within
some fuel, extra fuel does not change the result. -/
theorem bestRouteGo_mono (tt : Timetable) (rs : RoutingState) :
    ∀ (N s round : Nat) (legs : List Leg),
      Result.bestRouteGo tt rs N s round legs ≠ .outOfFuel →
      ∀ k : Nat, Result.bestRouteGo tt rs (N + k) s round legs =
        Result.bestRouteGo tt rs N s round legs := by
  intro N
  induction N with
  | zero =>
    intro s round legs h k
    exact absurd rfl h
  | succ n ih =>
    intro s round legs h k
    have hadd : n + 1 + k = n + k + 1 := by omega
    by_cases hr : round = 0
    · subst hr
      rw [hadd, bestRouteGo_round0, bestRouteGo_round0]
    · rcases hedge : (rs.graph.getD round JsMap.empty).get? s with
        _ | e
      · rw [hadd, bestRouteGo_edge_none tt rs (n + k) s round legs hr hedge,
          bestRouteGo_edge_none tt rs n s round legs hr hedge]
      · cases e with
        | origin a =>
          rw [hadd, bestRouteGo_origin tt rs (n + k) s round legs a hr
            hedge, bestRouteGo_origin tt rs n s round legs a hr hedge]
        | vehicle ve =>
          rcases hbl : Result.buildVehicleLeg tt (Result.chainedEdges ve)
            with _ | leg
          · rw [hadd, bestRouteGo_vehicle_err tt rs (n + k) s round legs ve
              hr hedge hbl,
              bestRouteGo_vehicle_err tt rs n s round legs ve hr hedge hbl]
          · rw [hadd, bestRouteGo_vehicle tt rs (n + k) s round legs ve leg
              hr hedge hbl,
              bestRouteGo_vehicle tt rs n s round legs ve leg hr hedge hbl]
            rw [bestRouteGo_vehicle tt rs n s round legs ve leg hr hedge
              hbl] at h
            exact ih leg.fromStop (round - 1) (.vehicle leg :: legs) h k
        | transfer te =>
          rw [hadd, bestRouteGo_transfer tt rs (n + k) s round legs te hr
            hedge, bestRouteGo_transfer tt rs n s round legs te hr hedge]
          rw [bestRouteGo_transfer tt rs n s round legs te hr hedge] at h
          exact ih te.fromStop round _ h k

/-- Under the transfer-chain invariant the backward walk terminates from
every start: vehicle edges decrement the round, and along consecutive
transfer edges within a round the arrival strictly decreases, so only
finitely many transfer steps can occur before a vehicle or origin edge. -/
theorem bestRouteGo_terminates (tt : Timetable) (rs : RoutingState)
    (hw : WalkInv rs) :
    ∀ round s : Nat, ∀ legs : List Leg, ∃ N : Nat,
      Result.bestRouteGo tt rs N s round legs ≠ .outOfFuel := by
  intro round
  induction round using Nat.strong_induction_on with
  | _ round ihr =>
  by_cases hr : round = 0
  · subst hr
    intro s legs
    refine ⟨1, ?_⟩
    rw [show (1 : Nat) = 0 + 1 from rfl, bestRouteGo_round0]
    simp
  · have hnt : ∀ s : Nat, ∀ legs : List Leg, ∀ e : RoutingEdge,
        (rs.graph.getD round JsMap.empty).get? s = some e →
        (∀ te : TransferEdge, e ≠ .transfer te) →
        ∃ N : Nat, Result.bestRouteGo tt rs N s round legs ≠
          .outOfFuel := by
      intro s legs e hedge hne
      cases e with
      | origin a =>
        refine ⟨1, ?_⟩
        rw [show (1 : Nat) = 0 + 1 from rfl,
          bestRouteGo_origin tt rs 0 s round legs a hr hedge]
        simp
      | vehicle ve =>
        rcases hbl : Result.buildVehicleLeg tt (Result.chainedEdges ve)
          with _ | leg
        · refine ⟨1, ?_⟩
          rw [show (1 : Nat) = 0 + 1 from rfl,
            bestRouteGo_vehicle_err tt rs 0 s round legs ve hr hedge hbl]
          simp
        · obtain ⟨N2, hN2⟩ := ihr (round - 1) (by omega) leg.fromStop
            (.vehicle leg :: legs)
          refine ⟨N2 + 1, ?_⟩
          rw [bestRouteGo_vehicle tt rs N2 s round legs ve leg hr hedge
            hbl]
          exact hN2
      | transfer te => exact absurd rfl (hne te)
    have htr : ∀ A : Nat, ∀ s : Nat, ∀ legs : List Leg,
        ∀ te : TransferEdge,
        (rs.graph.getD round JsMap.empty).get? s =
          some (.transfer te) →
        te.arrival = .mins A →
        ∃ N : Nat, Result.bestRouteGo tt rs N s round legs ≠
          .outOfFuel := by
      intro A
      induction A using Nat.strong_induction_on with
      | _ A ihA =>
      intro s legs te hedge hA
      obtain ⟨⟨e2, he2, hcl⟩, _⟩ := hw round s te hedge
      cases e2 with
      | origin a2 =>
        obtain ⟨N2, hN2⟩ := hnt te.fromStop
          (.transfer ⟨te.fromStop, te.toStop, te.minTransferTime,
            te.type⟩ :: legs) (.origin a2) he2
          (by intro te2 h; cases h)
        refine ⟨N2 + 1, ?_⟩
        rw [bestRouteGo_transfer tt rs N2 s round legs te hr hedge]
        exact hN2
      | vehicle ve2 =>
        obtain ⟨N2, hN2⟩ := hnt te.fromStop
          (.transfer ⟨te.fromStop, te.toStop, te.minTransferTime,
            te.type⟩ :: legs) (.vehicle ve2) he2
          (by intro te2 h; cases h)
        refine ⟨N2 + 1, ?_⟩
        rw [bestRouteGo_transfer tt rs N2 s round legs te hr hedge]
        exact hN2
      | transfer te2 =>
        have hbt := hcl te2 rfl
        obtain ⟨A2, hA2⟩ := Time.mins_of_isBefore hbt
        have hlt : A2 < A := by
          rw [hA2, hA] at hbt
          simpa [Time.isBefore] using hbt
        obtain ⟨N2, hN2⟩ := ihA A2 hlt te.fromStop
          (.transfer ⟨te.fromStop, te.toStop, te.minTransferTime,
            te.type⟩ :: legs) te2 he2 hA2
        refine ⟨N2 + 1, ?_⟩
        rw [bestRouteGo_transfer tt rs N2 s round legs te hr hedge]
        exact hN2
    intro s legs
    rcases hedge : (rs.graph.getD round JsMap.empty).get? s with _ | e
    · refine ⟨1, ?_⟩
      rw [show (1 : Nat) = 0 + 1 from rfl,
        bestRouteGo_edge_none tt rs 0 s round legs hr hedge]
      simp
    · cases e with
      | origin a =>
        exact hnt s legs (.origin a) hedge (by intro te h; cases h)
      | vehicle ve =>
        exact hnt s legs (.vehicle ve) hedge (by intro te h; cases h)
      | transfer te =>
        rcases hA : te.arrival with A | _
        · exact htr A s legs te (by rw [hedge]) hA
        · obtain ⟨⟨e2, he2, hcl⟩, _⟩ := hw round s te hedge
          cases e2 with
          | origin a2 =>
            obtain ⟨N2, hN2⟩ := hnt te.fromStop
              (.transfer ⟨te.fromStop, te.toStop, te.minTransferTime,
                te.type⟩ :: legs) (.origin a2) he2
              (by intro te2 h; cases h)
            refine ⟨N2 + 1, ?_⟩
            rw [bestRouteGo_transfer tt rs N2 s round legs te hr hedge]
            exact hN2
          | vehicle ve2 =>
            obtain ⟨N2, hN2⟩ := hnt te.fromStop
              (.transfer ⟨te.fromStop, te.toStop, te.minTransferTime,
                te.type⟩ :: legs) (.vehicle ve2) he2
              (by intro te2 h; cases h)
            refine ⟨N2 + 1, ?_⟩
            rw [bestRouteGo_transfer tt rs N2 s round legs te hr hedge]
            exact hN2
          | transfer te2 =>
            have hbt := hcl te2 rfl
            obtain ⟨A2, hA2⟩ := Time.mins_of_isBefore hbt
            obtain ⟨N2, hN2⟩ := htr A2 te.fromStop
              (.transfer ⟨te.fromStop, te.toStop, te.minTransferTime,
                te.type⟩ :: legs) te2 he2 hA2
            refine ⟨N2 + 1, ?_⟩
            rw [bestRouteGo_transfer tt rs N2 s round legs te hr hedge]
            exact hN2

/-- `bestRoute`'s fuel dependence is confined to the backward walk: for
every state it either always returns `noRoute` (no reached destination, or
the stop-id-0 truthiness miss) or always delegates to `bestRouteGo` from a
fixed destination and leg number. -/
theorem bestRoute_shape (tt : Timetable) (stopsIndex : Router.StopsIndexFn)
    (query : Router.Query) (rs : RoutingState) (to? : Option (List Nat)) :
    (∀ f : Nat, Result.bestRoute tt stopsIndex query rs to? f =
      Result.BestRouteResult.noRoute) ∨
    ∃ d : Nat, ∃ ft : Arrival, ∀ f : Nat,
      Result.bestRoute tt stopsIndex query rs to? f =
      Result.bestRouteGo tt rs f d ft.legNumber [] := by
  rcases hfast : ((to?.getD query.toStops).foldl
      (fun acc destination => acc ++ stopsIndex destination) []).foldl
      (fun (acc : Option (Nat × Arrival)) destination =>
        match rs.earliestArrivals.get? destination with
        | some arrivalTime =>
            match acc with
            | none => some (destination, arrivalTime)
            | some (_, fastestTime) =>
                if arrivalTime.arrival.isBefore fastestTime.arrival then
                  some (destination, arrivalTime)
                else acc
        | none => acc)
      none with _ | ⟨d, ft⟩
  · left
    intro f
    rw [Result.bestRoute]
    rw [hfast]
  · by_cases hd : d = 0
    · left
      intro f
      rw [Result.bestRoute]
      rw [hfast]
      simp [hd]
    · right
      refine ⟨d, ft, fun f => ?_⟩
      rw [Result.bestRoute]
      rw [hfast]
      simp [hd]

/-- Counterexample scenario for C10's stated mechanism: one route 10→1
(arr 100), one route 10→3 (arr 90), walking transfers 1→2 and 3→1 (2 min
each), from stop 10 to stop 2. -/
def c10Timetable : Timetable :=
  ⟨[⟨[], []⟩,
    ⟨[0], [⟨2, .RECOMMENDED, some 2⟩]⟩,
    ⟨[], []⟩,
    ⟨[1], [⟨1, .RECOMMENDED, some 2⟩]⟩,
    ⟨[], []⟩, ⟨[], []⟩, ⟨[], []⟩, ⟨[], []⟩, ⟨[], []⟩, ⟨[], []⟩,
    ⟨[0, 1], []⟩],
    [⟨0, [0, 0, 100, 100], [0], [10, 1], 0⟩,
      ⟨1, [0, 0, 90, 90], [0], [10, 3], 0⟩],
    [⟨.BUS⟩], []⟩

def c10Query : Router.Query := ⟨10, [2], .mins 0, ⟨4, 2, []⟩⟩

/-- Counterexample to C10 as stated: in the final round-1 map of the
`c10Timetable` run, stop 2 holds a transfer edge from stop 1, and stop 1
itself holds ANOTHER transfer edge (from stop 3: the better one-leg route
to 3 plus the 3→1 walk overwrote stop 1's vehicle arrival) — so the
backward walk traverses two consecutive transfer edges, refuting "at most
one consecutive Transfer edge". The walk still terminates (see the amended
theorem): the predecessor transfer's arrival 92 is strictly before 102. -/
theorem bestRoute_terminates_cex :
    ((Router.route c10Timetable singletonStopsIndex c10Query 10).graph.getD
        1 JsMap.empty).get? 2 =
      some (.transfer ⟨.mins 102, 1, 2, .RECOMMENDED, some 2⟩) ∧
    ((Router.route c10Timetable singletonStopsIndex c10Query 10).graph.getD
        1 JsMap.empty).get? 1 =
      some (.transfer ⟨.mins 92, 3, 1, .RECOMMENDED, some 2⟩) ∧
    (Time.mins 92).isBefore (.mins 102) = true :=
  ⟨rfl, rfl, rfl⟩

/-- C10 (amended): `bestRoute`'s backward reconstruction always terminates
on any state produced by `Router.route` — not because at most one
consecutive transfer edge can occur (two consecutive transfer edges are
possible, see the counterexample), but because a transfer edge's
predecessor transfer always arrives strictly earlier (the transfer-chain
invariant `WalkInv`), so each round admits only finitely many transfer
steps before a vehicle edge decrements the round: some finite fuel makes
the ghost-fueled walk finish, and any extra fuel returns the same
result. -/
theorem bestRoute_terminates (tt : Timetable)
    (stopsIndex : Router.StopsIndexFn) (query : Router.Query)
    (contFuel : Nat) (to? : Option (List Nat)) :
    ∃ N : Nat, ∀ k : Nat,
      Result.bestRoute tt stopsIndex query
        (Router.route tt stopsIndex query contFuel) to? (N + k) =
        Result.bestRoute tt stopsIndex query
          (Router.route tt stopsIndex query contFuel) to? N ∧
      Result.bestRoute tt stopsIndex query
        (Router.route tt stopsIndex query contFuel) to? N ≠
        Result.BestRouteResult.outOfFuel := by
  have hw : WalkInv (Router.route tt stopsIndex query contFuel) :=
    (route_GlobalInv tt stopsIndex query contFuel).2
  rcases bestRoute_shape tt stopsIndex query
    (Router.route tt stopsIndex query contFuel) to? with hno | ⟨d, ft, heq⟩
  · refine ⟨1, fun k => ⟨(hno _).trans (hno _).symm, ?_⟩⟩
    rw [hno]
    simp
  · obtain ⟨N, hN⟩ := bestRouteGo_terminates tt
      (Router.route tt stopsIndex query contFuel) hw ft.legNumber d []
    refine ⟨N, fun k => ⟨?_, ?_⟩⟩
    · rw [heq, heq]
      exact bestRouteGo_mono tt _ N d ft.legNumber [] hN k
    · rw [heq]
      exact hN

end Minotor
